import Mathlib

/-!
# Calculator: parser, splitter and evaluator of `Calculator/Calculator.cpp`

A shallow embedding of the C++ program.  Strings are lists of characters,
`size_t` values are natural numbers below `2 ^ 64` (with `npos = 2 ^ 64 - 1`),
the `int` loop index of `findOper` is an integer obtained from `size_t`
values by two's complement truncation to 32 bits.  Loops that need not
terminate take a fuel argument and answer `Run.timeout` when it is used up.

The `double` arithmetic and the numeric conversion of `strtod` are hardware
and library behaviour, not code of the repository: they are the parameter
`Arith D` of the model.  `exactArith` is one instance, the fragment of
binary64 arithmetic whose results are exact.

The `int` index is exact for texts shorter than `2 ^ 31` characters (beyond
that `++i` overflows, which C++ leaves undefined); the theorems carry that
bound as a hypothesis.
-/

namespace Calculator

/-! ## Machine integers and strings -/

/-- The constant `std::string::npos`: the largest 64-bit `size_t`. -/
def npos : Nat := 2 ^ 64 - 1

/-- Subtraction of `size_t` values, wrapping modulo `2 ^ 64`
(`expr.size() - 1`, `find_first_of(..) - 1`). -/
def sizeSub (a b : Nat) : Nat := (a + 2 ^ 64 - b % 2 ^ 64) % 2 ^ 64

/-- Conversion of a `size_t` to `int` (`i = findEnd(expr, i)`): truncation to
32 bits, read as two's complement. -/
def toInt (n : Nat) : Int :=
  if n % 2 ^ 32 < 2 ^ 31 then ((n % 2 ^ 32 : Nat) : Int) else ((n % 2 ^ 32 : Nat) : Int) - 2 ^ 32

/-- Conversion of an `int` to `size_t` (`i < expr.size()`, `expr[i]`, `pos = i`). -/
def toSize (i : Int) : Nat := (i % 2 ^ 64).toNat

/-- The character `expr[i]`; `expr[expr.size()]` is the terminating NUL. -/
def charAt (expr : List Char) (i : Nat) : Char := expr.getD i '\x00'

/-- Exceptions thrown by the standard library calls of `parse`. -/
inductive Exn where
  | out_of_range
  | invalid_argument
  deriving DecidableEq, Repr

/-- Outcome of a run: a returned value, an uncaught exception, or fuel used up. -/
inductive Run (α : Type) where
  | ret (a : α)
  | throw (e : Exn)
  | timeout
  deriving DecidableEq, Repr

/-- Sequencing of runs: the first exception or timeout ends the run. -/
def Run.bind {α β : Type} (r : Run α) (f : α → Run β) : Run β :=
  match r with
  | .ret a => f a
  | .throw e => .throw e
  | .timeout => .timeout

/-- The call `str.substr(pos, n)`: throws `out_of_range` when `pos > size()`. -/
def substr (str : List Char) (pos n : Nat) : Run (List Char) :=
  if str.length < pos then .throw .out_of_range else .ret ((str.drop pos).take n)

/-- Scan of `find_first_of` over the characters from index `i` on. -/
def findFirstOfLoop (chars : List Char) : List Char → Nat → Nat
  | [], _ => npos
  | c :: rest, i => if c ∈ chars then i else findFirstOfLoop chars rest (i + 1)

/-- The call `expr.find_first_of(chars, pos)`. -/
def find_first_of (expr chars : List Char) (pos : Nat) : Nat :=
  findFirstOfLoop chars (expr.drop pos) pos

/-! ## `Parser::findEnd` and `Parser::findOper` -/

/-- The `for` loop of `findEnd` over the characters from index `i` on. -/
def findEndLoop : List Char → Nat → Int → Nat
  | [], _, _ => npos
  | c :: rest, i, count =>
    let count := if c = '(' then count + 1 else if c = ')' then count - 1 else count
    if count = 0 then i else findEndLoop rest (i + 1) count

/-- `Parser::findEnd`: index of the parenthesis closing the one at `pos`. -/
def findEnd (expr : List Char) (pos : Nat) : Nat :=
  if charAt expr pos ≠ '(' then npos else findEndLoop (expr.drop pos) pos 0

/-- The characters searched by `find_first_of` in `findOper`. -/
def operChars : List Char := ['+', '-', '*', '/', '^', '(', ')']

/-- The `switch` of `findOper` at index `i`: the new `i` (before `++i`) and `pos`. -/
def findOperBody (expr : List Char) (i : Int) (pos : Nat) : Int × Nat :=
  let c := charAt expr (toSize i)
  if c.isDigit ∨ c = '.' ∨ c = 'x' then
    (toInt (sizeSub (find_first_of expr operChars (toSize i)) 1), pos)
  else if c = '(' then
    (toInt (findEnd expr (toSize i)), pos)
  else if c = '^' then
    (i, if pos = npos then toSize i else pos)
  else if c = '*' ∨ c = '/' then
    (i, if pos = npos ∨ (charAt expr pos ≠ '+' ∧ charAt expr pos ≠ '-') then toSize i else pos)
  else if c = '+' ∨ c = '-' then
    (i, toSize i)
  else
    (i, pos)

/-- The `for` loop of `findOper`, from index `i` with candidate `pos`. -/
def findOperLoop (expr : List Char) : Nat → Int → Nat → Run Nat
  | 0, _, _ => .timeout
  | fuel + 1, i, pos =>
    if toSize i < expr.length then
      findOperLoop expr fuel ((findOperBody expr i pos).1 + 1) (findOperBody expr i pos).2
    else .ret pos

/-- `Parser::findOper`: the split index, or `npos`. -/
def findOper (fuel : Nat) (expr : List Char) : Run Nat :=
  findOperLoop expr fuel 0 npos

/-! ## Floating point: the arithmetic parameter and `std::stod` -/

/-- The `double` operations and conversions the program uses. -/
structure Arith (D : Type) where
  /-- the sum `a + b` -/
  plus : D → D → D
  /-- the difference `a - b` -/
  minus : D → D → D
  /-- the product `a * b` -/
  times : D → D → D
  /-- the quotient `a / b` -/
  over : D → D → D
  /-- the library call `pow(a, n)` -/
  pow : D → D → D
  /-- the negation `-a` -/
  negate : D → D
  /-- the double `strtod` returns for a literal of the given sign and exact
  magnitude; `none` when it reports `ERANGE` -/
  ofRat : Bool → ℚ → Option D
  /-- the infinity of the given sign -/
  inf : Bool → D
  /-- the NaN `strtod` returns for `nan` or `nan(seq)` -/
  nan : Bool → List Char → D
  /-- the double `0`, to which `NULL` converts -/
  zero : D

/-- The function `add` of the source. -/
def add {D : Type} (A : Arith D) (a b : D) : D := A.plus a b

/-- The function `sub` of the source. -/
def sub {D : Type} (A : Arith D) (a b : D) : D := A.minus a b

/-- The function `mult` of the source. -/
def mult {D : Type} (A : Arith D) (a b : D) : D := A.times a b

/-- The function `div` of the source. -/
def div {D : Type} (A : Arith D) (a b : D) : D := A.over a b

/-- The function `expt` of the source. -/
def expt {D : Type} (A : Arith D) (a n : D) : D := A.pow a n

/-- The function `neg` of the source. -/
def neg {D : Type} (A : Arith D) (a : D) : D := A.negate a

/-- The `isspace` test of the C locale. -/
def isSpace (c : Char) : Bool :=
  c = ' ' || c = '\t' || c = '\n' || c = '\x0b' || c = '\x0c' || c = '\r'

/-- Value of `c` as a digit of the given base (10 or 16). -/
def digitOf (base : Nat) (c : Char) : Option Nat :=
  if c.isDigit then some (c.toNat - 48)
  else if base = 16 ∧ 'a' ≤ c ∧ c ≤ 'f' then some (c.toNat - 87)
  else if base = 16 ∧ 'A' ≤ c ∧ c ≤ 'F' then some (c.toNat - 55)
  else none

/-- Reads the longest run of digits: the accumulated value, the number of
digits read, and the unread rest. -/
def readDigits (base : Nat) : List Char → Nat → Nat → Nat × Nat × List Char
  | [], acc, n => (acc, n, [])
  | c :: cs, acc, n =>
    match digitOf base c with
    | some d => readDigits base cs (acc * base + d) (n + 1)
    | none => (acc, n, c :: cs)

/-- Reads an optional exponent part: marker, optional sign, at least one
decimal digit.  Without digits nothing is consumed and the exponent is `0`. -/
def readExponent (lower upper : Char) : List Char → Int
  | [] => 0
  | c :: cs =>
    if c = lower ∨ c = upper then
      let ds := match cs with
        | '+' :: t => t
        | '-' :: t => t
        | _ => cs
      let r := readDigits 10 ds 0 0
      if r.2.1 = 0 then 0
      else match cs with
        | '-' :: _ => - (r.1 : Int)
        | _ => (r.1 : Int)
    else 0

/-- Reads digits with an optional radix point and an optional exponent; at
least one digit is required.  The result is the exact value. -/
def readNumber (base expBase : Nat) (lower upper : Char) (s : List Char) : Option ℚ :=
  let ip := readDigits base s 0 0
  let fp := match ip.2.2 with
    | '.' :: t => readDigits base t 0 0
    | rest => (0, 0, rest)
  if ip.2.1 + fp.2.1 = 0 then none
  else some (((ip.1 * base ^ fp.2.1 + fp.1 : Nat) : ℚ) / ((base ^ fp.2.1 : Nat) : ℚ)
    * (expBase : ℚ) ^ readExponent lower upper fp.2.2)

/-- What `strtod` recognises at the start of a text. -/
inductive Literal where
  | num (q : ℚ)
  | inf
  | nan (seq : List Char)

/-- The character sequence of `nan(seq)`, when the text continues with one. -/
def readNanSeq : List Char → List Char
  | '(' :: t =>
    let seq := t.takeWhile fun c => c.isAlphanum || c = '_'
    match t.drop seq.length with
    | ')' :: _ => seq
    | _ => []
  | _ => []

/-- A hexadecimal literal: `0x` or `0X`, then hexadecimal digits with an
optional binary exponent. -/
def readHex : List Char → Option ℚ
  | '0' :: c :: t => if c = 'x' ∨ c = 'X' then readNumber 16 2 'p' 'P' t else none
  | _ => none

/-- The subject sequence of `strtod` after white space and sign: a
hexadecimal or decimal number, an infinity or a NaN. -/
def readLiteral (s : List Char) : Option Literal :=
  match readHex s with
  | some q => some (.num q)
  | none =>
    match readNumber 10 10 'e' 'E' s with
    | some q => some (.num q)
    | none =>
      if (s.take 3).map Char.toLower = ['i', 'n', 'f'] then some .inf
      else if (s.take 3).map Char.toLower = ['n', 'a', 'n'] then some (.nan (readNanSeq (s.drop 3)))
      else none

/-- Whether the subject sequence of `strtod` starts with a minus sign. -/
def strtodSign : List Char → Bool
  | '-' :: _ => true
  | _ => false

/-- The subject sequence of `strtod` after its optional sign. -/
def strtodBody : List Char → List Char
  | '+' :: t => t
  | '-' :: t => t
  | s => s

/-- The outcome of `std::stod` for what `strtod` recognised:
`invalid_argument` when no conversion is performed, `out_of_range` on `ERANGE`. -/
def stodResult {D : Type} (A : Arith D) (sign : Bool) : Option Literal → Run D
  | none => .throw .invalid_argument
  | some (.num q) =>
    match A.ofRat sign q with
    | none => .throw .out_of_range
    | some d => .ret d
  | some .inf => .ret (A.inf sign)
  | some (.nan seq) => .ret (A.nan sign seq)

/-- The call `std::stod(str)`: `strtod` skips white space, reads an optional
sign and the longest literal. -/
def stod {D : Type} (A : Arith D) (str : List Char) : Run D :=
  stodResult A (strtodSign (str.dropWhile isSpace))
    (readLiteral (strtodBody (str.dropWhile isSpace)))

/-! ## Expression trees -/

/-- The function a `Binary` node holds in `oper`. -/
inductive BinaryOp where
  | add | sub | mult | div | expt
  deriving DecidableEq, Repr

/-- The function a `Unary` node holds in `oper`. -/
inductive UnaryOp where
  | neg
  deriving DecidableEq, Repr

/-- What an `Expression*` points to; `nullptr` is the null pointer. -/
inductive Expression (D : Type) where
  | Binary (oper : BinaryOp) (left right : Expression D)
  | Unary (oper : UnaryOp) (right : Expression D)
  | Constant (val : D)
  | Variable
  | nullptr
  deriving DecidableEq, Repr

/-- Application of the function a `Binary` node holds. -/
def BinaryOp.apply {D : Type} (A : Arith D) : BinaryOp → D → D → D
  | .add => Calculator.add A
  | .sub => Calculator.sub A
  | .mult => Calculator.mult A
  | .div => Calculator.div A
  | .expt => Calculator.expt A

/-- Application of the function a `Unary` node holds. -/
def UnaryOp.apply {D : Type} (A : Arith D) : UnaryOp → D → D
  | .neg => Calculator.neg A

/-- The method `value()`; `none` is a null pointer dereference. -/
def Expression.value {D : Type} (A : Arith D) : Expression D → Option D
  | .Binary oper left right =>
    match left.value A, right.value A with
    | some a, some b => some (oper.apply A a b)
    | _, _ => none
  | .Unary oper right =>
    match right.value A with
    | some a => some (oper.apply A a)
    | none => none
  | .Constant val => some val
  | .Variable => some A.zero
  | .nullptr => none

/-- The method `value(double var)`; `none` is a null pointer dereference. -/
def Expression.valueAt {D : Type} (A : Arith D) (var : D) : Expression D → Option D
  | .Binary oper left right =>
    match left.valueAt A var, right.valueAt A var with
    | some a, some b => some (oper.apply A a b)
    | _, _ => none
  | .Unary oper right =>
    match right.valueAt A var with
    | some a => some (oper.apply A a)
    | none => none
  | .Constant val => some val
  | .Variable => some var
  | .nullptr => none

/-! ## `Parser::parse` -/

/-- The `while` loop at the head of `parse`: strips wrapping parentheses. -/
def stripLoop : Nat → List Char → Run (List Char)
  | 0, _ => .timeout
  | fuel + 1, expr =>
    if findEnd expr 0 = sizeSub expr.length 1 then
      (substr expr 1 (sizeSub expr.length 2)).bind (stripLoop fuel)
    else .ret expr

/-- The `switch (expr[0])` of the unary branch of `parse`; without a matching
case control reaches `return nullptr`. -/
def unaryNode {D : Type} (c : Char) (right : Expression D) : Expression D :=
  if c = '+' then right
  else if c = '-' then .Unary .neg right
  else .nullptr

/-- The `switch (expr[pos])` of the binary branch of `parse`; without a
matching case control reaches `return nullptr`. -/
def binaryNode {D : Type} (c : Char) (left right : Expression D) : Expression D :=
  if c = '+' then .Binary .add left right
  else if c = '-' then .Binary .sub left right
  else if c = '*' then .Binary .mult left right
  else if c = '/' then .Binary .div left right
  else if c = '^' then .Binary .expt left right
  else .nullptr

/-- The branches of `parse` once the split index `pos` of the stripped text
`expr` is known; `recur` is the recursive call of `parse`. -/
def parseSplit {D : Type} (A : Arith D) (recur : List Char → Run (Expression D))
    (expr : List Char) (pos : Nat) : Run (Expression D) :=
  if pos = npos then
    if expr = ['x'] then .ret .Variable
    else (stod A expr).bind fun v => .ret (.Constant v)
  else if pos = 0 then
    (substr expr 1 npos).bind fun rest =>
    (recur rest).bind fun right =>
    .ret (unaryNode (charAt expr 0) right)
  else
    (substr expr 0 pos).bind fun ltext =>
    (recur ltext).bind fun left =>
    (substr expr (pos + 1) npos).bind fun rtext =>
    (recur rtext).bind fun right =>
    .ret (binaryNode (charAt expr pos) left right)

/-- `Parser::parse`: strip wrapping parentheses, find the split, branch.  The
fuel bounds the recursion depth and the iterations of each loop. -/
def parse {D : Type} (A : Arith D) : Nat → List Char → Run (Expression D)
  | 0, _ => .timeout
  | fuel + 1, text =>
    (stripLoop (fuel + 1) text).bind fun expr =>
    (findOper (fuel + 1) expr).bind fun pos =>
    parseSplit A (parse A fuel) expr pos

/-! ## The exact fragment of binary64 arithmetic -/

/-- Whether the rational `q` is a binary64 value: `m * 2 ^ e` with
`m < 2 ^ 53` and `-1074 ≤ e ≤ 971`. -/
def representable (q : ℚ) : Bool :=
  decide (2 ^ 1074 % q.den = 0)
    && decide (q.num.natAbs % 2 ^ (Nat.log2 q.num.natAbs + 1 - 53) = 0)
    && decide (q.num.natAbs < 2 ^ 1024 * q.den)

/-- Keeps an exact result when it is a binary64 value. -/
def exactResult (q : ℚ) : Option ℚ := if representable q then some q else none

/-- Binary64 arithmetic where it is exact: `some q` is the double of value
`q`; `none` stands for a double outside the fragment (a rounded result, an
infinity, a NaN).  An operation yields `some q` only when the IEEE 754 result
is exactly `q`.  `ofRat` reports `ERANGE` on overflow and on inexact
underflow, as glibc does where tininess is detected after rounding (x86-64):
an inexact magnitude below `2^-1022 - 2^-1076`, which rounded to 53 bits
stays below `DBL_MIN`. -/
def exactArith : Arith (Option ℚ) where
  plus a b := match a, b with
    | some x, some y => exactResult (x + y)
    | _, _ => none
  minus a b := match a, b with
    | some x, some y => exactResult (x - y)
    | _, _ => none
  times a b := match a, b with
    | some x, some y => exactResult (x * y)
    | _, _ => none
  over a b := match a, b with
    | some x, some y => if y = 0 then none else exactResult (x / y)
    | _, _ => none
  pow a n := match a, n with
    | some x, some y =>
      if y.den = 1 ∧ ¬ (x = 0 ∧ y < 0) then exactResult (x ^ y.num) else none
    | _, _ => none
  negate a := match a with
    | some x => some (-x)
    | none => none
  ofRat sign q :=
    if representable q then some (some (if sign then -q else q))
    else if (2 ^ 1024 - 2 ^ 970 : ℚ) ≤ q ∨ q < (1 / 2 ^ 1022 - 1 / 2 ^ 1076 : ℚ) then none
    else some none
  inf _ := none
  nan _ _ := none
  zero := some 0

/-! ## Reference notions of the specification -/

/-- Change of the parenthesis depth over one character. -/
def parenDelta (c : Char) : Int := if c = '(' then 1 else if c = ')' then -1 else 0

/-- Parenthesis depth after a text: opening minus closing parentheses. -/
def depth (l : List Char) : Int := (l.count '(' : Int) - (l.count ')' : Int)

/-- Balanced parentheses: no initial segment has more `)` than `(`, and the
totals are equal. -/
def Balanced (s : List Char) : Prop :=
  (∀ k, k ≤ s.length → (s.take k).count ')' ≤ (s.take k).count '(') ∧ s.count '(' = s.count ')'

instance instDecidableBalanced (s : List Char) : Decidable (Balanced s) := by
  unfold Balanced; infer_instance

/-- The character `c` stands at index `i` of `s`, at parenthesis depth 0. -/
def TopAt (s : List Char) (i : Nat) (c : Char) : Prop :=
  i < s.length ∧ charAt s i = c ∧ depth (s.take i) = 0

/-- A `+` or `-` at depth 0 stands at index `i`. -/
def AddAt (s : List Char) (i : Nat) : Prop := TopAt s i '+' ∨ TopAt s i '-'

/-- A `*` or `/` at depth 0 stands at index `i`. -/
def MulAt (s : List Char) (i : Nat) : Prop := TopAt s i '*' ∨ TopAt s i '/'

/-- A `^` at depth 0 stands at index `i`. -/
def PowAt (s : List Char) (i : Nat) : Prop := TopAt s i '^'

/-- The splitter reference definition restricted to the indices below `n`:
the invariant of the scan of `findOper`. -/
def SplitBelow (s : List Char) (n r : Nat) : Prop :=
  (AddAt s r ∧ r < n ∧ ∀ j, j < n → AddAt s j → j ≤ r) ∨
  ((∀ j, j < n → ¬ AddAt s j) ∧ MulAt s r ∧ r < n ∧ ∀ j, j < n → MulAt s j → j ≤ r) ∨
  ((∀ j, j < n → ¬ AddAt s j ∧ ¬ MulAt s j) ∧ PowAt s r ∧ r < n ∧
    ∀ j, j < n → PowAt s j → r ≤ j) ∨
  ((∀ j, j < n → ¬ AddAt s j ∧ ¬ MulAt s j ∧ ¬ PowAt s j) ∧ r = npos)

/-- The text `s` inside `n` layers of wrapping parentheses. -/
def wrapped : Nat → List Char → List Char
  | 0, s => s
  | n + 1, s => '(' :: (wrapped n s ++ [')'])

/-- A run of one or more decimal digits. -/
def IsDigits (l : List Char) : Prop := l ≠ [] ∧ ∀ c ∈ l, c.isDigit = true

/-- The number form of the grammar: digits, optionally followed by `.` and
digits. -/
def NumberForm (s : List Char) : Prop :=
  ∃ ip, IsDigits ip ∧ (s = ip ∨ ∃ fp, IsDigits fp ∧ s = ip ++ '.' :: fp)

/-- The natural number written by a run of decimal digits. -/
def digitsValue (l : List Char) : Nat := l.foldl (fun acc c => acc * 10 + (c.toNat - 48)) 0

/-- The numeric value of a text of number form. -/
def numberValue (s : List Char) : ℚ :=
  (digitsValue (s.takeWhile fun c => c ≠ '.') : ℚ)
    + (digitsValue ((s.dropWhile fun c => c ≠ '.').drop 1) : ℚ)
      / (10 : ℚ) ^ ((s.dropWhile fun c => c ≠ '.').drop 1).length

/-! ## `solve` -/

/-- The `double` operations `solve` uses besides those of the evaluator. -/
structure ArithOrd (D : Type) extends Arith D where
  /-- the absolute value `abs(a)` -/
  abs : D → D
  /-- the comparison `a < b` -/
  lt : D → D → Bool
  /-- the constant `DBL_MIN` -/
  dblMin : D

/-- The `for` loop of `solve` with `n` iterations left, at estimate `x`, after
`calls` calls of `expr->value`: the value returned together with the number
of calls of `expr->value` made; `none` is a null pointer dereference. -/
def solveLoop {D : Type} (A : ArithOrd D) (expr : Expression D) (dx : D) :
    Nat → Nat → D → Option (D × Nat)
  | 0, calls, x => some (x, calls)
  | n + 1, calls, x =>
    match expr.valueAt A.toArith x with
    | none => none
    | some y =>
      match expr.valueAt A.toArith (A.plus x dx) with
      | none => none
      | some y2 =>
        if A.lt (A.abs y) A.dblMin then
          some (A.minus x (A.over y (A.over (A.minus y2 y) dx)), calls + 2)
        else
          solveLoop A expr dx n (calls + 2) (A.minus x (A.over y (A.over (A.minus y2 y) dx)))

/-- The function `solve`: at most 1000 iterations from `x0`. -/
def solve {D : Type} (A : ArithOrd D) (expr : Expression D) (x0 dx : D) : Option (D × Nat) :=
  solveLoop A expr dx 1000 0 x0

/-- The Newton update of the reference definition:
`N(x) = x - f(x) / ((f(x + dx) - f(x)) / dx)`. -/
def newtonStep {D : Type} (A : ArithOrd D) (f : D → D) (dx x : D) : D :=
  A.minus x (A.over (f x) (A.over (A.minus (f (A.plus x dx)) (f x)) dx))

/-- The sequence of the reference definition: `x_0 = x0`, `x_{i+1} = N(x_i)`. -/
def newtonSeq {D : Type} (A : ArithOrd D) (f : D → D) (dx x0 : D) : Nat → D
  | 0 => x0
  | i + 1 => newtonStep A f dx (newtonSeq A f dx x0 i)

/-- The residual test of the reference definition: `|f(x)| < DBL_MIN`. -/
def residualSmall {D : Type} (A : ArithOrd D) (f : D → D) (x : D) : Bool :=
  A.lt (A.abs (f x)) A.dblMin

/-! ## Measures of trees and texts -/

/-- Whether the tree has a `Variable` node. -/
def Expression.hasVariable {D : Type} : Expression D → Bool
  | .Binary _ left right => left.hasVariable || right.hasVariable
  | .Unary _ right => right.hasVariable
  | .Constant _ => false
  | .Variable => true
  | .nullptr => false

/-- Whether the tree has a null pointer in the place of a node. -/
def Expression.hasNull {D : Type} : Expression D → Bool
  | .Binary _ left right => left.hasNull || right.hasNull
  | .Unary _ right => right.hasNull
  | .Constant _ => false
  | .Variable => false
  | .nullptr => true

/-- The number of `Unary` and `Binary` nodes of the tree. -/
def Expression.nodes {D : Type} : Expression D → Nat
  | .Binary _ left right => left.nodes + right.nodes + 1
  | .Unary _ right => right.nodes + 1
  | .Constant _ => 0
  | .Variable => 0
  | .nullptr => 0

/-- The number of leaves (`Constant` and `Variable` nodes) of the tree. -/
def Expression.leaves {D : Type} : Expression D → Nat
  | .Binary _ left right => left.leaves + right.leaves
  | .Unary _ right => right.leaves
  | .Constant _ => 1
  | .Variable => 1
  | .nullptr => 0

/-- The depth of the tree, a leaf having depth 0. -/
def Expression.height {D : Type} : Expression D → Nat
  | .Binary _ left right => max left.height right.height + 1
  | .Unary _ right => right.height + 1
  | .Constant _ => 0
  | .Variable => 0
  | .nullptr => 0

/-- Whether the character is one of the operators `+ - * / ^`. -/
def isOperator (c : Char) : Bool := c = '+' || c = '-' || c = '*' || c = '/' || c = '^'

/-- The number of operator characters of a text. -/
def operCount (s : List Char) : Nat := s.countP isOperator

/-! ## Fully parenthesised rendering -/

/-- Trees over natural constants, built from `Constant`, `Variable`,
`Unary neg` and `Binary`. -/
inductive Tree where
  | const (n : Nat)
  | var
  | neg (e : Tree)
  | bin (oper : BinaryOp) (left right : Tree)
  deriving DecidableEq, Repr

/-- The decimal digits of a natural number. -/
def showNat (n : Nat) : List Char :=
  if n = 0 then ['0'] else ((Nat.digits 10 n).reverse.map Nat.digitChar)

/-- The character of a binary operator. -/
def BinaryOp.char : BinaryOp → Char
  | .add => '+'
  | .sub => '-'
  | .mult => '*'
  | .div => '/'
  | .expt => '^'

/-- The fully parenthesised rendering of a tree. -/
def Tree.show : Tree → List Char
  | .const n => showNat n
  | .var => ['x']
  | .neg e => '-' :: '(' :: (e.show ++ [')'])
  | .bin oper left right => '(' :: (left.show ++ [')']) ++ oper.char :: '(' :: (right.show ++ [')'])

/-- A value of the type `double` (IEEE 754 binary64): a NaN, an infinity, a
zero with its sign, or a finite number other than zero, given by its exact
value. -/
inductive Double where
  | nan
  | inf (neg : Bool)
  | zero (neg : Bool)
  | fin (q : ℚ)
  deriving DecidableEq

/-- Floor of the binary logarithm of `n`, and `0` for `n < 2`, by repeated
halving; `fuel` bounds the number of halvings. -/
def log2Loop : Nat → Nat → Nat
  | 0, _ => 0
  | fuel + 1, n => if n < 2 then 0 else log2Loop fuel (n / 2) + 1

/-- Floor of the binary logarithm of `n / d`, for positive `n` and `d`. -/
def floorLog2 (n d : Nat) : Int :=
  if d * 2 ^ ((log2Loop n n : Int) - (log2Loop d d : Int)).toNat
      ≤ n * 2 ^ ((log2Loop d d : Int) - (log2Loop n n : Int)).toNat then
    (log2Loop n n : Int) - (log2Loop d d : Int)
  else (log2Loop n n : Int) - (log2Loop d d : Int) - 1

/-- The integer nearest to `n / d`, the even one of two nearest. -/
def roundHalfEven (n d : Nat) : Nat :=
  if 2 * (n % d) < d then n / d
  else if d < 2 * (n % d) then n / d + 1
  else if (n / d) % 2 = 0 then n / d
  else n / d + 1

/-- The exponent of the unit in the last place of the binary64 format at the
rational `q`, which is not zero: 52 below the exponent of `q`, at least `-1074`. -/
def ulpExponent (q : ℚ) : Int := max (floorLog2 q.num.natAbs q.den - 52) (-1074)

/-- The significand of the binary64 value nearest to `q`, in units in the
last place. -/
def roundSignificand (q : ℚ) : Nat :=
  roundHalfEven (q.num.natAbs * 2 ^ (- ulpExponent q).toNat) (q.den * 2 ^ (ulpExponent q).toNat)

/-- Rounding to nearest, ties to even, of an exact result: an infinity on
overflow, a zero with the sign of `q` on underflow, and `+0` for `q = 0`. -/
def roundDouble (q : ℚ) : Double :=
  if q = 0 then .zero false
  else if 2 ^ 1024 ≤ roundSignificand q * 2 ^ (ulpExponent q).toNat then .inf (decide (q < 0))
  else if roundSignificand q = 0 then .zero (decide (q < 0))
  else .fin (mkRat ((if q < 0 then -1 else 1) * (roundSignificand q * 2 ^ (ulpExponent q).toNat : Nat))
    (2 ^ (- ulpExponent q).toNat))

/-- The sign bit of a double that is not a NaN. -/
def Double.sign : Double → Bool
  | .nan => false
  | .inf s => s
  | .zero s => s
  | .fin q => decide (q < 0)

/-- The negation `-a`. -/
def Double.neg : Double → Double
  | .nan => .nan
  | .inf s => .inf (!s)
  | .zero s => .zero (!s)
  | .fin q => .fin (-q)

/-- The sum `a + b`. -/
def Double.add : Double → Double → Double
  | .nan, _ => .nan
  | _, .nan => .nan
  | .inf s, .inf t => if s = t then .inf s else .nan
  | .inf s, _ => .inf s
  | _, .inf t => .inf t
  | .zero s, .zero t => .zero (s && t)
  | .zero _, .fin q => .fin q
  | .fin p, .zero _ => .fin p
  | .fin p, .fin q => roundDouble (p + q)

/-- The difference `a - b`. -/
def Double.sub : Double → Double → Double
  | .nan, _ => .nan
  | _, .nan => .nan
  | .inf s, .inf t => if s = t then .nan else .inf s
  | .inf s, _ => .inf s
  | _, .inf t => .inf (!t)
  | .zero s, .zero t => .zero (s && !t)
  | .zero _, .fin q => .fin (-q)
  | .fin p, .zero _ => .fin p
  | .fin p, .fin q => roundDouble (p - q)

/-- The product `a * b`. -/
def Double.mul : Double → Double → Double
  | .nan, _ => .nan
  | _, .nan => .nan
  | .inf _, .zero _ => .nan
  | .zero _, .inf _ => .nan
  | .inf s, b => .inf (s != b.sign)
  | a, .inf t => .inf (a.sign != t)
  | .zero s, b => .zero (s != b.sign)
  | a, .zero t => .zero (a.sign != t)
  | .fin p, .fin q => roundDouble (p * q)

/-- The quotient `a / b`. -/
def Double.div : Double → Double → Double
  | .nan, _ => .nan
  | _, .nan => .nan
  | .inf _, .inf _ => .nan
  | .zero _, .zero _ => .nan
  | .inf s, b => .inf (s != b.sign)
  | a, .inf t => .zero (a.sign != t)
  | .zero s, b => .zero (s != b.sign)
  | a, .zero t => .inf (a.sign != t)
  | .fin p, .fin q => roundDouble (p / q)

/-- The absolute value `abs(a)`. -/
def Double.abs : Double → Double
  | .nan => .nan
  | .inf _ => .inf false
  | .zero _ => .zero false
  | .fin q => .fin |q|

/-- The comparison `a < b`, false when an operand is a NaN. -/
def Double.lt : Double → Double → Bool
  | .nan, _ => false
  | _, .nan => false
  | .inf s, .inf t => s && !t
  | .inf s, _ => s
  | _, .inf t => !t
  | .zero _, .zero _ => false
  | .zero _, .fin q => decide (0 < q)
  | .fin p, .zero _ => decide (p < 0)
  | .fin p, .fin q => decide (p < q)

/-- The double `strtod` returns for a literal of the given sign and exact
magnitude; `none` when it reports `ERANGE`: on overflow, and on underflow
with an inexact result, tininess being detected after rounding as glibc does
on x86-64 (an inexact magnitude below `2^-1022 - 2^-1076`, which rounded to
53 bits stays below `DBL_MIN`). -/
def Double.ofRat (sign : Bool) (q : ℚ) : Option Double :=
  if q = 0 then some (.zero sign)
  else
    match roundDouble (if sign then -q else q) with
    | .fin r => if q < 1 / 2 ^ 1022 - 1 / 2 ^ 1076 ∧ |r| ≠ q then none else some (.fin r)
    | _ => none

/-- The arithmetic of `double`, for a given library function `pow`. -/
def binary64 (pow : Double → Double → Double) : ArithOrd Double where
  plus := Double.add
  minus := Double.sub
  times := Double.mul
  over := Double.div
  pow := pow
  negate := Double.neg
  ofRat := Double.ofRat
  inf := Double.inf
  nan := fun _ _ => Double.nan
  zero := Double.zero false
  abs := Double.abs
  lt := Double.lt
  dblMin := Double.fin (1 / 2 ^ 1022)

/-- Whether the rational `r` is the value of a double: zero, or a number
that rounding leaves as it is. -/
def IsDouble (r : ℚ) : Prop := r = 0 ∨ roundDouble r = .fin r

instance instDecidableIsDouble (r : ℚ) : Decidable (IsDouble r) := by
  unfold IsDouble
  infer_instance

/-- The double of value `q`, for `q` the value of a double. -/
def Double.ofExact (q : ℚ) : Double := if q = 0 then .zero false else .fin q

/-- The double `v` is finite and its value is `q`. -/
def Double.HasValue (v : Double) (q : ℚ) : Prop :=
  (q = 0 ∧ ∃ s, v = .zero s) ∨ (q ≠ 0 ∧ v = .fin q)

/-! ## Machine integers, indexing and depth: basic facts -/

theorem toInt_of_lt {n : Nat} (h : n < 2 ^ 31) : toInt n = (n : Int) := by
  unfold toInt
  have h1 : n % 2 ^ 32 = n := Nat.mod_eq_of_lt (by omega)
  rw [h1, if_pos h]

theorem toInt_npos : toInt npos = -1 := by decide

theorem toInt_npos_pred : toInt (sizeSub npos 1) = -2 := by decide

theorem toSize_natCast {n : Nat} (h : n < 2 ^ 64) : toSize (n : Int) = n := by
  unfold toSize
  have : ((n : Int) % 2 ^ 64) = (n : Int) := Int.emod_eq_of_lt (by omega) (by omega)
  rw [this]; simp

theorem toSize_neg_one : toSize (-1) = npos := by decide

theorem sizeSub_one {n : Nat} (h1 : 0 < n) (h2 : n < 2 ^ 64) : sizeSub n 1 = n - 1 := by
  unfold sizeSub
  have : n + 2 ^ 64 - 1 % 2 ^ 64 = (n - 1) + 2 ^ 64 := by omega
  rw [this, Nat.add_mod_right, Nat.mod_eq_of_lt (by omega)]

theorem sizeSub_two {n : Nat} (h1 : 2 ≤ n) (h2 : n < 2 ^ 64) : sizeSub n 2 = n - 2 := by
  unfold sizeSub
  have : n + 2 ^ 64 - 2 % 2 ^ 64 = (n - 2) + 2 ^ 64 := by omega
  rw [this, Nat.add_mod_right, Nat.mod_eq_of_lt (by omega)]

theorem sizeSub_zero_one : sizeSub 0 1 = npos := by decide

theorem charAt_drop (s : List Char) (k j : Nat) : charAt (s.drop k) j = charAt s (k + j) := by
  unfold charAt
  simp [List.getD_eq_getElem?_getD, List.getElem?_drop]

theorem charAt_cons_succ (c : Char) (s : List Char) (j : Nat) :
    charAt (c :: s) (j + 1) = charAt s j := by
  simp [charAt]

theorem charAt_cons_zero (c : Char) (s : List Char) : charAt (c :: s) 0 = c := by
  simp [charAt]

theorem drop_eq_charAt_cons {s : List Char} {k : Nat} (h : k < s.length) :
    s.drop k = charAt s k :: s.drop (k + 1) := by
  unfold charAt
  rw [List.getD_eq_getElem?_getD, List.getElem?_eq_getElem h]
  simp

theorem depth_nil : depth [] = 0 := by simp [depth]

theorem depth_cons (c : Char) (l : List Char) :
    depth (c :: l) = parenDelta c + depth l := by
  unfold depth parenDelta
  by_cases h1 : c = '('
  · subst h1; simp [List.count_cons]; ring
  · by_cases h2 : c = ')'
    · subst h2; simp [List.count_cons]; ring
    · simp [List.count_cons, h1, h2]

theorem depth_append (l1 l2 : List Char) : depth (l1 ++ l2) = depth l1 + depth l2 := by
  unfold depth
  rw [List.count_append, List.count_append]; push_cast; ring

theorem take_succ_eq {s : List Char} {k : Nat} (h : k < s.length) :
    s.take (k + 1) = s.take k ++ [charAt s k] := by
  have hc : charAt s k = s[k] := by
    unfold charAt
    rw [List.getD_eq_getElem?_getD, List.getElem?_eq_getElem h]; rfl
  rw [hc, List.take_succ, List.getElem?_eq_getElem h]; rfl

theorem depth_take_succ {s : List Char} {k : Nat} (h : k < s.length) :
    depth (s.take (k + 1)) = depth (s.take k) + parenDelta (charAt s k) := by
  rw [take_succ_eq h, depth_append, depth_cons, depth_nil]; ring

theorem depth_take_drop (s : List Char) (k j : Nat) :
    depth ((s.drop k).take j) = depth (s.take (k + j)) - depth (s.take k) := by
  rw [List.take_add, depth_append]; ring

theorem balanced_iff (s : List Char) :
    Balanced s ↔ (∀ k, 0 ≤ depth (s.take k)) ∧ depth s = 0 := by
  unfold Balanced depth
  constructor
  · rintro ⟨h1, h2⟩
    refine ⟨fun k => ?_, by omega⟩
    by_cases hk : k ≤ s.length
    · have := h1 k hk; omega
    · rw [List.take_of_length_le (by omega)]; omega
  · rintro ⟨h1, h2⟩
    refine ⟨fun k _ => ?_, by omega⟩
    have := h1 k; omega


theorem findFirstOfLoop_spec (chars : List Char) (l : List Char) : ∀ i,
    (findFirstOfLoop chars l i = npos ∧ ∀ j, j < l.length → charAt l j ∉ chars) ∨
    (∃ j, j < l.length ∧ findFirstOfLoop chars l i = i + j ∧ charAt l j ∈ chars ∧
      ∀ j', j' < j → charAt l j' ∉ chars) := by
  induction l with
  | nil => intro i; left; simp [findFirstOfLoop]
  | cons c t ih =>
    intro i
    by_cases hc : c ∈ chars
    · right
      exact ⟨0, by simp, by simp [findFirstOfLoop, hc], by simpa [charAt] using hc,
        fun j' hj' => by omega⟩
    · rcases ih (i + 1) with ⟨h1, h2⟩ | ⟨j, hj, h1, h2, h3⟩
      · left
        refine ⟨by simp [findFirstOfLoop, hc, h1], fun j hj => ?_⟩
        cases j with
        | zero => simpa [charAt] using hc
        | succ j => rw [charAt_cons_succ]; exact h2 j (by simpa using hj)
      · right
        refine ⟨j + 1, by simpa using hj, ?_, by rw [charAt_cons_succ]; exact h2, fun j' hj' => ?_⟩
        · simp [findFirstOfLoop, hc, h1]; omega
        · cases j' with
          | zero => simpa [charAt] using hc
          | succ j' => rw [charAt_cons_succ]; exact h3 j' (by omega)

theorem find_first_of_spec (s chars : List Char) (k : Nat) :
    (find_first_of s chars k = npos ∧ ∀ j, k ≤ j → j < s.length → charAt s j ∉ chars) ∨
    (∃ q, k ≤ q ∧ q < s.length ∧ find_first_of s chars k = q ∧ charAt s q ∈ chars ∧
      ∀ j, k ≤ j → j < q → charAt s j ∉ chars) := by
  unfold find_first_of
  rcases findFirstOfLoop_spec chars (s.drop k) k with ⟨h1, h2⟩ | ⟨j, hj, h1, h2, h3⟩
  · left
    refine ⟨h1, fun j hkj hj => ?_⟩
    have := h2 (j - k) (by simp; omega)
    rw [charAt_drop] at this
    rwa [show k + (j - k) = j by omega] at this
  · right
    rw [List.length_drop] at hj
    refine ⟨k + j, by omega, by omega, h1, by rwa [charAt_drop] at h2, fun j' hk hj' => ?_⟩
    have := h3 (j' - k) (by omega)
    rw [charAt_drop] at this
    rwa [show k + (j' - k) = j' by omega] at this

theorem findEndLoop_cons (c : Char) (t : List Char) (i : Nat) (count : Int) :
    findEndLoop (c :: t) i count
      = if count + parenDelta c = 0 then i else findEndLoop t (i + 1) (count + parenDelta c) := by
  unfold parenDelta
  rw [findEndLoop]
  by_cases h1 : c = '('
  · simp [h1]
  · by_cases h2 : c = ')'
    · simp [h2]; rfl
    · simp [h1, h2]

theorem findEndLoop_spec (l : List Char) : ∀ (i : Nat) (c : Int),
    (findEndLoop l i c = npos ∧ ∀ j, j < l.length → c + depth (l.take (j + 1)) ≠ 0) ∨
    (∃ j, j < l.length ∧ findEndLoop l i c = i + j ∧ c + depth (l.take (j + 1)) = 0 ∧
      ∀ j', j' < j → c + depth (l.take (j' + 1)) ≠ 0) := by
  induction l with
  | nil => intro i c; left; simp [findEndLoop]
  | cons ch t ih =>
    intro i c
    rw [findEndLoop_cons]
    by_cases h0 : c + parenDelta ch = 0
    · right
      refine ⟨0, by simp, by simp [h0], ?_, fun j' hj' => by omega⟩
      simp [depth_cons, depth_nil, h0]
    · rw [if_neg h0]
      rcases ih (i + 1) (c + parenDelta ch) with ⟨h1, h2⟩ | ⟨j, hj, h1, h2, h3⟩
      · left
        refine ⟨h1, fun j hj => ?_⟩
        cases j with
        | zero => simpa [depth_cons, depth_nil] using h0
        | succ j =>
          have := h2 j (by simpa using hj)
          rw [List.take_succ_cons, depth_cons]
          intro h; apply this; rw [← h]; ring
      · right
        refine ⟨j + 1, by simpa using hj, by rw [h1]; omega, ?_, fun j' hj' => ?_⟩
        · rw [List.take_succ_cons, depth_cons, ← h2]; ring
        · cases j' with
          | zero => simpa [depth_cons, depth_nil] using h0
          | succ j' =>
            have := h3 j' (by omega)
            rw [List.take_succ_cons, depth_cons]
            intro h; apply this; rw [← h]; ring

theorem findEnd_spec {s : List Char} {k : Nat} (hk : k < s.length) (hc : charAt s k = '(') :
    (findEnd s k = npos ∧ ∀ j, k < j → j ≤ s.length → depth (s.take j) ≠ depth (s.take k)) ∨
    (∃ e, k ≤ e ∧ e < s.length ∧ findEnd s k = e ∧ depth (s.take (e + 1)) = depth (s.take k) ∧
      ∀ j, k < j → j ≤ e → depth (s.take j) ≠ depth (s.take k)) := by
  unfold findEnd
  rw [if_neg (by simp [hc])]
  rcases findEndLoop_spec (s.drop k) k 0 with ⟨h1, h2⟩ | ⟨j, hj, h1, h2, h3⟩
  · left
    refine ⟨h1, fun j hkj hj => ?_⟩
    have := h2 (j - k - 1) (by simp; omega)
    rw [depth_take_drop, show k + (j - k - 1 + 1) = j by omega] at this
    intro h; apply this; rw [h]; ring
  · right
    rw [List.length_drop] at hj
    refine ⟨k + j, by omega, by omega, h1, ?_, fun j' hk hj' => ?_⟩
    · rw [depth_take_drop] at h2
      rw [show k + j + 1 = k + (j + 1) by omega]; linarith
    · have := h3 (j' - k - 1) (by omega)
      rw [depth_take_drop, show k + (j' - k - 1 + 1) = j' by omega] at this
      intro h; apply this; rw [h]; ring

theorem depth_take_of_no_paren (s : List Char) (k : Nat) : ∀ d, k + d ≤ s.length →
    (∀ j, k ≤ j → j < k + d → charAt s j ≠ '(' ∧ charAt s j ≠ ')') →
    depth (s.take (k + d)) = depth (s.take k) := by
  intro d
  induction d with
  | zero => intro _ _; rfl
  | succ d ih =>
    intro hd h
    rw [← Nat.add_assoc, depth_take_succ (by omega), ih (by omega) (fun j h1 h2 => h j h1 (by omega))]
    have := h (k + d) (by omega) (by omega)
    simp [parenDelta, this.1, this.2]


theorem lt_npos {n : Nat} (h : n < 2 ^ 31) : n ≠ npos := by
  unfold npos; omega

theorem splitBelow_extend {s : List Char} {n n' r : Nat} (hn : n ≤ n')
    (h0 : ∀ j, n ≤ j → j < n' → ¬ AddAt s j ∧ ¬ MulAt s j ∧ ¬ PowAt s j)
    (h : SplitBelow s n r) : SplitBelow s n' r := by
  rcases h with ⟨ha, hr, hmax⟩ | ⟨hna, hm, hr, hmax⟩ | ⟨hn2, hp, hr, hmin⟩ | ⟨hn3, hr⟩
  · left
    refine ⟨ha, by omega, fun j hj hja => ?_⟩
    by_cases hjn : j < n
    · exact hmax j hjn hja
    · exact absurd hja (h0 j (by omega) hj).1
  · right; left
    refine ⟨fun j hj => ?_, hm, by omega, fun j hj hjm => ?_⟩
    · by_cases hjn : j < n
      · exact hna j hjn
      · exact (h0 j (by omega) hj).1
    · by_cases hjn : j < n
      · exact hmax j hjn hjm
      · exact absurd hjm (h0 j (by omega) hj).2.1
  · right; right; left
    refine ⟨fun j hj => ?_, hp, by omega, fun j hj hjp => ?_⟩
    · by_cases hjn : j < n
      · exact hn2 j hjn
      · exact ⟨(h0 j (by omega) hj).1, (h0 j (by omega) hj).2.1⟩
    · by_cases hjn : j < n
      · exact hmin j hjn hjp
      · exact absurd hjp (h0 j (by omega) hj).2.2
  · right; right; right
    refine ⟨fun j hj => ?_, hr⟩
    by_cases hjn : j < n
    · exact hn3 j hjn
    · exact h0 j (by omega) hj

theorem not_top_of_char {s : List Char} {j : Nat}
    (h : charAt s j ∉ ['+', '-', '*', '/', '^']) :
    ¬ AddAt s j ∧ ¬ MulAt s j ∧ ¬ PowAt s j := by
  simp only [List.mem_cons, List.mem_singleton, not_or, List.not_mem_nil, or_false] at h
  unfold AddAt MulAt PowAt TopAt
  refine ⟨?_, ?_, ?_⟩
  · rintro (⟨_, h1, _⟩ | ⟨_, h1, _⟩)
    · exact h.1 h1
    · exact h.2.1 h1
  · rintro (⟨_, h1, _⟩ | ⟨_, h1, _⟩)
    · exact h.2.2.1 h1
    · exact h.2.2.2.1 h1
  · rintro ⟨_, h1, _⟩
    exact h.2.2.2.2 h1

theorem not_top_of_depth {s : List Char} {j : Nat} (h : depth (s.take j) ≠ 0) :
    ¬ AddAt s j ∧ ¬ MulAt s j ∧ ¬ PowAt s j := by
  unfold AddAt MulAt PowAt TopAt
  refine ⟨?_, ?_, ?_⟩
  · rintro (⟨_, _, h1⟩ | ⟨_, _, h1⟩) <;> exact h h1
  · rintro (⟨_, _, h1⟩ | ⟨_, _, h1⟩) <;> exact h h1
  · rintro ⟨_, _, h1⟩
    exact h h1

theorem splitBelow_zero (s : List Char) : SplitBelow s 0 npos := by
  right; right; right
  exact ⟨fun j hj => absurd hj (Nat.not_lt_zero j), rfl⟩

theorem splitBelow_step_pow {s : List Char} {n r : Nat} (hlen : n < 2 ^ 31)
    (hP : PowAt s n) (hnA : ¬ AddAt s n) (hnM : ¬ MulAt s n) (h : SplitBelow s n r) :
    SplitBelow s (n + 1) (if r = npos then n else r) := by
  have hle : ∀ j, j < n + 1 → j < n ∨ j = n := fun j hj => by omega
  rcases h with ⟨ha, hr, hmax⟩ | ⟨hna, hm, hr, hmax⟩ | ⟨hn2, hp, hr, hmin⟩ | ⟨hn3, hr⟩
  · rw [if_neg (lt_npos (by omega))]
    left
    refine ⟨ha, by omega, fun j hj hja => ?_⟩
    rcases hle j hj with h1 | h1
    · exact hmax j h1 hja
    · subst h1; exact absurd hja hnA
  · rw [if_neg (lt_npos (by omega))]
    right; left
    refine ⟨fun j hj => ?_, hm, by omega, fun j hj hjm => ?_⟩
    · rcases hle j hj with h1 | h1
      · exact hna j h1
      · subst h1; exact hnA
    · rcases hle j hj with h1 | h1
      · exact hmax j h1 hjm
      · subst h1; exact absurd hjm hnM
  · rw [if_neg (lt_npos (by omega))]
    right; right; left
    refine ⟨fun j hj => ?_, hp, by omega, fun j hj hjp => ?_⟩
    · rcases hle j hj with h1 | h1
      · exact hn2 j h1
      · subst h1; exact ⟨hnA, hnM⟩
    · rcases hle j hj with h1 | h1
      · exact hmin j h1 hjp
      · omega
  · rw [if_pos hr]
    right; right; left
    refine ⟨fun j hj => ?_, hP, by omega, fun j hj hjp => ?_⟩
    · rcases hle j hj with h1 | h1
      · exact ⟨(hn3 j h1).1, (hn3 j h1).2.1⟩
      · subst h1; exact ⟨hnA, hnM⟩
    · rcases hle j hj with h1 | h1
      · exact absurd hjp (hn3 j h1).2.2
      · omega

theorem splitBelow_step_mul {s : List Char} {n r : Nat} (hlen : n < 2 ^ 31)
    (hM : MulAt s n) (hnA : ¬ AddAt s n) (h : SplitBelow s n r) :
    SplitBelow s (n + 1)
      (if r = npos ∨ (charAt s r ≠ '+' ∧ charAt s r ≠ '-') then n else r) := by
  have hle : ∀ j, j < n + 1 → j < n ∨ j = n := fun j hj => by omega
  have hnew : (∀ j, j < n → ¬ AddAt s j) → SplitBelow s (n + 1) n := by
    intro hna
    right; left
    refine ⟨fun j hj => ?_, hM, by omega, fun j hj _ => by omega⟩
    rcases hle j hj with h1 | h1
    · exact hna j h1
    · subst h1; exact hnA
  rcases h with ⟨ha, hr, hmax⟩ | ⟨hna, hm, hr, hmax⟩ | ⟨hn2, hp, hr, hmin⟩ | ⟨hn3, hr⟩
  · have hcond : ¬ (r = npos ∨ (charAt s r ≠ '+' ∧ charAt s r ≠ '-')) := by
      rintro (h1 | ⟨h1, h2⟩)
      · exact lt_npos (by omega) h1
      · rcases ha with ⟨_, h3, _⟩ | ⟨_, h3, _⟩
        · exact h1 h3
        · exact h2 h3
    rw [if_neg hcond]
    left
    refine ⟨ha, by omega, fun j hj hja => ?_⟩
    rcases hle j hj with h1 | h1
    · exact hmax j h1 hja
    · subst h1; exact absurd hja hnA
  · have hcond : r = npos ∨ (charAt s r ≠ '+' ∧ charAt s r ≠ '-') := by
      right
      rcases hm with ⟨_, h3, _⟩ | ⟨_, h3, _⟩ <;> rw [h3] <;> decide
    rw [if_pos hcond]
    exact hnew hna
  · have hcond : r = npos ∨ (charAt s r ≠ '+' ∧ charAt s r ≠ '-') := by
      right
      rcases hp with ⟨_, h3, _⟩
      rw [h3]; decide
    rw [if_pos hcond]
    exact hnew fun j hj => (hn2 j hj).1
  · rw [if_pos (Or.inl hr)]
    exact hnew fun j hj => (hn3 j hj).1

theorem splitBelow_step_add {s : List Char} {n : Nat} (hA : AddAt s n) :
    SplitBelow s (n + 1) n := by
  left
  exact ⟨hA, by omega, fun j hj _ => by omega⟩

theorem splitBelow_step {s : List Char} {n r : Nat} (hn : n < s.length)
    (hlen : s.length < 2 ^ 31) (hd : depth (s.take n) = 0)
    (hc : charAt s n ∈ ['^', '*', '/', '+', '-']) (h : SplitBelow s n r) :
    findOperBody s (n : Int) r = ((n : Int), (findOperBody s (n : Int) r).2) ∧
    SplitBelow s (n + 1) (findOperBody s (n : Int) r).2 := by
  have hts : toSize (n : Int) = n := toSize_natCast (by omega)
  simp only [List.mem_cons, List.mem_singleton, List.not_mem_nil, or_false] at hc
  have hno : ∀ c d : Char, c ≠ d → charAt s n = c → ¬ TopAt s n d := by
    rintro c d hcd h1 ⟨_, h2, _⟩
    exact hcd (h1.symm.trans h2)
  rcases hc with hc | hc | hc | hc | hc
  · have hbody : findOperBody s (n : Int) r = ((n : Int), if r = npos then n else r) := by
      simp [findOperBody, hts, hc]
    rw [hbody]
    refine ⟨rfl, splitBelow_step_pow (by omega) ⟨hn, hc, hd⟩ ?_ ?_ h⟩
    · rintro (h1 | h1)
      · exact hno _ _ (by decide) hc h1
      · exact hno _ _ (by decide) hc h1
    · rintro (h1 | h1)
      · exact hno _ _ (by decide) hc h1
      · exact hno _ _ (by decide) hc h1
  · have hbody : findOperBody s (n : Int) r = ((n : Int),
        if r = npos ∨ (charAt s r ≠ '+' ∧ charAt s r ≠ '-') then n else r) := by
      simp [findOperBody, hts, hc]
    rw [hbody]
    refine ⟨rfl, splitBelow_step_mul (by omega) (Or.inl ⟨hn, hc, hd⟩) ?_ h⟩
    rintro (h1 | h1)
    · exact hno _ _ (by decide) hc h1
    · exact hno _ _ (by decide) hc h1
  · have hbody : findOperBody s (n : Int) r = ((n : Int),
        if r = npos ∨ (charAt s r ≠ '+' ∧ charAt s r ≠ '-') then n else r) := by
      simp [findOperBody, hts, hc]
    rw [hbody]
    refine ⟨rfl, splitBelow_step_mul (by omega) (Or.inr ⟨hn, hc, hd⟩) ?_ h⟩
    rintro (h1 | h1)
    · exact hno _ _ (by decide) hc h1
    · exact hno _ _ (by decide) hc h1
  · have hbody : findOperBody s (n : Int) r = ((n : Int), n) := by
      simp [findOperBody, hts, hc]
    rw [hbody]
    exact ⟨rfl, splitBelow_step_add (Or.inl ⟨hn, hc, hd⟩)⟩
  · have hbody : findOperBody s (n : Int) r = ((n : Int), n) := by
      simp [findOperBody, hts, hc]
    rw [hbody]
    exact ⟨rfl, splitBelow_step_add (Or.inr ⟨hn, hc, hd⟩)⟩


theorem findOperLoop_succ (s : List Char) (fuel : Nat) (i : Int) (pos : Nat) :
    findOperLoop s (fuel + 1) i pos
      = if toSize i < s.length then
          findOperLoop s fuel ((findOperBody s i pos).1 + 1) (findOperBody s i pos).2
        else .ret pos := rfl

theorem findOperLoop_exit {s : List Char} (hlen : s.length < 2 ^ 31) (fuel : Nat) (pos : Nat) :
    findOperLoop s (fuel + 1) ((s.length : Nat) : Int) pos = .ret pos := by
  rw [findOperLoop_succ, toSize_natCast (by omega), if_neg (lt_irrefl _)]

theorem findOperLoop_neg_one {s : List Char} (hlen : s.length < 2 ^ 31) (fuel : Nat)
    (pos : Nat) : findOperLoop s (fuel + 1) (-1) pos = .ret pos := by
  rw [findOperLoop_succ, toSize_neg_one, if_neg]
  unfold npos; omega

theorem digitLike_not_operChars {c : Char} (h : c.isDigit = true ∨ c = '.' ∨ c = 'x') :
    c ∉ operChars := by
  intro hm
  simp only [operChars, List.mem_cons, List.mem_singleton, List.not_mem_nil, or_false] at hm
  rcases hm with rfl | rfl | rfl | rfl | rfl | rfl | rfl <;> exact absurd h (by decide)

theorem not_oper_of_not_operChars {c : Char} (h : c ∉ operChars) :
    c ∉ ['+', '-', '*', '/', '^'] ∧ c ≠ '(' ∧ c ≠ ')' := by
  simp only [operChars, List.mem_cons, List.mem_singleton, List.not_mem_nil, or_false,
    not_or] at h ⊢
  tauto

theorem findOperBody_digit {s : List Char} {i : Int} {pos : Nat}
    (h : (charAt s (toSize i)).isDigit = true ∨ charAt s (toSize i) = '.'
      ∨ charAt s (toSize i) = 'x') :
    findOperBody s i pos = (toInt (sizeSub (find_first_of s operChars (toSize i)) 1), pos) := by
  simp only [findOperBody]
  rw [if_pos h]

theorem findOperBody_paren {s : List Char} {i : Int} {pos : Nat}
    (h : charAt s (toSize i) = '(') :
    findOperBody s i pos = (toInt (findEnd s (toSize i)), pos) := by
  simp [findOperBody, h]

theorem findOperBody_other {s : List Char} {i : Int} {pos : Nat}
    (h1 : ¬ ((charAt s (toSize i)).isDigit = true ∨ charAt s (toSize i) = '.'
      ∨ charAt s (toSize i) = 'x'))
    (h2 : charAt s (toSize i) ≠ '(')
    (h3 : charAt s (toSize i) ∉ ['^', '*', '/', '+', '-']) :
    findOperBody s i pos = (i, pos) := by
  simp only [List.mem_cons, List.mem_singleton, List.not_mem_nil, or_false, not_or] at h3 h1
  simp [findOperBody, h1, h2, h3]

theorem findOperLoop_scan {s : List Char} (hlen : s.length < 2 ^ 31)
    (hb1 : ∀ k, 0 ≤ depth (s.take k)) (hb2 : depth s = 0) :
    ∀ m k pos, s.length - k ≤ m → k ≤ s.length → depth (s.take k) = 0 → SplitBelow s k pos →
      ∃ r, SplitBelow s s.length r ∧
        ∀ fuel, m < fuel → findOperLoop s fuel (k : Int) pos = .ret r := by
  intro m
  induction m with
  | zero =>
    intro k pos hm hk hd hs
    have hkl : k = s.length := by omega
    subst hkl
    refine ⟨pos, hs, fun fuel hf => ?_⟩
    obtain ⟨f, rfl⟩ : ∃ f, fuel = f + 1 := ⟨fuel - 1, by omega⟩
    exact findOperLoop_exit hlen f pos
  | succ m ih =>
    intro k pos hm hk hd hs
    by_cases hkl : k = s.length
    · subst hkl
      refine ⟨pos, hs, fun fuel hf => ?_⟩
      obtain ⟨f, rfl⟩ : ∃ f, fuel = f + 1 := ⟨fuel - 1, by omega⟩
      exact findOperLoop_exit hlen f pos
    have hk' : k < s.length := by omega
    have hts : toSize (k : Int) = k := toSize_natCast (by omega)
    by_cases hdig : (charAt s k).isDigit = true ∨ charAt s k = '.' ∨ charAt s k = 'x'
    · -- a digit run: jump to the next operator or parenthesis
      have hbody := @findOperBody_digit s (k : Int) pos (by rwa [hts])
      rw [hts] at hbody
      rcases find_first_of_spec s operChars k with ⟨hq, hnone⟩ | ⟨q, hkq, hql, hq, hqc, hbetween⟩
      · refine ⟨pos, splitBelow_extend hk (fun j h1 h2 =>
          not_top_of_char (not_oper_of_not_operChars (hnone j h1 h2)).1) hs, fun fuel hf => ?_⟩
        obtain ⟨f, rfl⟩ : ∃ f, fuel = f + 2 := ⟨fuel - 2, by omega⟩
        rw [findOperLoop_succ, hts, if_pos hk', hbody, hq, toInt_npos_pred]
        exact findOperLoop_neg_one hlen f pos
      · have hqk : q ≠ k := by
          rintro rfl
          exact digitLike_not_operChars hdig hqc
        have hdq : depth (s.take q) = 0 := by
          have := depth_take_of_no_paren s k (q - k) (by omega) (fun j h1 h2 =>
            (not_oper_of_not_operChars (hbetween j h1 (by omega))).2)
          rw [show k + (q - k) = q by omega] at this
          rw [this, hd]
        have hsq : SplitBelow s q pos := splitBelow_extend hkq (fun j h1 h2 =>
          not_top_of_char (not_oper_of_not_operChars (hbetween j h1 h2)).1) hs
        obtain ⟨r, hr, hrun⟩ := ih q pos (by omega) (by omega) hdq hsq
        refine ⟨r, hr, fun fuel hf => ?_⟩
        obtain ⟨f, rfl⟩ : ∃ f, fuel = f + 1 := ⟨fuel - 1, by omega⟩
        rw [findOperLoop_succ, hts, if_pos hk', hbody, hq, sizeSub_one (by omega) (by omega),
          toInt_of_lt (by omega)]
        have : (((q - 1 : Nat) : Int) + 1) = (q : Int) := by omega
        simp only [this]
        exact hrun f (by omega)
    by_cases hpar : charAt s k = '('
    · -- a parenthesised group: jump behind its closing parenthesis
      have hbody := @findOperBody_paren s (k : Int) pos (by rwa [hts])
      rw [hts] at hbody
      rcases findEnd_spec hk' hpar with ⟨_, hnone⟩ | ⟨e, hke, hel, he, hde, hbetween⟩
      · exact absurd (by rw [List.take_length, hb2, hd]) (hnone s.length hk' le_rfl)
      · have hek : e ≠ k := by
          rintro rfl
          rw [depth_take_succ hk', hpar] at hde
          simp [parenDelta] at hde
        have hse : SplitBelow s (e + 1) pos := splitBelow_extend (by omega) (fun j h1 h2 => by
          by_cases hjk : j = k
          · subst hjk
            exact not_top_of_char (by rw [hpar]; decide)
          · exact not_top_of_depth (by
              have := hbetween j (by omega) (by omega)
              rwa [hd] at this)) hs
        obtain ⟨r, hr, hrun⟩ := ih (e + 1) pos (by omega) (by omega) (by rw [hde, hd]) hse
        refine ⟨r, hr, fun fuel hf => ?_⟩
        obtain ⟨f, rfl⟩ : ∃ f, fuel = f + 1 := ⟨fuel - 1, by omega⟩
        rw [findOperLoop_succ, hts, if_pos hk', hbody, he, toInt_of_lt (by omega)]
        exact hrun f (by omega)
    by_cases hop : charAt s k ∈ ['^', '*', '/', '+', '-']
    · -- an operator at depth 0
      obtain ⟨hbody, hstep⟩ := splitBelow_step hk' hlen hd hop hs
      have hd' : depth (s.take (k + 1)) = 0 := by
        rw [depth_take_succ hk', hd]
        have h1 : charAt s k ≠ '(' := hpar
        have h2 : charAt s k ≠ ')' := by
          rintro h; rw [h] at hop; exact absurd hop (by decide)
        simp [parenDelta, h1, h2]
      obtain ⟨r, hr, hrun⟩ := ih (k + 1) _ (by omega) (by omega) hd' hstep
      refine ⟨r, hr, fun fuel hf => ?_⟩
      obtain ⟨f, rfl⟩ : ∃ f, fuel = f + 1 := ⟨fuel - 1, by omega⟩
      rw [findOperLoop_succ, hts, if_pos hk', hbody]
      exact hrun f (by omega)
    · -- any other character is skipped
      have hbody := @findOperBody_other s (k : Int) pos
        (by rwa [hts]) (by rwa [hts]) (by rwa [hts])
      have hnc : charAt s k ≠ ')' := by
        intro h
        have h1 := hb1 (k + 1)
        rw [depth_take_succ hk', hd, h] at h1
        simp [parenDelta] at h1
      have hd' : depth (s.take (k + 1)) = 0 := by
        rw [depth_take_succ hk', hd]
        simp [parenDelta, hpar, hnc]
      have hstep : SplitBelow s (k + 1) pos := splitBelow_extend (by omega) (fun j h1 h2 => by
        have hjk : j = k := by omega
        subst hjk
        exact not_top_of_char (by
          simp only [List.mem_cons, List.mem_singleton, List.not_mem_nil, or_false] at hop ⊢
          tauto)) hs
      obtain ⟨r, hr, hrun⟩ := ih (k + 1) pos (by omega) (by omega) hd' hstep
      refine ⟨r, hr, fun fuel hf => ?_⟩
      obtain ⟨f, rfl⟩ : ∃ f, fuel = f + 1 := ⟨fuel - 1, by omega⟩
      rw [findOperLoop_succ, hts, if_pos hk', hbody]
      exact hrun f (by omega)

theorem topAt_lt {s : List Char} {i : Nat} {c : Char} (h : TopAt s i c) : i < s.length := h.1

theorem splitBelow_unique {s : List Char} {n r r' : Nat}
    (h : SplitBelow s n r) (h' : SplitBelow s n r') : r = r' := by
  rcases h with ⟨ha, hr, hmax⟩ | ⟨hna, hm, hr, hmax⟩ | ⟨hn2, hp, hr, hmin⟩ | ⟨hn3, hr⟩ <;>
  rcases h' with ⟨ha', hr', hmax'⟩ | ⟨hna', hm', hr', hmax'⟩ | ⟨hn2', hp', hr', hmin'⟩
    | ⟨hn3', hr'⟩
  · exact le_antisymm (hmax' r hr ha) (hmax r' hr' ha')
  · exact absurd ha (hna' r hr)
  · exact absurd ha (hn2' r hr).1
  · exact absurd ha (hn3' r hr).1
  · exact absurd ha' (hna r' hr')
  · exact le_antisymm (hmax' r hr hm) (hmax r' hr' hm')
  · exact absurd hm (hn2' r hr).2
  · exact absurd hm (hn3' r hr).2.1
  · exact absurd ha' (hn2 r' hr').1
  · exact absurd hm' (hn2 r' hr').2
  · exact le_antisymm (hmin r' hr' hp') (hmin' r hr hp)
  · exact absurd hp (hn3' r hr).2.2
  · exact absurd ha' (hn3 r' hr').1
  · exact absurd hm' (hn3 r' hr').2.1
  · exact absurd hp' (hn3 r' hr').2.2
  · rw [hr, hr']

theorem splitBelow_cases {s : List Char} {n r : Nat} (h : SplitBelow s n r) :
    r = npos ∨ (r < n ∧ (AddAt s r ∨ MulAt s r ∨ PowAt s r)) := by
  rcases h with ⟨ha, hr, _⟩ | ⟨_, hm, hr, _⟩ | ⟨_, hp, hr, _⟩ | ⟨_, hr⟩
  · exact Or.inr ⟨hr, Or.inl ha⟩
  · exact Or.inr ⟨hr, Or.inr (Or.inl hm)⟩
  · exact Or.inr ⟨hr, Or.inr (Or.inr hp)⟩
  · exact Or.inl hr

/-- On a balanced text the scan of `findOper` ends, with the result of the
reference definition. -/
theorem findOper_balanced {s : List Char} (hb : Balanced s) (hlen : s.length < 2 ^ 31) :
    ∃ r, SplitBelow s s.length r ∧ ∀ fuel, s.length < fuel → findOper fuel s = .ret r := by
  rw [balanced_iff] at hb
  obtain ⟨r, hr, hrun⟩ := findOperLoop_scan hlen hb.1 hb.2 s.length 0 npos (by omega)
    (by omega) (by simp [depth]) (splitBelow_zero s)
  exact ⟨r, hr, fun fuel hf => hrun fuel hf⟩

/-- A text whose split is known by the reference definition: `findOper` returns it. -/
theorem findOper_eq {s : List Char} {p : Nat} (hb : Balanced s) (hlen : s.length < 2 ^ 31)
    (hp : SplitBelow s s.length p) {fuel : Nat} (hf : s.length < fuel) :
    findOper fuel s = .ret p := by
  obtain ⟨r, hr, hrun⟩ := findOper_balanced hb hlen
  rw [hrun fuel hf, splitBelow_unique hr hp]


/-! ## Runs -/

@[simp] theorem Run.bind_ret {α β : Type} (a : α) (f : α → Run β) :
    (Run.ret a).bind f = f a := rfl

@[simp] theorem Run.bind_throw {α β : Type} (e : Exn) (f : α → Run β) :
    (Run.throw e : Run α).bind f = .throw e := rfl

@[simp] theorem Run.bind_timeout {α β : Type} (f : α → Run β) :
    (Run.timeout : Run α).bind f = .timeout := rfl

theorem Run.bind_ne_timeout {α β : Type} {r : Run α} {f : α → Run β}
    (hr : r ≠ .timeout) (hf : ∀ a, r = .ret a → f a ≠ .timeout) : r.bind f ≠ .timeout := by
  cases r with
  | ret a => exact hf a rfl
  | throw e => simp
  | timeout => exact absurd rfl hr

theorem stod_ne_timeout {D : Type} (A : Arith D) (str : List Char) : stod A str ≠ .timeout := by
  unfold stod
  generalize readLiteral _ = l
  generalize strtodSign _ = b
  unfold stodResult
  split
  · simp
  · split <;> simp
  · simp
  · simp

theorem substr_drop {s : List Char} {k : Nat} (hk : k ≤ s.length) (hlen : s.length < 2 ^ 31) :
    substr s k npos = .ret (s.drop k) := by
  unfold substr
  rw [if_neg (by omega), List.take_of_length_le]
  rw [List.length_drop]; unfold npos; omega

theorem substr_take {s : List Char} {k : Nat} : substr s 0 k = .ret (s.take k) := by
  unfold substr
  simp

/-! ## Balanced texts -/

theorem balanced_take {s : List Char} {r : Nat} (hb : Balanced s) (hd : depth (s.take r) = 0) :
    Balanced (s.take r) := by
  rw [balanced_iff] at hb ⊢
  refine ⟨fun k => ?_, hd⟩
  rw [List.take_take]
  exact hb.1 _

theorem balanced_drop {s : List Char} {r : Nat} (hb : Balanced s) (hd : depth (s.take r) = 0) :
    Balanced (s.drop r) := by
  rw [balanced_iff] at hb ⊢
  refine ⟨fun k => ?_, ?_⟩
  · rw [depth_take_drop, hd]
    have := hb.1 (r + k)
    omega
  · have h := depth_append (s.take r) (s.drop r)
    rw [List.take_append_drop, hb.2, hd] at h
    omega

theorem top_depth {s : List Char} {p : Nat} (h : AddAt s p ∨ MulAt s p ∨ PowAt s p) :
    p < s.length ∧ depth (s.take p) = 0 ∧ depth (s.take (p + 1)) = 0 := by
  have key : ∀ c : Char, c ≠ '(' → c ≠ ')' → TopAt s p c →
      p < s.length ∧ depth (s.take p) = 0 ∧ depth (s.take (p + 1)) = 0 := by
    rintro c h1 h2 ⟨hl, hc, hd⟩
    refine ⟨hl, hd, ?_⟩
    rw [depth_take_succ hl, hd, hc]
    simp [parenDelta, h1, h2]
  rcases h with (h | h) | (h | h) | h
  · exact key _ (by decide) (by decide) h
  · exact key _ (by decide) (by decide) h
  · exact key _ (by decide) (by decide) h
  · exact key _ (by decide) (by decide) h
  · exact key _ (by decide) (by decide) h

theorem parenDelta_ge (c : Char) : -1 ≤ parenDelta c := by
  unfold parenDelta
  split
  · omega
  · split <;> omega

/-- On a balanced text that is one parenthesised group, the text between the
outer parentheses is balanced. -/
theorem balanced_inner {s : List Char} (hb : Balanced s) (h2 : 2 ≤ s.length)
    (hne : ∀ j, 0 < j → j ≤ s.length - 1 → depth (s.take j) ≠ 0)
    (hc : charAt s 0 = '(') :
    Balanced ((s.drop 1).take (s.length - 2)) := by
  rw [balanced_iff] at hb ⊢
  have h1 : depth (s.take 1) = 1 := by
    have := depth_take_succ (s := s) (k := 0) (by omega)
    rw [hc] at this
    simpa [parenDelta, depth] using this
  have hpos : ∀ j, 0 < j → j ≤ s.length - 1 → 1 ≤ depth (s.take j) := fun j hj1 hj2 => by
    have := hne j hj1 hj2
    have := hb.1 j
    omega
  have hlast : depth (s.take (s.length - 1)) = 1 := by
    have h3 := depth_take_succ (s := s) (k := s.length - 1) (by omega)
    rw [show s.length - 1 + 1 = s.length by omega, List.take_length, hb.2] at h3
    have h4 := hpos (s.length - 1) (by omega) le_rfl
    have h5 := parenDelta_ge (charAt s (s.length - 1))
    omega
  refine ⟨fun k => ?_, ?_⟩
  · rw [List.take_take, depth_take_drop, h1]
    have := hpos (1 + min k (s.length - 2)) (by omega) (by omega)
    omega
  · rw [depth_take_drop, h1, show 1 + (s.length - 2) = s.length - 1 by omega, hlast]
    omega

theorem findEnd_ne_npos {s : List Char} {k : Nat} (h : findEnd s k ≠ npos) :
    charAt s k = '(' := by
  unfold findEnd at h
  by_contra hc
  exact h (if_pos hc)

theorem stripLoop_succ (fuel : Nat) (expr : List Char) :
    stripLoop (fuel + 1) expr
      = if findEnd expr 0 = sizeSub expr.length 1 then
          (substr expr 1 (sizeSub expr.length 2)).bind (stripLoop fuel)
        else .ret expr := rfl

theorem stripLoop_nil (fuel : Nat) : stripLoop (fuel + 1) [] = .throw .out_of_range := by
  rw [stripLoop_succ]
  rfl

theorem stripLoop_balanced : ∀ n (s : List Char), s.length ≤ n → Balanced s →
    s.length < 2 ^ 31 →
    ∃ r, (∀ fuel, s.length < fuel → stripLoop fuel s = r) ∧
      (r = .throw .out_of_range ∨ ∃ s', r = .ret s' ∧ s'.length ≤ s.length ∧ Balanced s') := by
  intro n
  induction n using Nat.strong_induction_on with
  | _ n ih =>
    intro s hn hb hlen
    by_cases hcond : findEnd s 0 = sizeSub s.length 1
    · by_cases hnil : s = []
      · subst hnil
        refine ⟨.throw .out_of_range, fun fuel hf => ?_, Or.inl rfl⟩
        obtain ⟨f, rfl⟩ : ∃ f, fuel = f + 1 := ⟨fuel - 1, by omega⟩
        exact stripLoop_nil f
      · have hpos : 0 < s.length := List.length_pos.mpr hnil
        have hsub : sizeSub s.length 1 = s.length - 1 := sizeSub_one hpos (by omega)
        have hc : charAt s 0 = '(' := findEnd_ne_npos (by
          rw [hcond, hsub]; exact lt_npos (by omega))
        have hb' := (balanced_iff s).mp hb
        rcases findEnd_spec hpos hc with ⟨h1, _⟩ | ⟨e, _, hel, he, hde, hbetween⟩
        · rw [hcond, hsub] at h1
          exact absurd h1 (lt_npos (by omega))
        · have hee : e = s.length - 1 := by rw [← hsub, ← hcond, he]
          have hd0 : depth (s.take 0) = 0 := by simp [depth]
          have he0 : e ≠ 0 := by
            rintro rfl
            rw [depth_take_succ hpos, hc, hd0] at hde
            simp [parenDelta] at hde
          have h2 : 2 ≤ s.length := by omega
          have hinner := balanced_inner hb h2 (fun j hj1 hj2 => by
            have := hbetween j hj1 (by omega)
            rwa [hd0] at this) hc
          have hil : ((s.drop 1).take (s.length - 2)).length = s.length - 2 := by
            rw [List.length_take, List.length_drop]; omega
          obtain ⟨r, hr, hcase⟩ := ih (s.length - 2) (by omega) _ (by omega) hinner (by omega)
          refine ⟨r, fun fuel hf => ?_, ?_⟩
          · obtain ⟨f, rfl⟩ : ∃ f, fuel = f + 1 := ⟨fuel - 1, by omega⟩
            rw [stripLoop_succ, if_pos hcond, sizeSub_two h2 (by omega)]
            unfold substr
            rw [if_neg (by omega), Run.bind_ret]
            exact hr f (by omega)
          · rcases hcase with h | ⟨s', h1, h2, h3⟩
            · exact Or.inl h
            · exact Or.inr ⟨s', h1, by omega, h3⟩
    · refine ⟨.ret s, fun fuel hf => ?_, Or.inr ⟨s, rfl, le_rfl, hb⟩⟩
      obtain ⟨f, rfl⟩ : ∃ f, fuel = f + 1 := ⟨fuel - 1, by omega⟩
      rw [stripLoop_succ, if_neg hcond]


/-! ## `parse` on balanced texts -/

theorem parse_succ {D : Type} (A : Arith D) (fuel : Nat) (text : List Char) :
    parse A (fuel + 1) text
      = (stripLoop (fuel + 1) text).bind fun expr =>
        (findOper (fuel + 1) expr).bind fun pos =>
        parseSplit A (parse A fuel) expr pos := rfl

theorem parseSplit_leaf {D : Type} (A : Arith D) (recur : List Char → Run (Expression D))
    (expr : List Char) :
    parseSplit A recur expr npos
      = if expr = ['x'] then .ret .Variable
        else (stod A expr).bind fun v => .ret (.Constant v) := by
  unfold parseSplit
  rw [if_pos rfl]

theorem parseSplit_unary {D : Type} (A : Arith D) (recur : List Char → Run (Expression D))
    {expr : List Char} (hpos : 0 < expr.length) (hlen : expr.length < 2 ^ 31) :
    parseSplit A recur expr 0
      = (recur (expr.drop 1)).bind fun right =>
        .ret (unaryNode (charAt expr 0) right) := by
  unfold parseSplit
  rw [if_neg (by decide), if_pos rfl, substr_drop (by omega) hlen, Run.bind_ret]

theorem parseSplit_binary {D : Type} (A : Arith D) (recur : List Char → Run (Expression D))
    {expr : List Char} {pos : Nat} (h0 : pos ≠ 0) (hpos : pos < expr.length)
    (hlen : expr.length < 2 ^ 31) :
    parseSplit A recur expr pos
      = (recur (expr.take pos)).bind fun left =>
        (recur (expr.drop (pos + 1))).bind fun right =>
        .ret (binaryNode (charAt expr pos) left right) := by
  unfold parseSplit
  rw [if_neg (lt_npos (by omega)), if_neg h0, substr_take, Run.bind_ret]
  congr 1
  funext left
  rw [substr_drop (by omega) hlen, Run.bind_ret]

/-- With a split of the reference definition, `parseSplit` calls `recur` only
on balanced, strictly shorter texts: two recursive calls that agree there and
end there give the same outcome, and it is not a timeout. -/
theorem parseSplit_balanced {D : Type} (A : Arith D) {expr : List Char} {p : Nat}
    (hb : Balanced expr) (hlen : expr.length < 2 ^ 31) (hp : SplitBelow expr expr.length p)
    (rec1 rec2 : List Char → Run (Expression D))
    (h : ∀ t : List Char, t.length < expr.length → Balanced t →
      rec1 t = rec2 t ∧ rec1 t ≠ .timeout) :
    parseSplit A rec1 expr p = parseSplit A rec2 expr p
      ∧ parseSplit A rec1 expr p ≠ .timeout := by
  rcases splitBelow_cases hp with hnp | ⟨hpl, hop⟩
  · subst hnp
    rw [parseSplit_leaf, parseSplit_leaf]
    refine ⟨rfl, ?_⟩
    split
    · simp
    · exact Run.bind_ne_timeout (stod_ne_timeout A expr) (fun a _ => by simp)
  · obtain ⟨_, hd, hd'⟩ := top_depth hop
    by_cases hp0 : p = 0
    · subst hp0
      rw [parseSplit_unary A rec1 hpl hlen, parseSplit_unary A rec2 hpl hlen]
      obtain ⟨h1, h2⟩ := h (expr.drop 1) (by rw [List.length_drop]; omega) (balanced_drop hb hd')
      rw [← h1]
      exact ⟨rfl, Run.bind_ne_timeout h2 (fun a _ => by simp)⟩
    · rw [parseSplit_binary A rec1 hp0 hpl hlen, parseSplit_binary A rec2 hp0 hpl hlen]
      obtain ⟨h1, h2⟩ := h (expr.take p) (by rw [List.length_take]; omega) (balanced_take hb hd)
      obtain ⟨h3, h4⟩ := h (expr.drop (p + 1)) (by rw [List.length_drop]; omega)
        (balanced_drop hb hd')
      rw [← h1, ← h3]
      exact ⟨rfl, Run.bind_ne_timeout h2 (fun a _ =>
        Run.bind_ne_timeout h4 (fun b _ => by simp))⟩

/-- On a balanced text `parse` ends: with any fuel above the length of the
text it gives one and the same outcome, a tree or an exception. -/
theorem parse_balanced {D : Type} (A : Arith D) : ∀ n (s : List Char), s.length ≤ n →
    Balanced s → s.length < 2 ^ 31 →
    ∃ r, r ≠ .timeout ∧ ∀ fuel, s.length < fuel → parse A fuel s = r := by
  intro n
  induction n using Nat.strong_induction_on with
  | _ n ih =>
    intro s hn hb hlen
    obtain ⟨r0, hr0, hcase⟩ := stripLoop_balanced s.length s le_rfl hb hlen
    rcases hcase with rfl | ⟨s', rfl, hlen', hb'⟩
    · refine ⟨.throw .out_of_range, by simp, fun fuel hf => ?_⟩
      obtain ⟨f, rfl⟩ : ∃ f, fuel = f + 1 := ⟨fuel - 1, by omega⟩
      rw [parse_succ, hr0 (f + 1) hf, Run.bind_throw]
    · obtain ⟨p, hp, hfind⟩ := findOper_balanced hb' (by omega)
      have hsub : ∀ f, s.length ≤ f → ∀ t : List Char, t.length < s'.length → Balanced t →
          parse A f t = parse A s.length t ∧ parse A f t ≠ .timeout := by
        intro f hf t ht hbt
        obtain ⟨rt, hrt, hrun⟩ := ih t.length (by omega) t le_rfl hbt (by omega)
        rw [hrun f (by omega), hrun s.length (by omega)]
        exact ⟨rfl, hrt⟩
      refine ⟨parseSplit A (parse A s.length) s' p, ?_, fun fuel hf => ?_⟩
      · have := parseSplit_balanced A hb' (by omega) hp (parse A s.length) (parse A s.length)
          (hsub s.length le_rfl)
        exact this.2
      · obtain ⟨f, rfl⟩ : ∃ f, fuel = f + 1 := ⟨fuel - 1, by omega⟩
        rw [parse_succ, hr0 (f + 1) hf, Run.bind_ret, hfind (f + 1) (by omega), Run.bind_ret]
        exact (parseSplit_balanced A hb' (by omega) hp (parse A f) (parse A s.length)
          (hsub f (by omega))).1

/-! ## Concatenated texts -/

theorem charAt_append_left {l r : List Char} {j : Nat} (h : j < l.length) :
    charAt (l ++ r) j = charAt l j := by
  unfold charAt
  rw [List.getD_eq_getElem?_getD, List.getD_eq_getElem?_getD, List.getElem?_append_left h]

theorem charAt_append_right (l r : List Char) (j : Nat) :
    charAt (l ++ r) (l.length + j) = charAt r j := by
  unfold charAt
  rw [List.getD_eq_getElem?_getD, List.getD_eq_getElem?_getD,
    List.getElem?_append_right (by omega)]
  simp

theorem charAt_mem {l : List Char} {j : Nat} (h : j < l.length) : charAt l j ∈ l := by
  unfold charAt
  rw [List.getD_eq_getElem?_getD, List.getElem?_eq_getElem h]
  exact List.getElem_mem h

theorem topAt_append_left {l r : List Char} {j : Nat} {c : Char} (h : j < l.length) :
    TopAt (l ++ r) j c ↔ TopAt l j c := by
  unfold TopAt
  rw [charAt_append_left h, List.take_append_of_le_length (by omega), List.length_append]
  constructor
  · rintro ⟨_, h1, h2⟩; exact ⟨h, h1, h2⟩
  · rintro ⟨_, h1, h2⟩; exact ⟨by omega, h1, h2⟩

theorem topAt_append_right {l r : List Char} {j : Nat} {c : Char} (hl : depth l = 0) :
    TopAt (l ++ r) (l.length + j) c ↔ TopAt r j c := by
  unfold TopAt
  rw [charAt_append_right, List.take_append, depth_append, hl, List.length_append]
  constructor
  · rintro ⟨h0, h1, h2⟩; exact ⟨by omega, h1, by omega⟩
  · rintro ⟨h0, h1, h2⟩; exact ⟨by omega, h1, by omega⟩

theorem balanced_append {l r : List Char} (hl : Balanced l) (hr : Balanced r) :
    Balanced (l ++ r) := by
  rw [balanced_iff] at hl hr ⊢
  refine ⟨fun k => ?_, by rw [depth_append, hl.2, hr.2]; rfl⟩
  rw [List.take_append_eq_append_take, depth_append]
  have h1 := hl.1 k
  have h2 := hr.1 (k - l.length)
  omega

theorem depth_of_plain {l : List Char} (h : ∀ c ∈ l, c ≠ '(' ∧ c ≠ ')') : depth l = 0 := by
  unfold depth
  rw [List.count_eq_zero.mpr (fun hm => (h _ hm).1 rfl),
    List.count_eq_zero.mpr (fun hm => (h _ hm).2 rfl)]
  rfl

theorem balanced_of_plain {l : List Char} (h : ∀ c ∈ l, c ≠ '(' ∧ c ≠ ')') : Balanced l := by
  rw [balanced_iff]
  refine ⟨fun k => ?_, depth_of_plain h⟩
  rw [depth_of_plain (fun c hc => h c (List.mem_of_mem_take hc))]

theorem balanced_wrap {s : List Char} (hb : Balanced s) : Balanced ('(' :: (s ++ [')'])) := by
  rw [balanced_iff] at hb ⊢
  refine ⟨fun k => ?_, ?_⟩
  · cases k with
    | zero => simp [depth]
    | succ k =>
      rw [List.take_succ_cons, depth_cons, List.take_append_eq_append_take, depth_append]
      have h1 := hb.1 k
      have h2 : -1 ≤ depth (List.take (k - s.length) [')']) := by
        cases (k - s.length) with
        | zero => simp [depth]
        | succ m => simp [depth]
      simp only [parenDelta]
      simp
      omega
  · rw [depth_cons, depth_append, hb.2]
    simp [parenDelta, depth]

/-- No operator at depth 0 stands at any index of a text without the
characters `+ - * / ^ ( )`. -/
theorem no_top_of_plain {l : List Char} (h : ∀ c ∈ l, c ∉ operChars) (j : Nat) :
    ¬ AddAt l j ∧ ¬ MulAt l j ∧ ¬ PowAt l j := by
  by_cases hj : j < l.length
  · exact not_top_of_char (not_oper_of_not_operChars (h _ (charAt_mem hj))).1
  · unfold AddAt MulAt PowAt TopAt
    refine ⟨?_, ?_, ?_⟩
    · rintro (⟨h1, _⟩ | ⟨h1, _⟩) <;> exact hj h1
    · rintro (⟨h1, _⟩ | ⟨h1, _⟩) <;> exact hj h1
    · rintro ⟨h1, _⟩; exact hj h1

theorem topAt_op {l r : List Char} {op : Char} (hl : depth l = 0) :
    TopAt (l ++ op :: r) l.length op := by
  refine ⟨by rw [List.length_append, List.length_cons]; omega, ?_, ?_⟩
  · have := charAt_append_right l (op :: r) 0
    simpa [charAt] using this
  · rw [List.take_left', hl]
    rfl

theorem topAt_after {l r : List Char} {op c : Char} {j : Nat} (hl : depth l = 0)
    (h1 : op ≠ '(') (h2 : op ≠ ')') :
    TopAt (l ++ op :: r) (l.length + 1 + j) c ↔ TopAt r j c := by
  have h : l ++ op :: r = (l ++ [op]) ++ r := by simp
  have hd : depth (l ++ [op]) = 0 := by
    rw [depth_append, hl, depth_cons, depth_nil]
    simp [parenDelta, h1, h2]
  have hlen : l.length + 1 + j = (l ++ [op]).length + j := by simp
  rw [h, hlen, topAt_append_right hd]

theorem topAt_before {l r : List Char} {op c : Char} {j : Nat} (h : j < l.length) :
    TopAt (l ++ op :: r) j c ↔ TopAt l j c := topAt_append_left h


theorem topAt_cases {l r : List Char} {op c : Char} {j : Nat} (hl : depth l = 0)
    (h1 : op ≠ '(') (h2 : op ≠ ')') (h : TopAt (l ++ op :: r) j c) :
    (j < l.length ∧ TopAt l j c) ∨ (j = l.length ∧ op = c)
      ∨ ∃ j', j = l.length + 1 + j' ∧ TopAt r j' c := by
  by_cases hj : j < l.length
  · exact Or.inl ⟨hj, (topAt_before hj).mp h⟩
  · by_cases hj' : j = l.length
    · subst hj'
      refine Or.inr (Or.inl ⟨rfl, ?_⟩)
      have := (@topAt_op l r op hl).2.1
      rw [h.2.1] at this
      exact this.symm
    · obtain ⟨j', rfl⟩ : ∃ j', j = l.length + 1 + j' := ⟨j - l.length - 1, by omega⟩
      exact Or.inr (Or.inr ⟨j', rfl, (topAt_after hl h1 h2).mp h⟩)

theorem splitBelow_add {l r : List Char} {op : Char} (hl : depth l = 0)
    (hop : op = '+' ∨ op = '-') (hr : ∀ j, ¬ AddAt r j) :
    SplitBelow (l ++ op :: r) (l ++ op :: r).length l.length := by
  have h1 : op ≠ '(' := by rcases hop with rfl | rfl <;> decide
  have h2 : op ≠ ')' := by rcases hop with rfl | rfl <;> decide
  have htop := @topAt_op l r op hl
  left
  refine ⟨?_, htop.1, fun j _ hj => ?_⟩
  · rcases hop with rfl | rfl
    · exact Or.inl htop
    · exact Or.inr htop
  · by_contra hlt
    have key : ∀ c, TopAt (l ++ op :: r) j c → ∃ j', TopAt r j' c := by
      intro c hc
      rcases topAt_cases hl h1 h2 hc with ⟨h3, _⟩ | ⟨h3, _⟩ | ⟨j', _, h4⟩
      · omega
      · omega
      · exact ⟨j', h4⟩
    rcases hj with hj | hj
    · obtain ⟨j', h3⟩ := key _ hj
      exact hr j' (Or.inl h3)
    · obtain ⟨j', h3⟩ := key _ hj
      exact hr j' (Or.inr h3)

theorem splitBelow_mul {l r : List Char} {op : Char} (hl : depth l = 0)
    (hop : op = '*' ∨ op = '/') (hla : ∀ j, ¬ AddAt l j)
    (hr : ∀ j, ¬ AddAt r j ∧ ¬ MulAt r j) :
    SplitBelow (l ++ op :: r) (l ++ op :: r).length l.length := by
  have h1 : op ≠ '(' := by rcases hop with rfl | rfl <;> decide
  have h2 : op ≠ ')' := by rcases hop with rfl | rfl <;> decide
  have htop := @topAt_op l r op hl
  right; left
  refine ⟨fun j _ hj => ?_, ?_, htop.1, fun j _ hj => ?_⟩
  · have key : ∀ c, (c = '+' ∨ c = '-') → TopAt (l ++ op :: r) j c →
        (TopAt l j c) ∨ ∃ j', TopAt r j' c := by
      intro c hc h
      rcases topAt_cases hl h1 h2 h with ⟨_, h3⟩ | ⟨_, h3⟩ | ⟨j', _, h4⟩
      · exact Or.inl h3
      · subst h3
        rcases hop with rfl | rfl <;> rcases hc with hc | hc <;> exact absurd hc (by decide)
      · exact Or.inr ⟨j', h4⟩
    rcases hj with hj | hj
    · rcases key _ (Or.inl rfl) hj with h3 | ⟨j', h3⟩
      · exact hla j (Or.inl h3)
      · exact (hr j').1 (Or.inl h3)
    · rcases key _ (Or.inr rfl) hj with h3 | ⟨j', h3⟩
      · exact hla j (Or.inr h3)
      · exact (hr j').1 (Or.inr h3)
  · rcases hop with rfl | rfl
    · exact Or.inl htop
    · exact Or.inr htop
  · by_contra hlt
    have key : ∀ c, TopAt (l ++ op :: r) j c → ∃ j', TopAt r j' c := by
      intro c hc
      rcases topAt_cases hl h1 h2 hc with ⟨h3, _⟩ | ⟨h3, _⟩ | ⟨j', _, h4⟩
      · omega
      · omega
      · exact ⟨j', h4⟩
    rcases hj with hj | hj
    · obtain ⟨j', h3⟩ := key _ hj
      exact (hr j').2 (Or.inl h3)
    · obtain ⟨j', h3⟩ := key _ hj
      exact (hr j').2 (Or.inr h3)

theorem splitBelow_pow {l r : List Char} (hl : depth l = 0)
    (hla : ∀ j, ¬ AddAt l j ∧ ¬ MulAt l j ∧ ¬ PowAt l j)
    (hr : ∀ j, ¬ AddAt r j ∧ ¬ MulAt r j) :
    SplitBelow (l ++ '^' :: r) (l ++ '^' :: r).length l.length := by
  have htop := @topAt_op l r '^' hl
  right; right; left
  have key : ∀ j c, c ≠ '^' → TopAt (l ++ '^' :: r) j c →
      (TopAt l j c) ∨ ∃ j', TopAt r j' c := by
    intro j c hc h
    rcases topAt_cases hl (by decide) (by decide) h with ⟨_, h3⟩ | ⟨_, h3⟩ | ⟨j', _, h4⟩
    · exact Or.inl h3
    · exact absurd h3.symm hc
    · exact Or.inr ⟨j', h4⟩
  refine ⟨fun j _ => ⟨fun hj => ?_, fun hj => ?_⟩, htop, htop.1, fun j _ hj => ?_⟩
  · rcases hj with hj | hj
    · rcases key j _ (by decide) hj with h3 | ⟨j', h3⟩
      · exact (hla j).1 (Or.inl h3)
      · exact (hr j').1 (Or.inl h3)
    · rcases key j _ (by decide) hj with h3 | ⟨j', h3⟩
      · exact (hla j).1 (Or.inr h3)
      · exact (hr j').1 (Or.inr h3)
  · rcases hj with hj | hj
    · rcases key j _ (by decide) hj with h3 | ⟨j', h3⟩
      · exact (hla j).2.1 (Or.inl h3)
      · exact (hr j').2 (Or.inl h3)
    · rcases key j _ (by decide) hj with h3 | ⟨j', h3⟩
      · exact (hla j).2.1 (Or.inr h3)
      · exact (hr j').2 (Or.inr h3)
  · by_contra hlt
    exact (hla j).2.2 ((topAt_before (by omega)).mp hj)

/-! ## `parse` with a known split -/

theorem stripLoop_of_not_paren {t : List Char} (hlen : t.length < 2 ^ 31) (hne : t ≠ [])
    (hc : charAt t 0 ≠ '(') (fuel : Nat) : stripLoop (fuel + 1) t = .ret t := by
  rw [stripLoop_succ, if_neg]
  have hpos : 0 < t.length := List.length_pos.mpr hne
  rw [sizeSub_one hpos (by omega)]
  unfold findEnd
  rw [if_pos hc]
  exact fun h => lt_npos (n := t.length - 1) (by omega) h.symm

theorem stripLoop_of_top {t : List Char} {p : Nat} (hlen : t.length < 2 ^ 31)
    (h : AddAt t p ∨ MulAt t p ∨ PowAt t p) (fuel : Nat) :
    stripLoop (fuel + 1) t = .ret t := by
  obtain ⟨hpl, hd, _⟩ := top_depth h
  rw [stripLoop_succ, if_neg]
  rw [sizeSub_one (by omega) (by omega)]
  intro hfe
  have hc : charAt t 0 = '(' := findEnd_ne_npos (by rw [hfe]; exact lt_npos (by omega))
  rcases findEnd_spec (by omega : 0 < t.length) hc with ⟨h1, _⟩ | ⟨e, _, _, he, _, hbetween⟩
  · rw [hfe] at h1
    exact lt_npos (by omega) h1
  · have hee : e = t.length - 1 := by rw [← hfe, he]
    by_cases hp0 : p = 0
    · subst hp0
      have hno : ∀ c : Char, c ≠ '(' → ¬ TopAt t 0 c := by
        rintro c hcc ⟨_, h2, _⟩
        exact hcc (h2.symm.trans hc)
      rcases h with (h | h) | (h | h) | h
      all_goals exact hno _ (by decide) h
    · have := hbetween p (by omega) (by omega)
      rw [hd] at this
      exact this (by simp [depth])

theorem parse_of_split {D : Type} (A : Arith D) {t : List Char} {p : Nat} (hb : Balanced t)
    (hlen : t.length < 2 ^ 31) (hp : SplitBelow t t.length p) (hne : p ≠ npos)
    {f : Nat} (hf : t.length ≤ f) :
    parse A (f + 1) t = parseSplit A (parse A f) t p := by
  rcases splitBelow_cases hp with h | ⟨_, hop⟩
  · exact absurd h hne
  · rw [parse_succ, stripLoop_of_top hlen hop, Run.bind_ret,
      findOper_eq hb hlen hp (by omega), Run.bind_ret]

theorem balanced_op {l r : List Char} {op : Char} (hl : Balanced l) (hr : Balanced r)
    (h1 : op ≠ '(') (h2 : op ≠ ')') : Balanced (l ++ op :: r) := by
  have : op :: r = [op] ++ r := rfl
  rw [this]
  refine balanced_append hl (balanced_append (balanced_of_plain fun c hc => ?_) hr)
  rw [List.mem_singleton] at hc
  subst hc
  exact ⟨h1, h2⟩

/-- A text `l ++ op :: r` split at its operator: `parse` builds the node of
`op` from the parses of `l` and of `r`, in that order. -/
theorem parse_binary {D : Type} (A : Arith D) {l r : List Char} {op : Char}
    (hl : Balanced l) (hr : Balanced r) (hne : l ≠ []) (h1 : op ≠ '(') (h2 : op ≠ ')')
    (hlen : (l ++ op :: r).length < 2 ^ 31)
    (hp : SplitBelow (l ++ op :: r) (l ++ op :: r).length l.length)
    {f : Nat} (hf : (l ++ op :: r).length ≤ f) :
    parse A (f + 1) (l ++ op :: r)
      = (parse A f l).bind fun left => (parse A f r).bind fun right =>
          .ret (binaryNode op left right) := by
  have hpos : 0 < l.length := List.length_pos.mpr hne
  have hll : l.length < (l ++ op :: r).length := by
    rw [List.length_append, List.length_cons]; omega
  rw [parse_of_split A (balanced_op hl hr h1 h2) hlen hp (lt_npos (by omega)) hf,
    parseSplit_binary A _ (by omega) hll hlen]
  have hc : charAt (l ++ op :: r) l.length = op := by
    have := charAt_append_right l (op :: r) 0
    simpa [charAt] using this
  have hd : List.drop (l.length + 1) (l ++ op :: r) = r := by
    have : l ++ op :: r = (l ++ [op]) ++ r := by simp
    rw [this, show l.length + 1 = (l ++ [op]).length by simp, List.drop_left]
  rw [List.take_left' rfl, hc, hd]

/-- A text without `+ - * / ^ ( )` is a leaf: the variable or a literal. -/
theorem parse_leaf {D : Type} (A : Arith D) {a : List Char} (hne : a ≠ [])
    (hplain : ∀ c ∈ a, c ∉ operChars) (hlen : a.length < 2 ^ 31)
    {fuel : Nat} (hf : a.length < fuel) :
    parse A fuel a = if a = ['x'] then .ret .Variable
      else (stod A a).bind fun v => .ret (.Constant v) := by
  obtain ⟨f, rfl⟩ : ∃ f, fuel = f + 1 := ⟨fuel - 1, by omega⟩
  have hpos : 0 < a.length := List.length_pos.mpr hne
  have hc : charAt a 0 ≠ '(' := by
    intro h
    exact hplain _ (charAt_mem hpos) (by rw [h]; decide)
  have hb : Balanced a :=
    balanced_of_plain fun c hc => (not_oper_of_not_operChars (hplain c hc)).2
  have hp : SplitBelow a a.length npos := by
    right; right; right
    exact ⟨fun j _ => no_top_of_plain hplain j, rfl⟩
  rw [parse_succ, stripLoop_of_not_paren hlen hne hc, Run.bind_ret,
    findOper_eq hb hlen hp hf, Run.bind_ret, parseSplit_leaf]


/-! ## Wrapping parentheses -/

theorem findEnd_wrap {s : List Char} (hb : Balanced s) :
    findEnd ('(' :: (s ++ [')'])) 0 = s.length + 1 := by
  have hbw := (balanced_iff _).mp (balanced_wrap hb)
  have hb' := (balanced_iff _).mp hb
  have hlen : ('(' :: (s ++ [')'])).length = s.length + 2 := by simp
  have hd0 : depth (List.take 0 ('(' :: (s ++ [')']))) = 0 := by simp [depth]
  rcases findEnd_spec (s := '(' :: (s ++ [')'])) (k := 0) (by simp) (by simp [charAt])
    with ⟨_, hnone⟩ | ⟨e, _, hel, he, hde, _⟩
  · refine absurd ?_ (hnone (s.length + 2) (by omega) (by omega))
    rw [← hlen, List.take_length, hbw.2, hd0]
  · rw [he]
    rw [hlen] at hel
    by_contra hne
    have hes : e ≤ s.length := by omega
    rw [List.take_succ_cons, depth_cons, List.take_append_of_le_length hes, hd0] at hde
    have := hb'.1 e
    simp [parenDelta] at hde
    omega

theorem stripLoop_wrap {s : List Char} (hb : Balanced s) (hlen : s.length + 2 < 2 ^ 31)
    (fuel : Nat) : stripLoop (fuel + 1) ('(' :: (s ++ [')'])) = stripLoop fuel s := by
  have hl : ('(' :: (s ++ [')'])).length = s.length + 2 := by simp
  rw [stripLoop_succ, hl, sizeSub_one (by omega) (by omega),
    if_pos (by rw [findEnd_wrap hb]; rfl), sizeSub_two (by omega) (by omega)]
  unfold substr
  rw [if_neg (by omega), Run.bind_ret]
  congr 1
  simp

/-- One layer of wrapping parentheses around a balanced text does not change
the outcome of `parse`. -/
theorem parse_wrap {D : Type} (A : Arith D) {s : List Char} (hb : Balanced s)
    (hlen : s.length + 2 < 2 ^ 31) {fuel : Nat} (hf : s.length + 1 < fuel) :
    parse A fuel ('(' :: (s ++ [')'])) = parse A fuel s := by
  obtain ⟨f, rfl⟩ : ∃ f, fuel = f + 1 := ⟨fuel - 1, by omega⟩
  obtain ⟨r, hr, _⟩ := stripLoop_balanced s.length s le_rfl hb (by omega)
  rw [parse_succ, parse_succ, stripLoop_wrap hb hlen, hr f (by omega), hr (f + 1) (by omega)]

/-! ## Numeric literals -/

theorem numberForm_chars {a : List Char} (h : NumberForm a) :
    ∀ c ∈ a, c.isDigit = true ∨ c = '.' := by
  obtain ⟨ip, ⟨_, hip⟩, rfl | ⟨fp, ⟨_, hfp⟩, rfl⟩⟩ := h
  · exact fun c hc => Or.inl (hip c hc)
  · intro c hc
    rw [List.mem_append, List.mem_cons] at hc
    rcases hc with hc | hc | hc
    · exact Or.inl (hip c hc)
    · exact Or.inr hc
    · exact Or.inl (hfp c hc)

theorem numberForm_plain {a : List Char} (h : NumberForm a) : ∀ c ∈ a, c ∉ operChars :=
  fun c hc => digitLike_not_operChars (by
    rcases numberForm_chars h c hc with h1 | h1
    · exact Or.inl h1
    · exact Or.inr (Or.inl h1))

theorem numberForm_ne_nil {a : List Char} (h : NumberForm a) : a ≠ [] := by
  obtain ⟨ip, ⟨hne, _⟩, rfl | ⟨fp, _, rfl⟩⟩ := h
  · exact hne
  · simp

theorem numberForm_ne_x {a : List Char} (h : NumberForm a) : a ≠ ['x'] := by
  rintro rfl
  exact absurd (numberForm_chars h 'x' (by simp)) (by decide)

theorem numberForm_balanced {a : List Char} (h : NumberForm a) : Balanced a :=
  balanced_of_plain fun c hc => (not_oper_of_not_operChars (numberForm_plain h c hc)).2

/-- A text of number form is a leaf: `parse` returns the constant `stod`
converts it to, and fails as `stod` does. -/
theorem parse_number {D : Type} (A : Arith D) {a : List Char} (h : NumberForm a)
    (hlen : a.length < 2 ^ 31) {fuel : Nat} (hf : a.length < fuel) :
    parse A fuel a = (stod A a).bind fun v => .ret (.Constant v) := by
  rw [parse_leaf A (numberForm_ne_nil h) (numberForm_plain h) hlen hf,
    if_neg (numberForm_ne_x h)]

theorem no_add_of_chars {l : List Char} (h : ∀ c ∈ l, c ≠ '+' ∧ c ≠ '-') (j : Nat) :
    ¬ AddAt l j := by
  rintro (⟨h1, h2, _⟩ | ⟨h1, h2, _⟩)
  · exact (h _ (charAt_mem h1)).1 h2
  · exact (h _ (charAt_mem h1)).2 h2

theorem depth_numberForm {a : List Char} (h : NumberForm a) : depth a = 0 :=
  ((balanced_iff a).mp (numberForm_balanced h)).2

/-- Two literals around one operator: the split is the operator. -/
theorem splitBelow_literals {a b : List Char} {op : Char} (ha : NumberForm a)
    (hb : NumberForm b) (hop : op ∈ ['+', '-', '*', '/', '^']) :
    SplitBelow (a ++ op :: b) (a ++ op :: b).length a.length := by
  have hpa := no_top_of_plain (numberForm_plain ha)
  have hpb := no_top_of_plain (numberForm_plain hb)
  simp only [List.mem_cons, List.mem_singleton, List.not_mem_nil, or_false] at hop
  rcases hop with rfl | rfl | rfl | rfl | rfl
  · exact splitBelow_add (depth_numberForm ha) (Or.inl rfl) fun j => (hpb j).1
  · exact splitBelow_add (depth_numberForm ha) (Or.inr rfl) fun j => (hpb j).1
  · exact splitBelow_mul (depth_numberForm ha) (Or.inl rfl) (fun j => (hpa j).1)
      fun j => ⟨(hpb j).1, (hpb j).2.1⟩
  · exact splitBelow_mul (depth_numberForm ha) (Or.inr rfl) (fun j => (hpa j).1)
      fun j => ⟨(hpb j).1, (hpb j).2.1⟩
  · exact splitBelow_pow (depth_numberForm ha) hpa fun j => ⟨(hpb j).1, (hpb j).2.1⟩

/-- Two literals around one operator parse to the node of the operator over
the two constants. -/
theorem parse_literals {D : Type} (A : Arith D) {a b : List Char} {op : Char}
    (ha : NumberForm a) (hb : NumberForm b) (hop : op ∈ ['+', '-', '*', '/', '^'])
    (hlen : (a ++ op :: b).length < 2 ^ 31) {fuel : Nat} (hf : (a ++ op :: b).length < fuel) :
    parse A fuel (a ++ op :: b)
      = (stod A a).bind fun x => (stod A b).bind fun y =>
          .ret (binaryNode op (.Constant x) (.Constant y)) := by
  obtain ⟨f, rfl⟩ : ∃ f, fuel = f + 1 := ⟨fuel - 1, by omega⟩
  have h1 : op ≠ '(' := by rintro rfl; exact absurd hop (by decide)
  have h2 : op ≠ ')' := by rintro rfl; exact absurd hop (by decide)
  rw [List.length_append, List.length_cons] at hlen hf
  rw [parse_binary A (numberForm_balanced ha) (numberForm_balanced hb) (numberForm_ne_nil ha)
      h1 h2 (by rw [List.length_append, List.length_cons]; omega)
      (splitBelow_literals ha hb hop) (by rw [List.length_append, List.length_cons]; omega),
    parse_number A ha (by omega) (by omega), parse_number A hb (by omega) (by omega)]
  cases stod A a <;> cases stod A b <;> rfl

theorem balanced_literals {a b : List Char} {op : Char} (ha : NumberForm a)
    (hb : NumberForm b) (hop : op ∈ ['+', '-', '*', '/', '^']) : Balanced (a ++ op :: b) :=
  balanced_op (numberForm_balanced ha) (numberForm_balanced hb)
    (by rintro rfl; exact absurd hop (by decide)) (by rintro rfl; exact absurd hop (by decide))


theorem numberForm_single {d : Char} (h : d.isDigit = true) : NumberForm [d] :=
  ⟨[d], ⟨by simp, by simpa using h⟩, Or.inl rfl⟩

theorem digitOf_digit {c : Char} (h : c.isDigit = true) : digitOf 10 c = some (c.toNat - 48) := by
  unfold digitOf
  rw [if_pos h]

theorem digitOf_dot : digitOf 10 '.' = none := by decide

theorem readDigits_digits (ds : List Char) (hds : ∀ c ∈ ds, c.isDigit = true)
    (rest : List Char) (hrest : rest = [] ∨ ∃ c t, rest = c :: t ∧ digitOf 10 c = none) :
    ∀ acc n, readDigits 10 (ds ++ rest) acc n
      = (ds.foldl (fun acc c => acc * 10 + (c.toNat - 48)) acc, n + ds.length, rest) := by
  induction ds with
  | nil =>
    intro acc n
    rcases hrest with rfl | ⟨c, t, rfl, hc⟩
    · rfl
    · simp [readDigits, hc]
  | cons d ds ih =>
    intro acc n
    have hd := digitOf_digit (hds d (by simp))
    rw [List.cons_append, readDigits, hd]
    simp only
    rw [ih (fun c hc => hds c (by simp [hc]))]
    simp only [List.foldl_cons, List.length_cons]
    congr 2
    omega

theorem isSpace_digit {c : Char} (h : c.isDigit = true) : isSpace c = false := by
  cases hs : isSpace c with
  | false => rfl
  | true =>
    simp only [isSpace, Bool.or_eq_true, decide_eq_true_eq] at hs
    rcases hs with ((((rfl | rfl) | rfl) | rfl) | rfl) | rfl <;> exact absurd h (by decide)

theorem digit_ne {c d : Char} (h : c.isDigit = true) (hd : d.isDigit = false) : c ≠ d := by
  rintro rfl
  rw [h] at hd
  exact absurd hd (by decide)

theorem readLiteral_number {s : List Char} (h : NumberForm s) :
    readLiteral s = some (.num (numberValue s)) := by
  have hchars := numberForm_chars h
  obtain ⟨ip, ⟨hne, hip⟩, hs⟩ := h
  have hhex : readHex s = none := by
    unfold readHex
    split
    · rename_i c t
      rw [if_neg]
      intro hc
      have := hchars c (by simp)
      rcases hc with rfl | rfl <;> exact absurd this (by decide)
    · rfl
  have hp : ∀ c ∈ ip, (fun c : Char => decide (c ≠ '.')) c = true := fun c hc => by
    simpa using digit_ne (hip c hc) (by decide)
  have hnum : readNumber 10 10 'e' 'E' s = some (numberValue s) := by
    rcases hs with rfl | ⟨fp, ⟨_, hfp⟩, rfl⟩
    · have h1 := readDigits_digits s hip [] (Or.inl rfl) 0 0
      rw [List.append_nil] at h1
      have h2 : s.length ≠ 0 := fun h => hne (List.length_eq_zero.mp h)
      have h3 : List.takeWhile (fun c : Char => decide (c ≠ '.')) s = s := by
        rw [List.takeWhile_eq_self_iff]; exact hp
      have h4 : List.dropWhile (fun c : Char => decide (c ≠ '.')) s = [] := by
        rw [List.dropWhile_eq_nil_iff]; exact hp
      unfold readNumber numberValue
      rw [h1, h3, h4]
      simp [h2, readExponent, digitsValue]
    · have h1 := readDigits_digits ip hip ('.' :: fp) (Or.inr ⟨_, _, rfl, digitOf_dot⟩) 0 0
      have h2 := readDigits_digits fp hfp [] (Or.inl rfl) 0 0
      rw [List.append_nil] at h2
      have h0 : ip.length ≠ 0 := fun h => hne (List.length_eq_zero.mp h)
      have h3 : List.takeWhile (fun c : Char => decide (c ≠ '.')) (ip ++ '.' :: fp) = ip := by
        rw [List.takeWhile_append_of_pos hp]; simp
      have h4 : List.dropWhile (fun c : Char => decide (c ≠ '.')) (ip ++ '.' :: fp)
          = '.' :: fp := by
        rw [List.dropWhile_append_of_pos hp]; simp
      unfold readNumber numberValue
      rw [h1, h3, h4]
      simp only [h2]
      simp only [zero_add, List.drop_succ_cons, List.drop_zero]
      rw [if_neg (by omega)]
      simp only [readExponent, digitsValue, zpow_zero, mul_one, Nat.cast_add, Nat.cast_mul,
        Nat.cast_pow, Nat.cast_ofNat]
      congr 1
      field_simp
  unfold readLiteral
  rw [hhex]
  simp only [hnum]

/-- On a text of number form `stod` converts its numeric value: the double
`strtod` gives for that value, or `out_of_range` on `ERANGE`. -/
theorem stod_number {D : Type} (A : Arith D) {s : List Char} (h : NumberForm s) :
    stod A s = stodResult A false (some (.num (numberValue s))) := by
  have hchars := numberForm_chars h
  have hl := readLiteral_number h
  obtain ⟨ip, ⟨hne, hip⟩, hs⟩ := h
  obtain ⟨d, t, rfl⟩ : ∃ d t, ip = d :: t := by
    cases ip with
    | nil => exact absurd rfl hne
    | cons d t => exact ⟨d, t, rfl⟩
  have hd : d.isDigit = true := hip d (by simp)
  obtain ⟨rest, rfl⟩ : ∃ rest, s = d :: rest := by
    rcases hs with rfl | ⟨fp, _, rfl⟩
    · exact ⟨t, rfl⟩
    · exact ⟨t ++ '.' :: fp, rfl⟩
  have h1 : List.dropWhile isSpace (d :: rest) = d :: rest := by
    rw [List.dropWhile_cons, isSpace_digit hd]; rfl
  have hm : d ≠ '-' := digit_ne hd (by decide)
  have hpl : d ≠ '+' := digit_ne hd (by decide)
  have h2 : strtodSign (d :: rest) = false := by
    unfold strtodSign
    split
    · rename_i heq
      exact absurd (List.cons_eq_cons.mp heq).1 hm
    · rfl
  have h3 : strtodBody (d :: rest) = d :: rest := by
    unfold strtodBody
    split
    · rename_i heq
      exact absurd (List.cons_eq_cons.mp heq).1 hpl
    · rename_i heq
      exact absurd (List.cons_eq_cons.mp heq).1 hm
    · rfl
  unfold stod
  rw [h1, h2, h3, hl]

/-! ## A parenthesised group as an operand -/

/-- Inside one parenthesised group no index is at depth 0, and the opening
parenthesis is no operator. -/
theorem no_top_wrap {s : List Char} (hb : Balanced s) (j : Nat) :
    ¬ AddAt ('(' :: (s ++ [')'])) j ∧ ¬ MulAt ('(' :: (s ++ [')'])) j
      ∧ ¬ PowAt ('(' :: (s ++ [')'])) j := by
  have hb' := (balanced_iff s).mp hb
  cases j with
  | zero => exact not_top_of_char (by simp [charAt])
  | succ j =>
    by_cases hj : j ≤ s.length
    · refine not_top_of_depth ?_
      rw [List.take_succ_cons, depth_cons, List.take_append_of_le_length hj]
      have := hb'.1 j
      simp [parenDelta]
      omega
    · have hlen : ¬ j + 1 < ('(' :: (s ++ [')'])).length := by simp; omega
      unfold AddAt MulAt PowAt TopAt
      refine ⟨?_, ?_, ?_⟩
      · rintro (⟨h1, _⟩ | ⟨h1, _⟩) <;> exact hlen h1
      · rintro (⟨h1, _⟩ | ⟨h1, _⟩) <;> exact hlen h1
      · rintro ⟨h1, _⟩; exact hlen h1

/-- The parenthesised sum of two literals times a literal: the split is the
`*`, and the left operand is parsed without its parentheses. -/
theorem parse_group_mul {D : Type} (A : Arith D) {a b c : List Char}
    (ha : NumberForm a) (hb : NumberForm b) (hc : NumberForm c)
    (hlen : (['('] ++ a ++ ['+'] ++ b ++ [')', '*'] ++ c).length < 2 ^ 31) {fuel : Nat}
    (hf : (['('] ++ a ++ ['+'] ++ b ++ [')', '*'] ++ c).length < fuel) :
    parse A fuel (['('] ++ a ++ ['+'] ++ b ++ [')', '*'] ++ c)
      = (stod A a).bind fun x => (stod A b).bind fun y => (stod A c).bind fun z =>
          .ret (.Binary .mult (.Binary .add (.Constant x) (.Constant y)) (.Constant z)) := by
  have he : ['('] ++ a ++ ['+'] ++ b ++ [')', '*'] ++ c
      = ('(' :: ((a ++ '+' :: b) ++ [')'])) ++ '*' :: c := by simp
  have hsum := @balanced_literals a b '+' ha hb (by decide)
  have hw := balanced_wrap hsum
  have hl : (('(' :: ((a ++ '+' :: b) ++ [')'])) ++ '*' :: c).length
      = a.length + b.length + c.length + 4 := by
    simp only [List.length_append, List.length_cons, List.length_nil]; omega
  have hl1 : (a ++ '+' :: b).length = a.length + b.length + 1 := by
    simp only [List.length_append, List.length_cons]; omega
  rw [he] at hlen hf ⊢
  rw [hl] at hlen hf
  obtain ⟨f, rfl⟩ : ∃ f, fuel = f + 1 := ⟨fuel - 1, by omega⟩
  have hp : SplitBelow (('(' :: ((a ++ '+' :: b) ++ [')'])) ++ '*' :: c)
      (('(' :: ((a ++ '+' :: b) ++ [')'])) ++ '*' :: c).length
      ('(' :: ((a ++ '+' :: b) ++ [')'])).length :=
    splitBelow_mul ((balanced_iff _).mp hw).2 (Or.inl rfl) (fun j => (no_top_wrap hsum j).1)
      fun j => ⟨(no_top_of_plain (numberForm_plain hc) j).1,
        (no_top_of_plain (numberForm_plain hc) j).2.1⟩
  rw [parse_binary A hw (numberForm_balanced hc) (by simp) (by decide) (by decide)
      (by rw [hl]; omega) hp (by rw [hl]; omega),
    parse_wrap A hsum (by rw [hl1]; omega) (by rw [hl1]; omega),
    parse_literals A ha hb (by decide) (by rw [hl1]; omega) (by rw [hl1]; omega),
    parse_number A hc (by omega) (by omega)]
  cases stod A a <;> cases stod A b <;> cases stod A c <;> rfl

/-! ## More fuel does not change a finished run -/

theorem findOperLoop_mono (s : List Char) : ∀ (f : Nat) (i : Int) (pos : Nat) (r : Run Nat),
    findOperLoop s f i pos = r → r ≠ .timeout → ∀ k, findOperLoop s (f + k) i pos = r := by
  intro f
  induction f with
  | zero => intro i pos r h hr; exact absurd h.symm hr
  | succ f ih =>
    intro i pos r h hr k
    rw [show f + 1 + k = (f + k) + 1 by omega, findOperLoop_succ]
    rw [findOperLoop_succ] at h
    split
    · rename_i hlt
      rw [if_pos hlt] at h
      exact ih _ _ r h hr k
    · rename_i hlt
      rw [if_neg hlt] at h
      exact h

theorem stripLoop_mono : ∀ (f : Nat) (s : List Char) (r : Run (List Char)),
    stripLoop f s = r → r ≠ .timeout → ∀ k, stripLoop (f + k) s = r := by
  intro f
  induction f with
  | zero => intro s r h hr; exact absurd h.symm hr
  | succ f ih =>
    intro s r h hr k
    rw [show f + 1 + k = (f + k) + 1 by omega, stripLoop_succ]
    rw [stripLoop_succ] at h
    split
    · rename_i hc
      rw [if_pos hc] at h
      cases hs : substr s 1 (sizeSub s.length 2) with
      | ret e =>
        rw [hs, Run.bind_ret] at h
        rw [Run.bind_ret]
        exact ih e r h hr k
      | throw e => rw [hs] at h; exact h
      | timeout => rw [hs] at h; exact h
    · rename_i hc
      rw [if_neg hc] at h
      exact h

/-- The branches of `parse` with a recursive call that has finished at least
where another one has. -/
theorem parseSplit_mono {D : Type} (A : Arith D) (rec1 rec2 : List Char → Run (Expression D))
    (hrec : ∀ t, rec1 t ≠ .timeout → rec2 t = rec1 t) (expr : List Char) (pos : Nat)
    (h : parseSplit A rec1 expr pos ≠ .timeout) :
    parseSplit A rec2 expr pos = parseSplit A rec1 expr pos := by
  unfold parseSplit at h ⊢
  by_cases hnp : pos = npos
  · rw [if_pos hnp, if_pos hnp]
  · rw [if_neg hnp] at h ⊢
    rw [if_neg hnp]
    by_cases h0 : pos = 0
    · rw [if_pos h0] at h ⊢
      rw [if_pos h0]
      cases hs : substr expr 1 npos with
      | ret rest =>
        rw [hs] at h
        simp only [Run.bind_ret] at h ⊢
        have h1 : rec1 rest ≠ .timeout := by
          intro ht; rw [ht] at h; exact h rfl
        rw [hrec rest h1]
      | throw e => rfl
      | timeout => rfl
    · rw [if_neg h0] at h ⊢
      rw [if_neg h0]
      cases hs : substr expr 0 pos with
      | ret ltext =>
        rw [hs] at h
        simp only [Run.bind_ret] at h ⊢
        have h1 : rec1 ltext ≠ .timeout := by
          intro ht; rw [ht] at h; exact h rfl
        rw [hrec ltext h1]
        cases hl : rec1 ltext with
        | ret left =>
          rw [hl] at h
          simp only [Run.bind_ret] at h ⊢
          cases hs2 : substr expr (pos + 1) npos with
          | ret rtext =>
            rw [hs2] at h
            simp only [Run.bind_ret] at h ⊢
            have h2 : rec1 rtext ≠ .timeout := by
              intro ht; rw [ht] at h; exact h rfl
            rw [hrec rtext h2]
          | throw e => rfl
          | timeout => rfl
        | throw e => rfl
        | timeout => exact absurd hl h1
      | throw e => rfl
      | timeout => rfl

/-- A run of `parse` that has ended is not changed by more fuel. -/
theorem parse_mono {D : Type} (A : Arith D) : ∀ (f : Nat) (t : List Char),
    parse A f t ≠ .timeout → ∀ k, parse A (f + k) t = parse A f t := by
  intro f
  induction f with
  | zero => intro t h; exact absurd rfl h
  | succ f ih =>
    intro t h k
    rw [show f + 1 + k = (f + k) + 1 by omega, parse_succ]
    rw [parse_succ] at h ⊢
    cases hs : stripLoop (f + 1) t with
    | ret expr =>
      have hs' := stripLoop_mono (f + 1) t _ hs (by simp) k
      rw [show f + 1 + k = (f + k) + 1 by omega] at hs'
      rw [hs'] 
      rw [hs] at h
      simp only [Run.bind_ret] at h ⊢
      cases hf : findOper (f + 1) expr with
      | ret pos =>
        have hf' := findOperLoop_mono expr (f + 1) 0 npos _ hf (by simp) k
        rw [show f + 1 + k = (f + k) + 1 by omega] at hf'
        unfold findOper
        rw [hf']
        rw [hf] at h
        simp only [Run.bind_ret] at h ⊢
        exact parseSplit_mono A (parse A f) (parse A (f + k)) (fun t ht => ih t ht k) expr pos h
      | throw e =>
        have hf' := findOperLoop_mono expr (f + 1) 0 npos _ hf (by simp) k
        rw [show f + 1 + k = (f + k) + 1 by omega] at hf'
        unfold findOper
        rw [hf']
        rfl
      | timeout => rw [hf] at h; exact absurd rfl h
    | throw e =>
      have hs' := stripLoop_mono (f + 1) t _ hs (by simp) k
      rw [show f + 1 + k = (f + k) + 1 by omega] at hs'
      rw [hs']
      rfl
    | timeout => rw [hs] at h; exact absurd rfl h

/-- A finished run of `parse` gives the outcome for every larger fuel. -/
theorem parse_of_le {D : Type} (A : Arith D) {f : Nat} {t : List Char} {r : Run (Expression D)}
    (h : parse A f t = r) (hr : r ≠ .timeout) {fuel : Nat} (hf : f ≤ fuel) :
    parse A fuel t = r := by
  have := parse_mono A f t (by rw [h]; exact hr) (fuel - f)
  rw [show f + (fuel - f) = fuel by omega, h] at this
  exact this

/-! ## An opening parenthesis that is never closed -/

/-- The scan of `findOper` from an index at depth 0 reaches every later index
`n` at depth 0 that holds an operator or a parenthesis, unless the fuel runs
out before. -/
theorem findOperLoop_reach {t : List Char} {n : Nat} (hlen : t.length < 2 ^ 31)
    (hn : n < t.length) (hcn : charAt t n ∈ operChars) (hdn : depth (t.take n) = 0)
    (hnonneg : ∀ k, k ≤ n → 0 ≤ depth (t.take k)) :
    ∀ m k pos, n - k ≤ m → k ≤ n → depth (t.take k) = 0 →
      ∀ fuel, findOperLoop t fuel (k : Int) pos = .timeout ∨
        ∃ fuel' pos', fuel' ≤ fuel ∧
          findOperLoop t fuel (k : Int) pos = findOperLoop t fuel' (n : Int) pos' := by
  intro m
  induction m with
  | zero =>
    intro k pos hm hk _ fuel
    have hkn : k = n := by omega
    subst hkn
    exact Or.inr ⟨fuel, pos, le_rfl, rfl⟩
  | succ m ih =>
    intro k pos hm hk hd fuel
    by_cases hkn : k = n
    · subst hkn
      exact Or.inr ⟨fuel, pos, le_rfl, rfl⟩
    have hk' : k < t.length := by omega
    have hts : toSize (k : Int) = k := toSize_natCast (by omega)
    cases fuel with
    | zero => exact Or.inl rfl
    | succ f =>
      have next : ∀ (k' : Nat) (pos' : Nat), k < k' → k' ≤ n → depth (t.take k') = 0 →
          findOperLoop t (f + 1) (k : Int) pos = findOperLoop t f (k' : Int) pos' →
          findOperLoop t (f + 1) (k : Int) pos = .timeout ∨
            ∃ fuel' pos', fuel' ≤ f + 1 ∧
              findOperLoop t (f + 1) (k : Int) pos = findOperLoop t fuel' (n : Int) pos' := by
        intro k' pos' h1 h2 h3 h4
        rcases ih k' pos' (by omega) h2 h3 f with h5 | ⟨fuel', pos'', h5, h6⟩
        · exact Or.inl (h4.trans h5)
        · exact Or.inr ⟨fuel', pos'', by omega, h4.trans h6⟩
      by_cases hdig : (charAt t k).isDigit = true ∨ charAt t k = '.' ∨ charAt t k = 'x'
      · have hbody := @findOperBody_digit t (k : Int) pos (by rwa [hts])
        rw [hts] at hbody
        rcases find_first_of_spec t operChars k with ⟨_, hnone⟩ | ⟨q, hkq, hql, hq, hqc, hbetween⟩
        · exact absurd hcn (hnone n hk hn)
        · have hqk : q ≠ k := by
            rintro rfl
            exact digitLike_not_operChars hdig hqc
          have hqn : q ≤ n := by
            by_contra hlt
            exact hbetween n hk (by omega) hcn
          have hdq : depth (t.take q) = 0 := by
            have := depth_take_of_no_paren t k (q - k) (by omega) (fun j h1 h2 =>
              (not_oper_of_not_operChars (hbetween j h1 (by omega))).2)
            rw [show k + (q - k) = q by omega] at this
            rw [this, hd]
          refine next q pos (by omega) hqn hdq ?_
          rw [findOperLoop_succ, hts, if_pos hk', hbody, hq, sizeSub_one (by omega) (by omega),
            toInt_of_lt (by omega)]
          have : (((q - 1 : Nat) : Int) + 1) = (q : Int) := by omega
          simp only [this]
      by_cases hpar : charAt t k = '('
      · have hbody := @findOperBody_paren t (k : Int) pos (by rwa [hts])
        rw [hts] at hbody
        rcases findEnd_spec hk' hpar with ⟨_, hnone⟩ | ⟨e, hke, hel, he, hde, hbetween⟩
        · exact absurd (by rw [hdn, hd]) (hnone n (by omega) (by omega))
        · have hen : e < n := by
            by_contra hlt
            exact hbetween n (by omega) (by omega) (by rw [hdn, hd])
          refine next (e + 1) pos (by omega) (by omega) (by rw [hde, hd]) ?_
          rw [findOperLoop_succ, hts, if_pos hk', hbody, he, toInt_of_lt (by omega)]
          rfl
      by_cases hop : charAt t k ∈ ['^', '*', '/', '+', '-']
      · have hd' : depth (t.take (k + 1)) = 0 := by
          rw [depth_take_succ hk', hd]
          have h2 : charAt t k ≠ ')' := by
            rintro h; rw [h] at hop; exact absurd hop (by decide)
          simp [parenDelta, hpar, h2]
        have hfst : (findOperBody t (k : Int) pos).1 = (k : Int) := by
          simp only [List.mem_cons, List.mem_singleton, List.not_mem_nil, or_false] at hop
          rcases hop with hc | hc | hc | hc | hc <;> simp [findOperBody, hts, hc]
        refine next (k + 1) (findOperBody t (k : Int) pos).2 (by omega) (by omega) hd' ?_
        rw [findOperLoop_succ, hts, if_pos hk', hfst]
        rfl
      · have hbody := @findOperBody_other t (k : Int) pos
          (by rwa [hts]) (by rwa [hts]) (by rwa [hts])
        have hnc : charAt t k ≠ ')' := by
          intro h
          have h1 := hnonneg (k + 1) (by omega)
          rw [depth_take_succ hk', hd, h] at h1
          simp [parenDelta] at h1
        have hd' : depth (t.take (k + 1)) = 0 := by
          rw [depth_take_succ hk', hd]
          simp [parenDelta, hpar, hnc]
        refine next (k + 1) pos (by omega) (by omega) hd' ?_
        rw [findOperLoop_succ, hts, if_pos hk', hbody]
        rfl

/-- When the scan meets at depth 0 an opening parenthesis that is never
closed, `findEnd` answers `npos`, the index restarts at 0, and the scan never
ends. -/
theorem findOperLoop_unclosed {t : List Char} {n : Nat} (hlen : t.length < 2 ^ 31)
    (hn : n < t.length) (hcn : charAt t n = '(') (hdn : depth (t.take n) = 0)
    (hnonneg : ∀ k, k ≤ n → 0 ≤ depth (t.take k)) (hend : findEnd t n = npos) :
    ∀ fuel pos, findOperLoop t fuel 0 pos = .timeout := by
  intro fuel
  induction fuel using Nat.strong_induction_on with
  | _ fuel ih =>
    intro pos
    have hts : toSize (n : Int) = n := toSize_natCast (by omega)
    rcases findOperLoop_reach hlen hn (by rw [hcn]; decide) hdn hnonneg n 0 pos (by omega)
      (by omega) (by simp [depth]) fuel with h | ⟨fuel', pos', hle, h⟩
    · exact h
    · have h0 : ((0 : Nat) : Int) = 0 := rfl
      rw [h0] at h
      rw [h]
      cases fuel' with
      | zero => rfl
      | succ g =>
        rw [findOperLoop_succ, hts, if_pos hn,
          @findOperBody_paren t (n : Int) pos' (by rwa [hts]), hts, hend,
          toInt_npos]
        exact ih g (by omega) pos'

theorem findEnd_unclosed {p q : List Char} (hp : depth p = 0)
    (hq : ∀ k, 0 ≤ depth (q.take k)) : findEnd (p ++ '(' :: q) p.length = npos := by
  have hlen : p.length < (p ++ '(' :: q).length := by
    rw [List.length_append, List.length_cons]; omega
  have hc : charAt (p ++ '(' :: q) p.length = '(' := by
    have := charAt_append_right p ('(' :: q) 0
    simpa [charAt] using this
  have hd : depth (List.take p.length (p ++ '(' :: q)) = 0 := by
    rw [List.take_left' rfl, hp]
  rcases findEnd_spec hlen hc with ⟨h, _⟩ | ⟨e, hke, _, _, hde, _⟩
  · exact h
  · exfalso
    obtain ⟨j, rfl⟩ : ∃ j, e = p.length + j := ⟨e - p.length, by omega⟩
    rw [hd, show p.length + j + 1 = p.length + (j + 1) by omega, List.take_append,
      depth_append, hp, List.take_succ_cons, depth_cons] at hde
    have := hq j
    simp [parenDelta] at hde
    omega

/-- A text `p ++ "(" ++ q` with `p` balanced and a `q` that never closes the
parenthesis: `parse` never returns. -/
theorem parse_unclosed {D : Type} (A : Arith D) {p q : List Char} (hp : Balanced p)
    (hq : ∀ k, 0 ≤ depth (q.take k)) (hlen : (p ++ '(' :: q).length < 2 ^ 31) :
    ∀ fuel, parse A fuel (p ++ '(' :: q) = .timeout := by
  intro fuel
  cases fuel with
  | zero => rfl
  | succ f =>
    have hp' := (balanced_iff p).mp hp
    have hl : p.length < (p ++ '(' :: q).length := by
      rw [List.length_append, List.length_cons]; omega
    have hc : charAt (p ++ '(' :: q) p.length = '(' := by
      have := charAt_append_right p ('(' :: q) 0
      simpa [charAt] using this
    have hd : depth (List.take p.length (p ++ '(' :: q)) = 0 := by
      rw [List.take_left' rfl, hp'.2]
    have hnonneg : ∀ k, k ≤ p.length → 0 ≤ depth (List.take k (p ++ '(' :: q)) := by
      intro k hk
      rw [List.take_append_of_le_length hk]
      exact hp'.1 k
    have htotal : depth (p ++ '(' :: q) ≠ 0 := by
      rw [depth_append, hp'.2, depth_cons]
      have := hq q.length
      rw [List.take_length] at this
      simp [parenDelta]
      omega
    have hstrip : stripLoop (f + 1) (p ++ '(' :: q) = .ret (p ++ '(' :: q) := by
      rw [stripLoop_succ, if_neg]
      rw [sizeSub_one (by omega) (by omega)]
      intro hfe
      have hc0 : charAt (p ++ '(' :: q) 0 = '(' :=
        findEnd_ne_npos (by rw [hfe]; exact lt_npos (by omega))
      rcases findEnd_spec (by omega : 0 < (p ++ '(' :: q).length) hc0
        with ⟨h1, _⟩ | ⟨e, _, _, he, hde, _⟩
      · rw [hfe] at h1
        exact lt_npos (by omega) h1
      · have hee : e = (p ++ '(' :: q).length - 1 := by rw [← hfe, he]
        rw [hee, show (p ++ '(' :: q).length - 1 + 1 = (p ++ '(' :: q).length by omega,
          List.take_length] at hde
        exact htotal (by rw [hde]; simp [depth])
    rw [parse_succ, hstrip, Run.bind_ret]
    unfold findOper
    rw [findOperLoop_unclosed hlen hl hc hd hnonneg (findEnd_unclosed hp'.2 hq) (f + 1) npos]
    rfl

/-! ## The claims -/

theorem stod_exact_one : stod exactArith ['1'] = .ret (some 1) := by decide!
theorem stod_exact_two : stod exactArith ['2'] = .ret (some 2) := by decide!
theorem stod_exact_three : stod exactArith ['3'] = .ret (some 3) := by decide!
theorem stod_in_range {D : Type} (A : Arith D) {s : List Char} (h : NumberForm s) {x : D}
    (hx : A.ofRat false (numberValue s) = some x) : stod A s = .ret x := by
  rw [stod_number A h]
  simp only [stodResult, hx]

theorem stod_out_of_range {D : Type} (A : Arith D) {s : List Char} (h : NumberForm s)
    (hx : A.ofRat false (numberValue s) = none) : stod A s = .throw .out_of_range := by
  rw [stod_number A h]
  simp only [stodResult, hx]

/-- Three literals within the range of `double` are converted one after the
other. -/
theorem stod_three_ret {D : Type} (A : Arith D) {a b c : List Char} (ha : NumberForm a)
    (hb : NumberForm b) (hc : NumberForm c) (k : D → D → D → Expression D) {x y z : D}
    (hx : A.ofRat false (numberValue a) = some x) (hy : A.ofRat false (numberValue b) = some y)
    (hz : A.ofRat false (numberValue c) = some z) :
    ((stod A a).bind fun x => (stod A b).bind fun y => (stod A c).bind fun z =>
      (.ret (k x y z) : Run (Expression D))) = .ret (k x y z) := by
  rw [stod_in_range A ha hx, stod_in_range A hb hy, stod_in_range A hc hz]
  rfl

/-- One literal out of the range of `double` among three makes the conversion
throw `out_of_range`. -/
theorem stod_three_throw {D : Type} (A : Arith D) {a b c : List Char} (ha : NumberForm a)
    (hb : NumberForm b) (hc : NumberForm c) (k : D → D → D → Expression D)
    (h : A.ofRat false (numberValue a) = none ∨ A.ofRat false (numberValue b) = none
      ∨ A.ofRat false (numberValue c) = none) :
    ((stod A a).bind fun x => (stod A b).bind fun y => (stod A c).bind fun z =>
      (.ret (k x y z) : Run (Expression D))) = .throw .out_of_range := by
  rw [stod_number A ha, stod_number A hb, stod_number A hc]
  simp only [stodResult]
  cases hx : A.ofRat false (numberValue a) with
  | none => rfl
  | some x =>
    cases hy : A.ofRat false (numberValue b) with
    | none => rfl
    | some y =>
      cases hz : A.ofRat false (numberValue c) with
      | none => rfl
      | some z =>
        rw [hx, hy, hz] at h
        simp at h

/-- The literal `1` followed by 309 zeros, the number `10^309`, is of number
form. -/
theorem numberForm_big : NumberForm ('1' :: List.replicate 309 '0') :=
  ⟨'1' :: List.replicate 309 '0', ⟨List.cons_ne_nil _ _, fun c hc => by
    rw [List.mem_cons, List.mem_replicate] at hc
    rcases hc with rfl | ⟨_, rfl⟩ <;> rfl⟩, Or.inl rfl⟩

/-- In binary64 `stod` reports the literal `10^309` as out of range. -/
theorem stod_big (pow : Double → Double → Double) :
    stod (binary64 pow).toArith ('1' :: List.replicate 309 '0') = .throw .out_of_range :=
  stod_out_of_range _ numberForm_big
    (show Double.ofRat false (numberValue ('1' :: List.replicate 309 '0')) = none by decide!)

/-- C5, as stated, fails.  The text of `10^309` (`1` followed by 309 zeros) is
a numeric literal, and on `"(" ++ 10^309 ++ "+2)*3"` `parse` returns no tree:
in binary64 `stod` reports the literal as out of range and `parse` throws
`out_of_range`. -/
theorem parse_group_operand_counterexample :
    NumberForm ('1' :: List.replicate 309 '0') ∧ NumberForm ['2'] ∧ NumberForm ['3'] ∧
    numberValue ('1' :: List.replicate 309 '0') = 10 ^ 309 ∧
    ∀ pow fuel, 316 < fuel →
      parse (binary64 pow).toArith fuel
        (['('] ++ ('1' :: List.replicate 309 '0') ++ ['+'] ++ ['2'] ++ [')', '*'] ++ ['3'])
        = .throw .out_of_range := by
  refine ⟨numberForm_big, numberForm_single (by decide), numberForm_single (by decide),
    by decide!, fun pow fuel hf => ?_⟩
  have hl : (['('] ++ ('1' :: List.replicate 309 '0') ++ ['+'] ++ ['2'] ++ [')', '*']
      ++ ['3']).length = 316 := by
    simp only [List.length_append, List.length_cons, List.length_replicate, List.length_nil]
  rw [parse_group_mul _ numberForm_big (numberForm_single (by decide))
    (numberForm_single (by decide)) (by rw [hl]; decide) (by rw [hl]; exact hf), stod_big]
  rfl

/-- C5, amended. A parenthesised group is an indivisible operand: for all
numeric literals `a`, `b`, `c` within the range of `double`, with `x`, `y`,
`z` the doubles `stod` converts them to,
`parse("(" ++ a ++ "+" ++ b ++ ")*" ++ c)` is
`Binary(mult, Binary(add, Constant x, Constant y), Constant z)`: the `+`
inside the parentheses is not the split and the parentheses of the left
operand are stripped; when one of the literals is out of the range of
`double`, `parse` throws `out_of_range`; `parse("(1+2)*3").evaluate()` is `9`. -/
theorem parse_group_operand {D : Type} (A : Arith D) (a b c : List Char)
    (ha : NumberForm a) (hb : NumberForm b) (hc : NumberForm c)
    (hlen : a.length + b.length + c.length + 4 < 2 ^ 31) :
    (∀ fuel, a.length + b.length + c.length + 4 < fuel →
      parse A fuel (['('] ++ a ++ ['+'] ++ b ++ [')', '*'] ++ c)
        = (stod A a).bind fun x => (stod A b).bind fun y => (stod A c).bind fun z =>
            .ret (.Binary .mult (.Binary .add (.Constant x) (.Constant y)) (.Constant z))) ∧
    (∀ fuel, 7 < fuel → ∃ e, parse exactArith fuel "(1+2)*3".toList = .ret e
      ∧ e.value exactArith = some (some 9)) ∧
    (∀ x y z, A.ofRat false (numberValue a) = some x → A.ofRat false (numberValue b) = some y →
      A.ofRat false (numberValue c) = some z →
      ∀ fuel, a.length + b.length + c.length + 4 < fuel →
        parse A fuel (['('] ++ a ++ ['+'] ++ b ++ [')', '*'] ++ c)
          = .ret (.Binary .mult (.Binary .add (.Constant x) (.Constant y)) (.Constant z))) ∧
    (A.ofRat false (numberValue a) = none ∨ A.ofRat false (numberValue b) = none
        ∨ A.ofRat false (numberValue c) = none →
      ∀ fuel, a.length + b.length + c.length + 4 < fuel →
        parse A fuel (['('] ++ a ++ ['+'] ++ b ++ [')', '*'] ++ c) = .throw .out_of_range) := by
  have hl : (['('] ++ a ++ ['+'] ++ b ++ [')', '*'] ++ c).length
      = a.length + b.length + c.length + 4 := by
    simp only [List.length_append, List.length_cons, List.length_nil]; omega
  have h1 := fun fuel (hf : a.length + b.length + c.length + 4 < fuel) =>
    parse_group_mul A ha hb hc (by rw [hl]; exact hlen) (by rw [hl]; exact hf)
  refine ⟨h1, fun fuel hf => ?_, fun x y z hx hy hz fuel hf => ?_, fun hnone fuel hf => ?_⟩
  · have h := @parse_group_mul _ exactArith ['1'] ['2'] ['3']
      (numberForm_single (by decide)) (numberForm_single (by decide))
      (numberForm_single (by decide)) (by decide) fuel (by simpa using hf)
    rw [stod_exact_one, stod_exact_two, stod_exact_three] at h
    exact ⟨_, h, by decide!⟩
  · exact (h1 fuel hf).trans (stod_three_ret A ha hb hc
      (fun x y z => .Binary .mult (.Binary .add (.Constant x) (.Constant y)) (.Constant z))
      hx hy hz)
  · exact (h1 fuel hf).trans (stod_three_throw A ha hb hc
      (fun x y z => .Binary .mult (.Binary .add (.Constant x) (.Constant y)) (.Constant z))
      hnone)

theorem parse_group_operand_witness :
    NumberForm "10".toList ∧ NumberForm "2.5".toList ∧ NumberForm "3".toList ∧
    (∀ fuel, 10 < fuel →
      parse exactArith fuel (['('] ++ "10".toList ++ ['+'] ++ "2.5".toList ++ [')', '*']
          ++ "3".toList)
        = .ret (.Binary .mult (.Binary .add (.Constant (some 10)) (.Constant (some (5 / 2))))
            (.Constant (some 3)))) :=
  have h1 : NumberForm "10".toList := ⟨['1', '0'], ⟨by simp, by decide⟩, Or.inl rfl⟩
  have h2 : NumberForm "2.5".toList :=
    ⟨['2'], ⟨by simp, by decide⟩, Or.inr ⟨['5'], ⟨by simp, by decide⟩, rfl⟩⟩
  have h3 : NumberForm "3".toList := ⟨['3'], ⟨by simp, by decide⟩, Or.inl rfl⟩
  ⟨h1, h2, h3, fun fuel hf =>
    ((parse_group_operand exactArith _ _ _ h1 h2 h3 (by decide)).1 fuel hf).trans
      (by decide!)⟩

theorem balanced_wrapped {s : List Char} (hb : Balanced s) : ∀ n, Balanced (wrapped n s)
  | 0 => hb
  | n + 1 => balanced_wrap (balanced_wrapped hb n)

theorem length_wrapped (s : List Char) : ∀ n, (wrapped n s).length = s.length + 2 * n
  | 0 => rfl
  | n + 1 => by
    simp only [wrapped, List.length_cons, List.length_append, List.length_nil,
      length_wrapped s n]
    omega

/-- C6. Redundant wrapping parentheses do not change the parse: for every
text `s` with balanced parentheses, `parse` ends on `s` with an outcome `r`
(a tree or an exception, the empty text included), and `parse` ends with the
same outcome on `"(" ++ s ++ ")"` and on `s` inside any number `k ≤ n` of
wrapping layers. -/
theorem parse_wrapping_parentheses {D : Type} (A : Arith D) (s : List Char) (n : Nat)
    (hb : Balanced s) (hlen : s.length + 2 * n < 2 ^ 31) :
    ∃ r, r ≠ .timeout ∧
      (∀ fuel, s.length < fuel → parse A fuel s = r) ∧
      (1 ≤ n → ∀ fuel, s.length + 2 < fuel → parse A fuel ('(' :: (s ++ [')'])) = r) ∧
      (∀ k, k ≤ n → ∀ fuel, s.length + 2 * k < fuel → parse A fuel (wrapped k s) = r) := by
  obtain ⟨r, hr, hrun⟩ := parse_balanced A s.length s le_rfl hb (by omega)
  have hall : ∀ k, k ≤ n → ∀ fuel, s.length + 2 * k < fuel →
      parse A fuel (wrapped k s) = r := by
    intro k
    induction k with
    | zero => intro _ fuel hf; exact hrun fuel hf
    | succ k ih =>
      intro hk fuel hf
      have hw := length_wrapped s k
      show parse A fuel ('(' :: (wrapped k s ++ [')'])) = r
      rw [parse_wrap A (balanced_wrapped hb k) (by omega) (by omega)]
      exact ih (by omega) fuel (by omega)
  exact ⟨r, hr, hrun, fun h1 fuel hf => hall 1 h1 fuel (by omega), hall⟩

theorem parse_wrapping_parentheses_witness :
    Balanced "1+2".toList ∧ "1+2".toList.length + 2 * 2 < 2 ^ 31 ∧
    ∃ r, r ≠ .timeout ∧
      (∀ fuel, "1+2".toList.length < fuel → parse exactArith fuel "1+2".toList = r) ∧
      (1 ≤ 2 → ∀ fuel, "1+2".toList.length + 2 < fuel →
        parse exactArith fuel ('(' :: ("1+2".toList ++ [')'])) = r) ∧
      (∀ k, k ≤ 2 → ∀ fuel, "1+2".toList.length + 2 * k < fuel →
        parse exactArith fuel (wrapped k "1+2".toList) = r) :=
  ⟨by decide, by decide, parse_wrapping_parentheses exactArith _ 2 (by decide) (by decide)⟩

/-- C7, as stated, fails.  The text of `10^309` (`1` followed by 309 zeros) is
of number form, and `parse` returns no `Constant` on it: in binary64 `stod`
reports the number as out of range and `parse` throws `out_of_range`. -/
theorem parse_literal_round_trip_counterexample :
    NumberForm ('1' :: List.replicate 309 '0') ∧
    numberValue ('1' :: List.replicate 309 '0') = 10 ^ 309 ∧
    ∀ pow fuel, 310 < fuel →
      parse (binary64 pow).toArith fuel ('1' :: List.replicate 309 '0')
        = .throw .out_of_range := by
  refine ⟨numberForm_big, by decide!, fun pow fuel hf => ?_⟩
  have hl : ('1' :: List.replicate 309 '0').length = 310 := by
    simp only [List.length_cons, List.length_replicate]
  rw [parse_number _ numberForm_big (by rw [hl]; decide) (by rw [hl]; exact hf), stod_big]
  rfl

/-- C7, amended. Literal round trip: for every text `s` of number form the
splitter reports no split and no parenthesis layer is stripped; when the
numeric value of `s` is within the range of `double`, `parse(s)` returns
exactly `Constant(n)`, where `n` is the double `strtod` gives for that value,
and when `strtod` reports `ERANGE` for it `parse` throws `out_of_range`;
`Constant(n)` evaluates to `n`, without a binding and under every binding. -/
theorem parse_literal_round_trip {D : Type} (A : Arith D) (s : List Char)
    (hs : NumberForm s) (hlen : s.length < 2 ^ 31) :
    (∀ fuel, s.length < fuel → findOper fuel s = .ret npos) ∧
    (∀ fuel, 0 < fuel → stripLoop fuel s = .ret s) ∧
    (∀ n, A.ofRat false (numberValue s) = some n →
      ∀ fuel, s.length < fuel → parse A fuel s = .ret (.Constant n)) ∧
    (A.ofRat false (numberValue s) = none →
      ∀ fuel, s.length < fuel → parse A fuel s = .throw .out_of_range) ∧
    (∀ n : D, (Expression.Constant n).value A = some n
      ∧ ∀ v, (Expression.Constant n).valueAt A v = some n) := by
  have hplain := numberForm_plain hs
  have hne := numberForm_ne_nil hs
  have hpos : 0 < s.length := List.length_pos.mpr hne
  have hc : charAt s 0 ≠ '(' := fun h => hplain _ (charAt_mem hpos) (by rw [h]; decide)
  have hsplit : SplitBelow s s.length npos := by
    right; right; right
    exact ⟨fun j _ => no_top_of_plain hplain j, rfl⟩
  refine ⟨fun fuel hf => findOper_eq (numberForm_balanced hs) hlen hsplit hf,
    fun fuel hf => ?_, fun n hn fuel hf => ?_, fun hn fuel hf => ?_, fun n => ⟨rfl, fun v => rfl⟩⟩
  · obtain ⟨f, rfl⟩ : ∃ f, fuel = f + 1 := ⟨fuel - 1, by omega⟩
    exact stripLoop_of_not_paren hlen hne hc f
  · rw [parse_number A hs hlen hf, stod_number A hs]
    simp only [stodResult, hn, Run.bind_ret]
  · rw [parse_number A hs hlen hf, stod_number A hs]
    simp only [stodResult, hn, Run.bind_throw]

theorem parse_literal_round_trip_witness :
    NumberForm "12.25".toList ∧ numberValue "12.25".toList = 49 / 4 ∧
    (∀ fuel, 5 < fuel →
      parse exactArith fuel "12.25".toList = .ret (.Constant (some (49 / 4)))) :=
  have h : NumberForm "12.25".toList :=
    ⟨['1', '2'], ⟨by simp, by decide⟩, Or.inr ⟨['2', '5'], ⟨by simp, by decide⟩, rfl⟩⟩
  ⟨h, by decide!, (parse_literal_round_trip exactArith _ h (by decide)).2.2.1 _ (by decide!)⟩

theorem valueAt_unary {D : Type} (A : Arith D) (e : Expression D) (v : D) :
    (Expression.Unary .neg e).valueAt A v = (e.valueAt A v).map (neg A) := by
  simp only [Expression.valueAt]
  cases e.valueAt A v <;> rfl

theorem depth_take_plain {l : List Char} (h : ∀ c ∈ l, c ≠ '(' ∧ c ≠ ')') (k : Nat) :
    0 ≤ depth (l.take k) := by
  rw [depth_of_plain fun c hc => h c (List.mem_of_mem_take hc)]

theorem not_balanced_unclosed {p q : List Char} (hp : Balanced p)
    (hq : ∀ k, 0 ≤ depth (q.take k)) : ¬ Balanced (p ++ '(' :: q) := by
  intro hb
  have h1 := ((balanced_iff _).mp hb).2
  rw [depth_append, ((balanced_iff _).mp hp).2, depth_cons] at h1
  have h2 := hq q.length
  rw [List.take_length] at h2
  simp [parenDelta] at h1
  omega

/-- An unmatched closing parenthesis that the scan skips: `1+2)` parses as
`1+2`. -/
theorem parse_unmatched_close {fuel : Nat} (hf : 4 < fuel) :
    parse exactArith fuel "1+2)".toList
      = .ret (.Binary .add (.Constant (some 1)) (.Constant (some 2))) :=
  parse_of_le exactArith (f := 5) (by decide!) (by simp) hf

/-- C10, as stated, fails: on `(1+2`, whose parenthesis is never closed,
`parse` does not end (it uses up every fuel), and on `1+2)` it returns the
tree of `1+2`. -/
theorem parse_unmatched_counterexample :
    ¬ Balanced "(1+2".toList ∧ (∀ fuel, parse exactArith fuel "(1+2".toList = .timeout) ∧
    ¬ Balanced "1+2)".toList ∧
    (∀ fuel, 4 < fuel → parse exactArith fuel "1+2)".toList
      = .ret (.Binary .add (.Constant (some 1)) (.Constant (some 2)))) := by
  refine ⟨by decide, fun fuel => ?_, by decide, fun fuel hf => parse_unmatched_close hf⟩
  exact parse_unclosed exactArith (p := []) (q := "1+2".toList) (by decide)
    (depth_take_plain (by decide)) (by decide) fuel

/-- C10, amended. Unmatched parentheses are not detected.  When the scan of
`findOper` meets, at depth 0, a `(` that is never closed (a text
`p ++ "(" ++ q` with `p` balanced and no initial segment of `q` closing the
parenthesis, such as `(1+2` and `1+(2`), the text is not balanced and `parse`
never returns: `findEnd` answers `npos`, the scan index restarts at 0, and the
scan repeats for ever.  A `)` without a matching `(` is skipped by the scan:
`1+2)` is not balanced and `parse` returns `Binary(add, Constant 1, Constant 2)`. -/
theorem parse_unmatched_not_rejected {D : Type} (A : Arith D) (p q : List Char)
    (hp : Balanced p) (hq : ∀ k, 0 ≤ depth (q.take k))
    (hlen : (p ++ '(' :: q).length < 2 ^ 31) :
    ¬ Balanced (p ++ '(' :: q) ∧ (∀ fuel, parse A fuel (p ++ '(' :: q) = .timeout) ∧
    ¬ Balanced "1+2)".toList ∧
    (∀ fuel, 4 < fuel → parse exactArith fuel "1+2)".toList
      = .ret (.Binary .add (.Constant (some 1)) (.Constant (some 2)))) :=
  ⟨not_balanced_unclosed hp hq, parse_unclosed A hp hq hlen, by decide,
    fun _ hf => parse_unmatched_close hf⟩

theorem parse_unmatched_not_rejected_witness :
    Balanced "1+".toList ∧ (∀ k, 0 ≤ depth ("2".toList.take k)) ∧
    ¬ Balanced "1+(2".toList ∧ (∀ fuel, parse exactArith fuel "1+(2".toList = .timeout) :=
  have h := parse_unmatched_not_rejected exactArith "1+".toList "2".toList (by decide)
    (depth_take_plain (by decide)) (by decide)
  ⟨by decide, depth_take_plain (by decide), h.1, h.2.1⟩

/-! ## Closed-form evaluation -/

theorem value_eq_valueAt_zero {D : Type} (A : Arith D) (e : Expression D) :
    e.value A = e.valueAt A A.zero := by
  induction e with
  | Binary oper left right ihl ihr => simp only [Expression.value, Expression.valueAt, ihl, ihr]
  | Unary oper right ih => simp only [Expression.value, Expression.valueAt, ih]
  | Constant val => rfl
  | Variable => rfl
  | nullptr => rfl

theorem valueAt_of_no_variable {D : Type} (A : Arith D) (e : Expression D)
    (h : e.hasVariable = false) (v w : D) : e.valueAt A v = e.valueAt A w := by
  induction e with
  | Binary oper left right ihl ihr =>
    simp only [Expression.hasVariable, Bool.or_eq_false_iff] at h
    simp only [Expression.valueAt, ihl h.1, ihr h.2]
  | Unary oper right ih =>
    simp only [Expression.hasVariable] at h
    simp only [Expression.valueAt, ih h]
  | Constant val => rfl
  | Variable => simp [Expression.hasVariable] at h
  | nullptr => rfl

/-- C16. Closed-form evaluation treats the unbound variable as zero:
`Variable.value()` returns the double `0` (`NULL` converted), so for every
`Expression` tree `e`, `e.value()` equals `e.value(0)`; `parse("x")` is
`Variable`, of value `0`; and on a tree without `Variable` node `value(v)`
equals `value()` for every `v`. -/
theorem value_unbound_is_zero {D : Type} (A : Arith D) :
    (Expression.Variable : Expression D).value A = some A.zero ∧
    (∀ e : Expression D, e.value A = e.valueAt A A.zero) ∧
    (∀ fuel, 1 < fuel → ∃ e, parse A fuel ['x'] = .ret e ∧ e.value A = some A.zero) ∧
    (∀ e : Expression D, e.hasVariable = false → ∀ v, e.valueAt A v = e.value A) := by
  refine ⟨rfl, value_eq_valueAt_zero A, fun fuel hf => ⟨.Variable, ?_, rfl⟩, fun e he v => ?_⟩
  · rw [parse_leaf A (by decide) (by decide) (by decide) (by simpa using hf)]
    rfl
  · rw [value_eq_valueAt_zero A e]
    exact valueAt_of_no_variable A e he v A.zero

/-! ## Size of the tree against the operators of the text -/

theorem Run.bind_eq_ret {α β : Type} {r : Run α} {f : α → Run β} {b : β}
    (h : r.bind f = .ret b) : ∃ a, r = .ret a ∧ f a = .ret b := by
  cases r with
  | ret a => exact ⟨a, rfl, h⟩
  | throw e => simp at h
  | timeout => simp at h

theorem substr_eq_ret {s t : List Char} {k n : Nat} (h : substr s k n = .ret t) :
    k ≤ s.length ∧ t = (s.drop k).take n := by
  unfold substr at h
  split at h
  · simp at h
  · rename_i hk
    injection h with h
    exact ⟨by omega, h.symm⟩

theorem operCount_append (l r : List Char) :
    operCount (l ++ r) = operCount l + operCount r := by
  unfold operCount
  rw [List.countP_append]

theorem operCount_take_le (s : List Char) (n : Nat) : operCount (s.take n) ≤ operCount s := by
  unfold operCount
  exact (List.take_sublist n s).countP_le _

theorem operCount_drop_le (s : List Char) (n : Nat) : operCount (s.drop n) ≤ operCount s := by
  unfold operCount
  exact (List.drop_sublist n s).countP_le _

/-- A text splits at an operator into the text before, the operator and the
text after; the operator counts once. -/
theorem operCount_split {s : List Char} {k : Nat} (hk : k < s.length)
    (hop : isOperator (charAt s k) = true) :
    operCount (s.take k) + operCount (s.drop (k + 1)) + 1 = operCount s := by
  have h := List.take_append_drop k s
  rw [drop_eq_charAt_cons hk] at h
  conv_rhs => rw [← h]
  rw [operCount_append]
  unfold operCount
  rw [List.countP_cons_of_pos _ _ hop]
  omega

theorem stripLoop_operCount : ∀ (f : Nat) (s s' : List Char), stripLoop f s = .ret s' →
    operCount s' ≤ operCount s := by
  intro f
  induction f with
  | zero => intro s s' h; exact Run.noConfusion h
  | succ f ih =>
    intro s s' h
    rw [stripLoop_succ] at h
    split at h
    · obtain ⟨t, ht, h2⟩ := Run.bind_eq_ret h
      have ht' := (substr_eq_ret ht).2
      have h3 := ih _ _ h2
      rw [ht'] at h3
      exact le_trans h3 (le_trans (operCount_take_le _ _) (operCount_drop_le _ _))
    · injection h with h
      rw [h]

theorem height_le_nodes {D : Type} (e : Expression D) : e.height ≤ e.nodes := by
  induction e with
  | Binary oper left right ihl ihr => simp only [Expression.height, Expression.nodes]; omega
  | Unary oper right ih => simp only [Expression.height, Expression.nodes]; omega
  | Constant val => simp [Expression.height]
  | Variable => simp [Expression.height]
  | nullptr => simp [Expression.height]

theorem charAt_ne_nul_lt {s : List Char} {k : Nat} (h : charAt s k ≠ '\x00') : k < s.length := by
  by_contra hk
  apply h
  unfold charAt
  rw [List.getD_eq_getElem?_getD, List.getElem?_eq_none (by omega)]
  rfl

theorem isOperator_lt {s : List Char} {k : Nat} (h : isOperator (charAt s k) = true) :
    k < s.length :=
  charAt_ne_nul_lt (by
    intro h0
    rw [h0] at h
    exact absurd h (by decide))

theorem unaryNode_size {D : Type} (c : Char) (right : Expression D) :
    (unaryNode c right).nodes ≤ right.nodes + (if isOperator c then 1 else 0)
      ∧ (unaryNode c right).leaves ≤ right.leaves := by
  unfold unaryNode
  by_cases h1 : c = '+'
  · subst h1; simp
  · by_cases h2 : c = '-'
    · subst h2
      simp [Expression.nodes, Expression.leaves, isOperator]
    · simp [h1, h2, Expression.nodes, Expression.leaves]

theorem binaryNode_size {D : Type} (c : Char) (left right : Expression D) :
    (binaryNode c left right).nodes ≤ left.nodes + right.nodes + 1
      ∧ (binaryNode c left right).leaves ≤ left.leaves + right.leaves := by
  unfold binaryNode
  repeat' split
  all_goals simp [Expression.nodes, Expression.leaves]

theorem binaryNode_of_not_operator {D : Type} {c : Char} (h : isOperator c ≠ true)
    (left right : Expression D) : binaryNode c left right = .nullptr := by
  have h1 : c ≠ '+' := fun hc => h (by rw [hc]; rfl)
  have h2 : c ≠ '-' := fun hc => h (by rw [hc]; rfl)
  have h3 : c ≠ '*' := fun hc => h (by rw [hc]; rfl)
  have h4 : c ≠ '/' := fun hc => h (by rw [hc]; rfl)
  have h5 : c ≠ '^' := fun hc => h (by rw [hc]; rfl)
  unfold binaryNode
  rw [if_neg h1, if_neg h2, if_neg h3, if_neg h4, if_neg h5]

/-- The bound of the tree a run of `parse` returns, by the operators of its
text. -/
theorem parse_size {D : Type} (A : Arith D) : ∀ (fuel : Nat) (text : List Char)
    (e : Expression D), parse A fuel text = .ret e →
    e.nodes ≤ operCount text ∧ e.leaves ≤ operCount text + 1 := by
  intro fuel
  induction fuel with
  | zero => intro text e h; exact Run.noConfusion h
  | succ f ih =>
    intro text e h
    rw [parse_succ] at h
    obtain ⟨expr, hstrip, h⟩ := Run.bind_eq_ret h
    obtain ⟨pos, _, h⟩ := Run.bind_eq_ret h
    have hle := stripLoop_operCount _ _ _ hstrip
    suffices hs : e.nodes ≤ operCount expr ∧ e.leaves ≤ operCount expr + 1 by
      exact ⟨le_trans hs.1 hle, le_trans hs.2 (by omega)⟩
    unfold parseSplit at h
    by_cases hnp : pos = npos
    · rw [if_pos hnp] at h
      split at h
      · injection h with h
        subst h
        simp [Expression.nodes, Expression.leaves]
      · obtain ⟨v, _, h⟩ := Run.bind_eq_ret h
        injection h with h
        subst h
        simp [Expression.nodes, Expression.leaves]
    · rw [if_neg hnp] at h
      by_cases h0 : pos = 0
      · rw [if_pos h0] at h
        obtain ⟨rest, hrest, h⟩ := Run.bind_eq_ret h
        obtain ⟨right, hright, h⟩ := Run.bind_eq_ret h
        injection h with h
        subst h
        obtain ⟨hlen, rfl⟩ := substr_eq_ret hrest
        have hr := ih _ _ hright
        have hu := unaryNode_size (charAt expr 0) right
        have ht : operCount ((expr.drop 1).take npos) ≤ operCount (expr.drop 1) :=
          operCount_take_le _ _
        by_cases hop : isOperator (charAt expr 0) = true
        · have hsplit := operCount_split (isOperator_lt hop) hop
          rw [if_pos hop] at hu
          simp only [zero_add] at hsplit
          constructor <;> omega
        · rw [if_neg hop] at hu
          have := operCount_drop_le expr 1
          constructor <;> omega
      · rw [if_neg h0] at h
        obtain ⟨ltext, hl, h⟩ := Run.bind_eq_ret h
        obtain ⟨left, hleft, h⟩ := Run.bind_eq_ret h
        obtain ⟨rtext, hr, h⟩ := Run.bind_eq_ret h
        obtain ⟨right, hright, h⟩ := Run.bind_eq_ret h
        injection h with h
        subst h
        obtain ⟨_, rfl⟩ := substr_eq_ret hl
        obtain ⟨hlen, rfl⟩ := substr_eq_ret hr
        have h1 := ih _ _ hleft
        have h2 := ih _ _ hright
        have hb := binaryNode_size (charAt expr pos) left right
        rw [List.drop_zero] at h1
        have ht : operCount ((expr.drop (pos + 1)).take npos) ≤ operCount (expr.drop (pos + 1)) :=
          operCount_take_le _ _
        by_cases hop : isOperator (charAt expr pos) = true
        · have hsplit := operCount_split (isOperator_lt hop) hop
          constructor <;> omega
        · rw [binaryNode_of_not_operator hop]
          simp [Expression.nodes, Expression.leaves]

/-- C17. Tree size is bounded by the operator count of the source text: for
every text on which `parse` returns a tree `e`, the number of `Unary` and
`Binary` nodes of `e`, and hence its depth (a leaf has depth 0), is at most
the number of the characters `+ - * / ^` in the text, and the number of
leaves is at most that count plus one. -/
theorem parse_tree_size {D : Type} (A : Arith D) (fuel : Nat) (text : List Char)
    (e : Expression D) (h : parse A fuel text = .ret e) :
    e.nodes ≤ operCount text ∧ e.height ≤ operCount text ∧ e.leaves ≤ operCount text + 1 := by
  obtain ⟨h1, h2⟩ := parse_size A fuel text e h
  exact ⟨h1, le_trans (height_le_nodes e) h1, h2⟩

theorem parse_tree_size_witness :
    parse exactArith 12 "-(1+2)*x^3".toList
      = .ret (.Unary .neg (.Binary .mult
          (.Binary .add (.Constant (some 1)) (.Constant (some 2)))
          (.Binary .expt .Variable (.Constant (some 3))))) ∧
    operCount "-(1+2)*x^3".toList = 4 ∧
    (Expression.Unary .neg (.Binary .mult
        (.Binary .add (.Constant (some 1)) (.Constant (some 2)))
        (.Binary .expt .Variable (.Constant (some 3)))) : Expression (Option ℚ)).nodes ≤ 4 :=
  ⟨by decide!, by decide,
    (parse_tree_size exactArith 12 "-(1+2)*x^3".toList _ (by decide!)).1.trans (by decide)⟩

/-! ## Splitting at the last additive operator -/

/-- The outcome of `parse` on a balanced text is the same for every fuel
above its length. -/
theorem parse_stable {D : Type} (A : Arith D) {s : List Char} (hb : Balanced s)
    (hlen : s.length < 2 ^ 31) {f g : Nat} (hf : s.length < f) (hg : s.length < g) :
    parse A f s = parse A g s ∧ parse A f s ≠ .timeout := by
  obtain ⟨r, hr, hrun⟩ := parse_balanced A s.length s le_rfl hb hlen
  rw [hrun f hf, hrun g hg]
  exact ⟨rfl, hr⟩

/-- A balanced, non-empty text, a `+` or `-`, and a balanced text without
`+` or `-` at depth 0: `parse` splits at that operator. -/
theorem parse_additive {D : Type} (A : Arith D) {a b : List Char} {op : Char}
    (hop : op = '+' ∨ op = '-') (ha : Balanced a) (hne : a ≠ []) (hb : Balanced b)
    (hadd : ∀ i, ¬ AddAt b i) (hlen : a.length + b.length + 1 < 2 ^ 31) {fuel : Nat}
    (hf : a.length + b.length + 1 < fuel) :
    parse A fuel (a ++ op :: b)
      = (parse A fuel a).bind fun l => (parse A fuel b).bind fun r =>
          .ret (.Binary (if op = '+' then .add else .sub) l r) := by
  obtain ⟨f, rfl⟩ : ∃ f, fuel = f + 1 := ⟨fuel - 1, by omega⟩
  have h1 : op ≠ '(' := by rcases hop with rfl | rfl <;> decide
  have h2 : op ≠ ')' := by rcases hop with rfl | rfl <;> decide
  have hl : (a ++ op :: b).length = a.length + b.length + 1 := by
    rw [List.length_append, List.length_cons]; omega
  have hpos : 0 < a.length := List.length_pos.mpr hne
  rw [parse_binary A ha hb hne h1 h2 (by rw [hl]; omega)
      (splitBelow_add ((balanced_iff a).mp ha).2 hop hadd) (by rw [hl]; omega),
    (parse_stable A ha (by omega) (by omega : a.length < f) (by omega : a.length < f + 1)).1,
    (parse_stable A hb (by omega) (by omega : b.length < f) (by omega : b.length < f + 1)).1]
  rcases hop with rfl | rfl <;> rfl

theorem chain_length (t0 : List Char) (ts : List (List Char)) :
    (ts.foldl (fun acc t => acc ++ '-' :: t) t0).length
      = t0.length + (ts.map fun t => t.length + 1).sum := by
  induction ts using List.reverseRecOn with
  | nil => simp
  | append_singleton ts t ih =>
    rw [List.foldl_append]
    simp only [List.foldl_cons, List.foldl_nil, List.length_append, List.length_cons, ih,
      List.map_append, List.sum_append, List.map_cons, List.map_nil, List.sum_cons,
      List.sum_nil]
    omega

theorem readDigits_count (base : Nat) : ∀ (s : List Char) (acc n : Nat),
    n ≤ (readDigits base s acc n).2.1
  | [], _, _ => le_rfl
  | c :: cs, acc, n => by
    unfold readDigits
    split
    · exact le_trans (Nat.le_succ n) (readDigits_count base cs _ _)
    · exact le_rfl

theorem readNumber_digit {c : Char} (t : List Char) (h : c.isDigit = true) :
    ∃ q, readNumber 10 10 'e' 'E' (c :: t) = some q := by
  have hcount : 1 ≤ (readDigits 10 (c :: t) 0 0).2.1 := by
    unfold readDigits
    rw [digitOf_digit h]
    exact readDigits_count 10 t _ _
  unfold readNumber
  simp only []
  split_ifs with h0
  · omega
  · exact ⟨_, rfl⟩

/-- A text that starts with a decimal digit has a literal at its start. -/
theorem readLiteral_digit {c : Char} (t : List Char) (h : c.isDigit = true) :
    ∃ q, readLiteral (c :: t) = some (.num q) := by
  unfold readLiteral
  cases readHex (c :: t) with
  | some q => exact ⟨q, rfl⟩
  | none =>
    obtain ⟨q, hq⟩ := readNumber_digit t h
    exact ⟨q, by simp only [hq]⟩

theorem stod_digit {D : Type} (A : Arith D) {c : Char} (t : List Char)
    (h : c.isDigit = true) :
    ∃ q, stod A (c :: t) = stodResult A false (some (.num q)) := by
  obtain ⟨q, hq⟩ := readLiteral_digit t h
  refine ⟨q, ?_⟩
  have hdrop : (c :: t).dropWhile isSpace = c :: t := by
    rw [List.dropWhile_cons, isSpace_digit h]
    rfl
  have hplus : c ≠ '+' := digit_ne h (by decide)
  have hminus : c ≠ '-' := digit_ne h (by decide)
  have hbody : strtodBody (c :: t) = c :: t := by
    unfold strtodBody
    split
    · rename_i heq; exact absurd (List.cons_eq_cons.mp heq).1 hplus
    · rename_i heq; exact absurd (List.cons_eq_cons.mp heq).1 hminus
    · rfl
  have hsign : strtodSign (c :: t) = false := by
    unfold strtodSign
    split
    · rename_i heq; exact absurd (List.cons_eq_cons.mp heq).1 hminus
    · rfl
  unfold stod
  rw [hdrop, hbody, hsign, hq]

theorem stod_invalid_iff {D : Type} (A : Arith D) (a : List Char) :
    ((stod A a).bind fun v => (.ret (.Constant v) : Run (Expression D)))
        = .throw .invalid_argument
      ↔ readLiteral (strtodBody (a.dropWhile isSpace)) = none := by
  unfold stod
  generalize strtodSign _ = sign
  cases readLiteral (strtodBody (a.dropWhile isSpace)) with
  | none => simp [stodResult, Run.bind]
  | some l =>
    cases l with
    | num q =>
      simp only [stodResult]
      cases A.ofRat sign q <;> simp [Run.bind]
    | inf => simp [stodResult, Run.bind]
    | nan seq => simp [stodResult, Run.bind]

/-- The texts `x2` and `abc` are rejected by `stod`: `parse` throws
`invalid_argument`. -/
theorem parse_leaf_rejected {D : Type} (A : Arith D) {fuel : Nat} (hf : 3 < fuel) :
    parse A fuel "x2".toList = .throw .invalid_argument ∧
    parse A fuel "abc".toList = .throw .invalid_argument := by
  constructor
  · rw [parse_leaf A (by decide) (by decide) (by decide) (by simpa using by omega),
      if_neg (by decide)]
    exact (stod_invalid_iff A _).mpr (Option.isNone_iff_eq_none.mp (by decide))
  · rw [parse_leaf A (by decide) (by decide) (by decide) (by simpa using by omega),
      if_neg (by decide)]
    exact (stod_invalid_iff A _).mpr (Option.isNone_iff_eq_none.mp (by decide))

theorem parse_two_x {fuel : Nat} (hf : 2 < fuel) :
    parse exactArith fuel "2x".toList = .ret (.Constant (some 2)) := by
  rw [parse_leaf exactArith (by decide) (by decide) (by decide) (by simpa using hf),
    if_neg (by decide)]
  decide!

theorem parse_two_abc {fuel : Nat} (hf : 4 < fuel) :
    parse exactArith fuel "2abc".toList = .ret (.Constant (some 2)) := by
  rw [parse_leaf exactArith (by decide) (by decide) (by decide) (by simpa using hf),
    if_neg (by decide)]
  decide!

theorem not_numberForm_of_char {a : List Char} {c : Char} (hc : c ∈ a)
    (h : ¬ (c.isDigit = true ∨ c = '.')) : ¬ NumberForm a :=
  fun hn => h (numberForm_chars hn c hc)

/-- C11, as stated, fails.  The texts `2x` and `2abc` contain none of
`+ - * / ^ ( )`, are not `x` and are not literals (`digits ('.' digits)?`),
yet `parse` does not fail on them: it returns the constant 2. -/
theorem parse_malformed_leaf_counterexample :
    (∀ c ∈ "2x".toList, c ∉ operChars) ∧ "2x".toList ≠ ['x'] ∧ ¬ NumberForm "2x".toList ∧
    (∀ fuel, 2 < fuel → parse exactArith fuel "2x".toList = .ret (.Constant (some 2))) ∧
    (∀ c ∈ "2abc".toList, c ∉ operChars) ∧ "2abc".toList ≠ ['x'] ∧
    ¬ NumberForm "2abc".toList ∧
    (∀ fuel, 4 < fuel → parse exactArith fuel "2abc".toList = .ret (.Constant (some 2))) :=
  ⟨by decide, by decide, not_numberForm_of_char (c := 'x') (by decide) (by decide),
    fun _ hf => parse_two_x hf,
    by decide, by decide, not_numberForm_of_char (c := 'a') (by decide) (by decide),
    fun _ hf => parse_two_abc hf⟩

/-- C11, amended. A leaf is converted by `stod`, which converts the longest
literal at the start of the text and ignores what follows it.  For every
non-empty text without `+ - * / ^ ( )` other than `x`: `parse` returns
`Constant v` when `stod` returns `v` and fails as `stod` fails; it throws
`invalid_argument` exactly when, after white space and an optional sign, no
literal starts the text; and a text that starts with a decimal digit is never
rejected as malformed: `parse` returns the constant of a literal at its start,
or throws `out_of_range` when that literal is out of the range of `double`. -/
theorem parse_leaf_literal_start {D : Type} (A : Arith D) (a : List Char) (hne : a ≠ [])
    (hplain : ∀ c ∈ a, c ∉ operChars) (hx : a ≠ ['x']) (hlen : a.length < 2 ^ 31) :
    (∀ fuel, a.length < fuel →
      parse A fuel a = (stod A a).bind fun v => .ret (.Constant v)) ∧
    (∀ fuel, a.length < fuel →
      (parse A fuel a = .throw .invalid_argument
        ↔ readLiteral (strtodBody (a.dropWhile isSpace)) = none)) ∧
    (∀ c t, a = c :: t → c.isDigit = true → ∃ q, ∀ fuel, a.length < fuel →
      parse A fuel a = match A.ofRat false q with
        | some d => .ret (.Constant d)
        | none => .throw .out_of_range) := by
  have heq : ∀ fuel, a.length < fuel →
      parse A fuel a = (stod A a).bind fun v => .ret (.Constant v) := fun fuel hf => by
    rw [parse_leaf A hne hplain hlen hf, if_neg hx]
  refine ⟨heq, fun fuel hf => ?_, ?_⟩
  · rw [heq fuel hf]
    exact stod_invalid_iff A a
  · rintro c t rfl hc
    obtain ⟨q, hq⟩ := stod_digit A t hc
    refine ⟨q, fun fuel hf => ?_⟩
    rw [heq fuel hf, hq]
    simp only [stodResult]
    cases A.ofRat false q <;> rfl

theorem parse_leaf_literal_start_witness :
    (∀ c ∈ "2.5kg".toList, c ∉ operChars) ∧ "2.5kg".toList ≠ ['x'] ∧
    parse exactArith 6 "2.5kg".toList = .ret (.Constant (some (5 / 2))) :=
  ⟨by decide, by decide,
    ((parse_leaf_literal_start exactArith "2.5kg".toList (by decide) (by decide) (by decide)
      (by decide)).1 6 (by decide)).trans (by decide!)⟩

/-! ## A split at index 0 that is not a sign -/

/-- C12 fails on the text `*3`.  `findOper` returns index 0, where the
character is `*` and not a sign; neither `case` of the `switch (expr[0])`
applies and `parse` returns a null pointer.  As an operand, in `2+*3`, the null
pointer becomes a child of a `Binary` node, whose evaluation dereferences it. -/
theorem parse_null_node :
    Balanced "*3".toList ∧
    (∀ fuel, 2 < fuel → findOper fuel "*3".toList = .ret 0) ∧
    charAt "*3".toList 0 = '*' ∧
    (∀ fuel, 2 < fuel →
      parse exactArith fuel "*3".toList = .ret Expression.nullptr) ∧
    (∀ fuel, 4 < fuel →
      parse exactArith fuel "2+*3".toList
        = .ret (.Binary .add (.Constant (some 2)) .nullptr)) ∧
    (Expression.Binary .add (.Constant (some 2)) .nullptr).hasNull = true ∧
    (Expression.Binary .add (.Constant (some 2)) .nullptr).value exactArith = none := by
  refine ⟨by decide, fun fuel hf => ?_, by decide, fun fuel hf => ?_, fun fuel hf => ?_,
    by decide, by decide⟩
  · obtain ⟨r, _, hrun⟩ := @findOper_balanced "*3".toList (by decide) (by decide)
    have h3 : findOper 3 "*3".toList = .ret 0 := by decide
    rw [hrun fuel (by simpa using hf), ← hrun 3 (by decide), h3]
  · exact parse_of_le exactArith (f := 3) (by decide!) (by simp) (by omega)
  · exact parse_of_le exactArith (f := 5) (by decide!) (by simp) (by omega)

/-! ## Parsing the fully parenthesised rendering of a tree -/

theorem solveLoop_step {D : Type} (A : ArithOrd D) {expr : Expression D} {f : D → D}
    (hf : ∀ x, expr.valueAt A.toArith x = some (f x)) (dx : D) (n calls : Nat) (x : D) :
    solveLoop A expr dx (n + 1) calls x
      = if residualSmall A f x = true then some (newtonStep A f dx x, calls + 2)
        else solveLoop A expr dx n (calls + 2) (newtonStep A f dx x) := by
  simp only [solveLoop, hf, residualSmall, newtonStep]

theorem newtonSeq_shift {D : Type} (A : ArithOrd D) (f : D → D) (dx x : D) :
    ∀ i, newtonSeq A f dx (newtonStep A f dx x) i = newtonSeq A f dx x (i + 1)
  | 0 => rfl
  | i + 1 => by
    show newtonStep A f dx (newtonSeq A f dx (newtonStep A f dx x) i) = _
    rw [newtonSeq_shift A f dx x i]
    rfl

/-- The loop of `solve` stops at the first iterate with a small residual and
returns the iterate after it. -/
theorem solveLoop_stop {D : Type} (A : ArithOrd D) {expr : Expression D} {f : D → D}
    (hf : ∀ x, expr.valueAt A.toArith x = some (f x)) (dx : D) :
    ∀ (n calls : Nat) (x : D) (k : Nat), k < n →
      residualSmall A f (newtonSeq A f dx x k) = true →
      (∀ j, j < k → residualSmall A f (newtonSeq A f dx x j) = false) →
      solveLoop A expr dx n calls x = some (newtonSeq A f dx x (k + 1), calls + 2 * (k + 1)) := by
  intro n
  induction n with
  | zero => intro calls x k hk; omega
  | succ n ih =>
    intro calls x k hk hsmall hbefore
    rw [solveLoop_step A hf]
    cases k with
    | zero =>
      rw [if_pos (show residualSmall A f x = true from hsmall)]
      rfl
    | succ k =>
      have h0 : residualSmall A f x = false := hbefore 0 (by omega)
      rw [if_neg (by rw [h0]; simp)]
      rw [ih (calls + 2) (newtonStep A f dx x) k (by omega)
        (by rw [newtonSeq_shift]; exact hsmall)
        (fun j hj => by rw [newtonSeq_shift]; exact hbefore (j + 1) (by omega)),
        newtonSeq_shift]
      congr 2
      omega

/-- Without a small residual the loop of `solve` runs all its iterations. -/
theorem solveLoop_cap {D : Type} (A : ArithOrd D) {expr : Expression D} {f : D → D}
    (hf : ∀ x, expr.valueAt A.toArith x = some (f x)) (dx : D) :
    ∀ (n calls : Nat) (x : D),
      (∀ k, k < n → residualSmall A f (newtonSeq A f dx x k) = false) →
      solveLoop A expr dx n calls x = some (newtonSeq A f dx x n, calls + 2 * n) := by
  intro n
  induction n with
  | zero => intro calls x _; rfl
  | succ n ih =>
    intro calls x hall
    have h0 : residualSmall A f x = false := hall 0 (by omega)
    rw [solveLoop_step A hf, if_neg (by rw [h0]; simp),
      ih (calls + 2) (newtonStep A f dx x)
        (fun k hk => by rw [newtonSeq_shift]; exact hall (k + 1) (by omega)),
      newtonSeq_shift]
    congr 2
    omega

theorem solveLoop_calls {D : Type} (A : ArithOrd D) {expr : Expression D} {f : D → D}
    (hf : ∀ x, expr.valueAt A.toArith x = some (f x)) (dx : D) :
    ∀ (n calls : Nat) (x : D), ∃ r c, solveLoop A expr dx n calls x = some (r, c) ∧
      c ≤ calls + 2 * n := by
  intro n
  induction n with
  | zero => intro calls x; exact ⟨x, calls, rfl, by omega⟩
  | succ n ih =>
    intro calls x
    rw [solveLoop_step A hf]
    split
    · exact ⟨_, _, rfl, by omega⟩
    · obtain ⟨r, c, h1, h2⟩ := ih (calls + 2) (newtonStep A f dx x)
      exact ⟨r, c, h1, by omega⟩

theorem valueAt_x_minus {D : Type} (A : Arith D) (c x : D) :
    (Expression.Binary .sub .Variable (.Constant c)).valueAt A x = some (A.minus x c) := rfl

/-- C14. The solver and its reference definition.  For an expression that
evaluates to `f x` at every `x`, with `N(x) = x - f(x) / ((f(x+dx) - f(x)) / dx)`,
`x_0 = x0` and `x_(i+1) = N(x_i)`: when `k < 1000` is the least index with
`|f(x_k)| < DBL_MIN`, `solve` returns `x_(k+1)`, the Newton update computed
from the point where the test passed, after `2 * (k + 1)` evaluations; when
there is no such index it returns `x_1000` after 2000 evaluations; in every
case it returns after at most 2000 evaluations, that is 1000 iterations. -/
theorem solve_reference {D : Type} (A : ArithOrd D) (expr : Expression D) (f : D → D)
    (hf : ∀ x, expr.valueAt A.toArith x = some (f x)) (x0 dx : D) :
    (∀ k, k < 1000 → residualSmall A f (newtonSeq A f dx x0 k) = true →
      (∀ j, j < k → residualSmall A f (newtonSeq A f dx x0 j) = false) →
      solve A expr x0 dx = some (newtonSeq A f dx x0 (k + 1), 2 * (k + 1))) ∧
    ((∀ k, k < 1000 → residualSmall A f (newtonSeq A f dx x0 k) = false) →
      solve A expr x0 dx = some (newtonSeq A f dx x0 1000, 2000)) ∧
    (∃ r calls, solve A expr x0 dx = some (r, calls) ∧ calls ≤ 2000) := by
  refine ⟨fun k hk hsmall hbefore => ?_, fun hall => ?_, ?_⟩
  · have := solveLoop_stop A hf dx 1000 0 x0 k hk hsmall hbefore
    rw [Nat.zero_add] at this
    exact this
  · exact solveLoop_cap A hf dx 1000 0 x0 hall
  · obtain ⟨r, c, h1, h2⟩ := solveLoop_calls A hf dx 1000 0 x0
    exact ⟨r, c, h1, by omega⟩

theorem solve_reference_witness :
    (1 : Nat) < 1000 ∧
    ∀ pow, solve (binary64 pow) (.Binary .sub .Variable (.Constant (.fin 5)))
        (.zero false) (.fin 1) = some (.fin 5, 4) :=
  ⟨by decide, fun pow =>
    ((solve_reference (binary64 pow) (.Binary .sub .Variable (.Constant (.fin 5)))
      (fun x => Double.sub x (.fin 5)) (fun _ => rfl) (.zero false) (.fin 1)).1 1 (by decide)
      (show residualSmall (binary64 fun _ _ => .nan) (fun x => Double.sub x (.fin 5))
          (newtonSeq (binary64 fun _ _ => .nan) (fun x => Double.sub x (.fin 5)) (.fin 1)
            (.zero false) 1) = true by decide!)
      (fun j hj => by
        obtain rfl : j = 0 := by omega
        exact (show residualSmall (binary64 fun _ _ => .nan) (fun x => Double.sub x (.fin 5))
          (newtonSeq (binary64 fun _ _ => .nan) (fun x => Double.sub x (.fin 5)) (.fin 1)
            (.zero false) 0) = false by decide!))).trans
      (show some (newtonSeq (binary64 fun _ _ => .nan) (fun x => Double.sub x (.fin 5))
          (.fin 1) (.zero false) 2, 2 * (1 + 1)) = some (Double.fin 5, 4) by decide!)⟩

/-! ## Linear equations in binary64 -/

theorem roundDouble_zero : roundDouble 0 = .zero false := by
  unfold roundDouble
  rw [if_pos rfl]

theorem roundDouble_of_isDouble {r : ℚ} (h : IsDouble r) : (roundDouble r).HasValue r := by
  by_cases hr : r = 0
  · subst hr
    rw [roundDouble_zero]
    exact Or.inl ⟨rfl, false, rfl⟩
  · rcases h with h | h
    · exact absurd h hr
    · rw [h]
      exact Or.inr ⟨hr, rfl⟩

theorem hasValue_ofExact (q : ℚ) : (Double.ofExact q).HasValue q := by
  unfold Double.ofExact
  split
  · rename_i h
    exact Or.inl ⟨h, false, rfl⟩
  · rename_i h
    exact Or.inr ⟨h, rfl⟩

theorem hasValue_congr {v : Double} {p q : ℚ} (h : v.HasValue p) (hpq : p = q) :
    v.HasValue q := hpq ▸ h

theorem add_hasValue {a b : Double} {p q : ℚ} (ha : a.HasValue p) (hb : b.HasValue q)
    (h : IsDouble (p + q)) : (Double.add a b).HasValue (p + q) := by
  rcases ha with ⟨rfl, s, rfl⟩ | ⟨hp, rfl⟩ <;> rcases hb with ⟨rfl, t, rfl⟩ | ⟨hq, rfl⟩
  · exact Or.inl ⟨by simp, _, rfl⟩
  · exact Or.inr ⟨by simpa using hq, by simp [Double.add]⟩
  · exact Or.inr ⟨by simpa using hp, by simp [Double.add]⟩
  · exact roundDouble_of_isDouble h

theorem sub_hasValue {a b : Double} {p q : ℚ} (ha : a.HasValue p) (hb : b.HasValue q)
    (h : IsDouble (p - q)) : (Double.sub a b).HasValue (p - q) := by
  rcases ha with ⟨rfl, s, rfl⟩ | ⟨hp, rfl⟩ <;> rcases hb with ⟨rfl, t, rfl⟩ | ⟨hq, rfl⟩
  · exact Or.inl ⟨by simp, _, rfl⟩
  · exact Or.inr ⟨by simpa using hq, by simp [Double.sub]⟩
  · exact Or.inr ⟨by simpa using hp, by simp [Double.sub]⟩
  · exact roundDouble_of_isDouble h

theorem div_hasValue {a b : Double} {p q : ℚ} (ha : a.HasValue p) (hb : b.HasValue q)
    (hq : q ≠ 0) (h : IsDouble (p / q)) : (Double.div a b).HasValue (p / q) := by
  rcases ha with ⟨rfl, s, rfl⟩ | ⟨hp, rfl⟩ <;> rcases hb with ⟨rfl, t, rfl⟩ | ⟨_, rfl⟩
  · exact absurd rfl hq
  · exact Or.inl ⟨by simp, _, rfl⟩
  · exact absurd rfl hq
  · exact roundDouble_of_isDouble h

theorem isDouble_one : IsDouble 1 := by decide!

/-- One Newton update of `solve` on `x - c` in binary64, when no operation
rounds: it lands on the value of `c`. -/
theorem newtonStep_exact (pow : Double → Double → Double) {x c dx : Double} {vx vc vd : ℚ}
    (hx : x.HasValue vx) (hc : c.HasValue vc) (hdx : dx.HasValue vd) (hd : vd ≠ 0)
    (h1 : IsDouble (vx + vd)) (h2 : IsDouble (vx - vc)) (h3 : IsDouble (vx + vd - vc))
    (h4 : IsDouble vc) (h5 : IsDouble vd) :
    (newtonStep (binary64 pow) (fun x => Double.sub x c) dx x).HasValue vc := by
  have hy : (Double.sub x c).HasValue (vx - vc) := sub_hasValue hx hc h2
  have hs : (Double.add x dx).HasValue (vx + vd) := add_hasValue hx hdx h1
  have hy2 : (Double.sub (Double.add x dx) c).HasValue (vx + vd - vc) := sub_hasValue hs hc h3
  have e1 : vx + vd - vc - (vx - vc) = vd := by ring
  have hdy := hasValue_congr (sub_hasValue hy2 hy (by rw [e1]; exact h5)) e1
  have e2 : vd / vd = 1 := div_self hd
  have hr := hasValue_congr (div_hasValue hdy hdx hd (by rw [e2]; exact isDouble_one)) e2
  have e3 : (vx - vc) / 1 = vx - vc := div_one _
  have ht := hasValue_congr (div_hasValue hy hr one_ne_zero (by rw [e3]; exact h2)) e3
  have e4 : vx - (vx - vc) = vc := by ring
  exact hasValue_congr (sub_hasValue hx ht (by rw [e4]; exact h4)) e4

theorem residualSmall_zero (pow : Double → Double → Double) {x c : Double} {vc : ℚ}
    (hx : x.HasValue vc) (hc : c.HasValue vc) :
    residualSmall (binary64 pow) (fun x => Double.sub x c) x = true := by
  have h := sub_hasValue hx hc (by rw [sub_self]; exact Or.inl rfl)
  rw [sub_self] at h
  rcases h with ⟨_, s, hs⟩ | ⟨h0, _⟩
  · show Double.lt (Double.abs (Double.sub x c)) (Double.fin (1 / 2 ^ 1022)) = true
    rw [hs]
    show decide ((0 : ℚ) < 1 / 2 ^ 1022) = true
    rw [decide_eq_true_eq]
    positivity
  · exact absurd rfl h0

/-- On `x - c` in binary64, from a start `x0` and with a step `dx` for which
no operation of the first two iterations rounds, `solve` returns the value of
`c` after at most two iterations. -/
theorem solve_exact (pow : Double → Double → Double) {x0 c dx : Double} {vx vc vd : ℚ}
    (hx : x0.HasValue vx) (hc : c.HasValue vc) (hdx : dx.HasValue vd) (hd : vd ≠ 0)
    (h1 : IsDouble (vx + vd)) (h2 : IsDouble (vx - vc)) (h3 : IsDouble (vx + vd - vc))
    (h4 : IsDouble vc) (h5 : IsDouble vd) (h6 : IsDouble (vc + vd)) :
    ∃ r calls, solve (binary64 pow) (.Binary .sub .Variable (.Constant c)) x0 dx
        = some (r, calls) ∧ r.HasValue vc ∧ calls ≤ 4 := by
  have hf : ∀ x, (Expression.Binary .sub .Variable (.Constant c)).valueAt
      (binary64 pow).toArith x = some ((fun x => Double.sub x c) x) := fun _ => rfl
  have hx1 := newtonStep_exact pow hx hc hdx hd h1 h2 h3 h4 h5
  have hx2 := newtonStep_exact pow hx1 hc hdx hd h6 (by rw [sub_self]; exact Or.inl rfl)
    (by rw [add_sub_cancel_left]; exact h5) h4 h5
  unfold solve
  rw [show (1000 : Nat) = 998 + 1 + 1 from rfl, solveLoop_step (binary64 pow) hf]
  split
  · exact ⟨_, _, rfl, hx1, by omega⟩
  · rw [solveLoop_step (binary64 pow) hf, if_pos (residualSmall_zero pow hx1 hc)]
    exact ⟨_, _, rfl, hx2, by omega⟩

theorem numberValue_nonneg (s : List Char) : 0 ≤ numberValue s := by
  unfold numberValue
  positivity

theorem ofRat_exact {v : ℚ} (h0 : 0 ≤ v) (h : IsDouble v) :
    Double.ofRat false v = some (Double.ofExact v) := by
  unfold Double.ofRat Double.ofExact
  by_cases hv : v = 0
  · rw [if_pos hv, if_pos hv]
  · rw [if_neg hv, if_neg hv]
    rcases h with h | h
    · exact absurd h hv
    · simp only [Bool.false_eq_true, if_false, h]
      rw [if_neg]
      rintro ⟨_, h2⟩
      exact h2 (abs_of_nonneg h0)

/-- The tree of `x-c` for a literal `c`. -/
theorem parse_x_minus {D : Type} (A : Arith D) {lit : List Char} (hn : NumberForm lit) {c : D}
    (hc : A.ofRat false (numberValue lit) = some c) (hlen : lit.length + 2 < 2 ^ 31)
    {fuel : Nat} (hf : lit.length + 2 < fuel) :
    parse A fuel ('x' :: '-' :: lit) = .ret (.Binary .sub .Variable (.Constant c)) := by
  have hadd : ∀ i, ¬ AddAt lit i := no_add_of_chars fun c hc => by
    rcases numberForm_chars hn c hc with h | rfl
    · exact ⟨digit_ne h (by decide), digit_ne h (by decide)⟩
    · exact ⟨by decide, by decide⟩
  have h := @parse_additive D A ['x'] lit '-' (Or.inr rfl) (by decide) (by decide)
    (numberForm_balanced hn) hadd (by simp only [List.length_singleton]; omega) fuel
    (by simp only [List.length_singleton]; omega)
  rw [show ['x'] ++ '-' :: lit = 'x' :: '-' :: lit from rfl] at h
  rw [h, parse_leaf A (a := ['x']) (by decide) (by decide) (by decide)
      (by simp only [List.length_singleton]; omega), if_pos rfl,
    parse_number A hn (by omega) (by omega), stod_number A hn]
  simp only [stodResult, hc]
  rfl

/-- The loop of `solve` on `x - c` does not depend on the library function
`pow`. -/
theorem solveLoop_pow (pow pow2 : Double → Double → Double) (c dx : Double) :
    ∀ (n calls : Nat) (x : Double),
      solveLoop (binary64 pow) (.Binary .sub .Variable (.Constant c)) dx n calls x
        = solveLoop (binary64 pow2) (.Binary .sub .Variable (.Constant c)) dx n calls x := by
  intro n
  induction n with
  | zero => intro calls x; rfl
  | succ n ih =>
    intro calls x
    have hf : ∀ x, (Expression.Binary .sub .Variable (.Constant c)).valueAt
        (binary64 pow).toArith x = some (Double.sub x c) := fun _ => rfl
    have hf2 : ∀ x, (Expression.Binary .sub .Variable (.Constant c)).valueAt
        (binary64 pow2).toArith x = some (Double.sub x c) := fun _ => rfl
    rw [solveLoop_step (binary64 pow) hf, solveLoop_step (binary64 pow2) hf2, ih]
    rfl

/-- C15, as stated, fails.  In binary64, from `x0 = 0` with the step
`dx = 2^-60`, which is a double and not zero, `solve` on the tree of `x-5`
does not return 5: `(0 + dx) - 5` rounds to `-5`, the difference quotient is
`0`, the first update is `0 - (-5 / 0)`, an infinity, the second a NaN, and
after all 1000 iterations (2000 evaluations) `solve` returns the NaN. -/
theorem solve_linear_counterexample :
    IsDouble (1 / 2 ^ 60) ∧ (1 / 2 ^ 60 : ℚ) ≠ 0 ∧
    (∀ pow fuel, 3 < fuel → parse (binary64 pow).toArith fuel "x-5".toList
      = .ret (.Binary .sub .Variable (.Constant (.fin 5)))) ∧
    (∀ pow, solve (binary64 pow) (.Binary .sub .Variable (.Constant (.fin 5)))
      (.zero false) (.fin (1 / 2 ^ 60)) = some (.nan, 2000)) := by
  refine ⟨by decide!, by norm_num, fun pow fuel hf => ?_, fun pow => ?_⟩
  · exact @parse_x_minus _ (binary64 pow).toArith ['5'] (numberForm_single (by decide)) _
      (show Double.ofRat false (numberValue ['5']) = some (.fin 5) by decide!) (by decide)
      fuel (by simpa using hf)
  · unfold solve
    rw [solveLoop_pow pow (fun _ _ => .nan)]
    decide!

/-- With the step `dx = 1e-12` of `main`, `solve` on the tree of `x-5` from
`x0 = 0` returns 5 at the fifth iteration: the first update gives
`4.9995...`, not 5, because `(0 + dx) - 5` is rounded. -/
theorem solve_linear_main_step (pow : Double → Double → Double) :
    solve (binary64 pow) (.Binary .sub .Variable (.Constant (.fin 5)))
      (.zero false) (roundDouble (1 / 10 ^ 12)) = some (.fin 5, 10) ∧
    newtonStep (binary64 pow) (fun x => Double.sub x (.fin 5)) (roundDouble (1 / 10 ^ 12))
      (.zero false) ≠ .fin 5 := by
  constructor
  · unfold solve
    rw [solveLoop_pow pow (fun _ _ => .nan)]
    decide!
  · exact (show newtonStep (binary64 fun _ _ => .nan) (fun x => Double.sub x (.fin 5))
      (roundDouble (1 / 10 ^ 12)) (.zero false) ≠ .fin 5 by decide!)

/-- C15, amended. Linear equations in binary64.  For every numeric literal
`c`, every start `x0` and every step `dx` other than zero, all three doubles,
such that `x0 + dx`, `x0 - c`, `x0 + dx - c` and `c + dx` are doubles, so
that no operation of the first two iterations rounds: `parse ("x-" ++ c)`
is the tree `Binary(sub, Variable, Constant c)` and `solve` on it returns
the value of `c` after at most two iterations (four evaluations), the first
Newton update landing on `c`. -/
theorem solve_linear_exact (pow : Double → Double → Double) (lit : List Char)
    (hn : NumberForm lit) (hlen : lit.length + 2 < 2 ^ 31) (vx vd : ℚ) (hd : vd ≠ 0)
    (hc : IsDouble (numberValue lit)) (hx : IsDouble vx) (hdx : IsDouble vd)
    (h1 : IsDouble (vx + vd)) (h2 : IsDouble (vx - numberValue lit))
    (h3 : IsDouble (vx + vd - numberValue lit)) (h4 : IsDouble (numberValue lit + vd)) :
    (∀ fuel, lit.length + 2 < fuel →
      parse (binary64 pow).toArith fuel ('x' :: '-' :: lit)
        = .ret (.Binary .sub .Variable (.Constant (Double.ofExact (numberValue lit))))) ∧
    (newtonStep (binary64 pow) (fun x => Double.sub x (Double.ofExact (numberValue lit)))
      (Double.ofExact vd) (Double.ofExact vx)).HasValue (numberValue lit) ∧
    ∃ r calls, solve (binary64 pow)
        (.Binary .sub .Variable (.Constant (Double.ofExact (numberValue lit))))
        (Double.ofExact vx) (Double.ofExact vd) = some (r, calls) ∧
      r.HasValue (numberValue lit) ∧ calls ≤ 4 :=
  ⟨fun _ hf => parse_x_minus (binary64 pow).toArith hn
      (ofRat_exact (numberValue_nonneg lit) hc) hlen hf,
    newtonStep_exact pow (hasValue_ofExact vx) (hasValue_ofExact _) (hasValue_ofExact vd) hd
      h1 h2 h3 hc hdx,
    solve_exact pow (hasValue_ofExact vx) (hasValue_ofExact _) (hasValue_ofExact vd) hd
      h1 h2 h3 hc hdx h4⟩

theorem solve_linear_exact_witness :
    IsDouble (0 + 1 / 2 ^ 40 - numberValue ['5']) ∧
    ∀ pow, ∃ r calls, solve (binary64 pow)
        (.Binary .sub .Variable (.Constant (Double.ofExact (numberValue ['5']))))
        (Double.ofExact 0) (Double.ofExact (1 / 2 ^ 40)) = some (r, calls) ∧
      r.HasValue (numberValue ['5']) ∧ calls ≤ 4 :=
  ⟨by decide!, fun pow =>
    (solve_linear_exact pow ['5'] (numberForm_single (by decide)) (by decide) 0 (1 / 2 ^ 40)
      (by norm_num) (by decide!) (by decide!) (by decide!) (by decide!) (by decide!)
      (by decide!) (by decide!)).2.2⟩

end Calculator
